import Mathlib

set_option maxHeartbeats 1000000

/-! Shallow embedding of the control-flow flattening pass implemented in
lib/Transforms/Obfuscate/Flattening.cpp.  Blocks are identified by numeric
ids (standing for the C++ pointer identity), instruction results by numeric
SSA value ids.  The pass itself (`flatten`, `fixStack`, `valueEscapes`) is
translated from the source; the two demotion utilities it calls
(DemoteRegToStack, DemotePHIToStack, declared in
llvm/Transforms/Utils/Local.h) are external LLVM code and are modelled from
the specification, as documented on their definitions. -/

namespace Flattening

/-- Operand of an instruction: an integer constant, a reference to the value
produced by the instruction whose result id is the given number, or the C++
null pointer (which the source code can hand to StoreInst when findCaseDest
finds no case). -/
inductive Operand where
  | const : Int → Operand
  | reg : Nat → Operand
  | nullp : Operand
deriving DecidableEq, Repr, Inhabited

/-- Instruction.  `phi` carries (incoming block id, incoming operand) pairs;
`alloca` produces a stack slot address; `load`/`store` access a slot through
a pointer operand; `select` picks between two operands by a condition;
`op` stands for any other value-producing instruction. -/
inductive Instr where
  | phi : Nat → List (Nat × Operand) → Instr
  | alloca : Nat → Instr
  | load : Nat → Operand → Instr
  | store : Operand → Operand → Instr
  | select : Nat → Operand → Operand → Operand → Instr
  | op : Nat → List Operand → Instr
deriving DecidableEq, Repr, Inhabited

/-- Terminator of a basic block.  `jump` is an unconditional branch,
`br` a conditional branch (successor 0 is the true target, as with LLVM
BranchInst::getSuccessor), `invoke` has a normal and an unwind successor,
`switch` has a condition, a default successor and a list of
(case value, successor) pairs. -/
inductive Term where
  | ret : Option Operand → Term
  | jump : Nat → Term
  | br : Operand → Nat → Nat → Term
  | invoke : Nat → Nat → Term
  | switch : Operand → Nat → List (Int × Nat) → Term
deriving DecidableEq, Repr, Inhabited

/-- Basic block: identity, ordered instructions, one terminator. -/
structure Block where
  bid : Nat
  insts : List Instr
  term : Term
deriving DecidableEq, Repr, Inhabited

/-- Function: ordered blocks, the first being the entry block. -/
structure Func where
  blocks : List Block
deriving DecidableEq, Repr, Inhabited

/-- Result id of an instruction, none for a store. -/
def Instr.resId : Instr → Option Nat
  | .phi n _ => some n
  | .alloca n => some n
  | .load n _ => some n
  | .store _ _ => none
  | .select n _ _ _ => some n
  | .op n _ => some n

/-- Operands read by an instruction. -/
def Instr.operands : Instr → List Operand
  | .phi _ inc => inc.map Prod.snd
  | .alloca _ => []
  | .load _ p => [p]
  | .store v p => [v, p]
  | .select _ c a b => [c, a, b]
  | .op _ as => as

def Instr.isPhi : Instr → Bool
  | .phi _ _ => true
  | _ => false

def Instr.isAlloca : Instr → Bool
  | .alloca _ => true
  | _ => false

/-- Does this instruction read the value with id `n`? -/
def Instr.usesId (u : Instr) (n : Nat) : Bool :=
  u.operands.any (· = Operand.reg n)

/-- Operands read by a terminator. -/
def Term.operands : Term → List Operand
  | .ret v => v.toList
  | .jump _ => []
  | .br c _ _ => [c]
  | .invoke _ _ => []
  | .switch c _ _ => [c]

def Term.usesId (t : Term) (n : Nat) : Bool :=
  t.operands.any (· = Operand.reg n)

/-- Successor list, ordered as LLVM getSuccessor orders them. -/
def Term.successors : Term → List Nat
  | .ret _ => []
  | .jump t => [t]
  | .br _ t e => [t, e]
  | .invoke n u => [n, u]
  | .switch _ d cs => d :: cs.map Prod.snd

def Term.numSuccessors (t : Term) : Nat :=
  t.successors.length

def Term.isInvoke : Term → Bool
  | .invoke _ _ => true
  | _ => false

/-- `isa<BranchInst> && isConditional` of the source: in this model the
conditional branch is its own constructor. -/
def Term.isCondBr : Term → Bool
  | .br _ _ _ => true
  | _ => false

/-- Entry block id of a function (first block, as f->begin() in the source). -/
def entryBid (f : Func) : Nat :=
  (f.blocks.headD default).bid

/-- valueEscapes (Flattening.cpp:56): some user of the value lives in
another block, or some user is a phi node. -/
def valueEscapes (f : Func) (defBid n : Nat) : Bool :=
  f.blocks.any fun b =>
    b.insts.any (fun u => u.usesId n && (decide (b.bid ≠ defBid) || u.isPhi))
      || (b.term.usesId n && decide (b.bid ≠ defBid))

/-- Value::isUsedOutsideOfBlock: like valueEscapes, except a phi user is
charged to the incoming predecessor block rather than to the phi itself. -/
def usedOutsideOfBlock (f : Func) (defBid n : Nat) : Bool :=
  f.blocks.any fun b =>
    b.insts.any (fun u =>
      match u with
      | .phi _ inc => inc.any fun pv => pv.2 = Operand.reg n && decide (pv.1 ≠ defBid)
      | _ => u.usesId n && decide (b.bid ≠ defBid))
      || (b.term.usesId n && decide (b.bid ≠ defBid))

/-- One scan of fixStack (Flattening.cpp:78): the result ids pushed on
tmpReg, in scan order: not a phi, not an alloca sitting in the entry block,
and escaping by valueEscapes or isUsedOutsideOfBlock. -/
def collectRegs (f : Func) : List Nat :=
  (f.blocks.map fun b =>
    b.insts.filterMap fun j =>
      match j.resId with
      | none => none
      | some n =>
        if j.isPhi then none
        else if j.isAlloca && b.bid = entryBid f then none
        else if valueEscapes f b.bid n || usedOutsideOfBlock f b.bid n then some n
        else none).flatten

/-- One scan of fixStack: the result ids pushed on tmpPhi, in scan order. -/
def collectPhis (f : Func) : List Nat :=
  (f.blocks.map fun b =>
    b.insts.filterMap fun j => if j.isPhi then j.resId else none).flatten

/-- Substitute reads of value `n` by reads of value `l`. -/
def substOp (n l : Nat) : Operand → Operand
  | .reg m => if m = n then .reg l else .reg m
  | o => o

def Instr.substUses (n l : Nat) : Instr → Instr
  | .phi m inc => .phi m (inc.map fun pv => (pv.1, substOp n l pv.2))
  | .alloca m => .alloca m
  | .load m p => .load m (substOp n l p)
  | .store v p => .store (substOp n l v) (substOp n l p)
  | .select m c a b => .select m (substOp n l c) (substOp n l a) (substOp n l b)
  | .op m as => .op m (as.map (substOp n l))

def Term.substUses (n l : Nat) : Term → Term
  | .ret v => .ret (v.map (substOp n l))
  | .jump t => .jump t
  | .br c t e => .br (substOp n l c) t e
  | .invoke a b => .invoke a b
  | .switch c d cs => .switch (substOp n l c) d cs

/-- Replace every incoming phi operand reading value `n` by a fresh load id,
recording (incoming block id, fresh load id) so the load can be placed in
that predecessor block; threads the fresh-id counter. -/
def demoteIncoming (n : Nat) : List (Nat × Operand) → Nat →
    List (Nat × Operand) × List (Nat × Nat) × Nat
  | [], c => ([], [], c)
  | (p, v) :: rest, c =>
    if v = Operand.reg n then
      let s := demoteIncoming n rest (c+1)
      ((p, Operand.reg c) :: s.1, (p, c) :: s.2.1, s.2.2)
    else
      let s := demoteIncoming n rest c
      ((p, v) :: s.1, s.2.1, s.2.2)

/-- Rewrite one instruction list for the demotion of value `n` to the cell
`a`: a fresh load from `a` is inserted immediately before each non-phi user
and the user rewritten to read it; phi users have their incoming operands
redirected to fresh loads that will be appended to the predecessor blocks
(second component). -/
def demoteInsts (n a : Nat) : List Instr → Nat → List Instr × List (Nat × Nat) × Nat
  | [], c => ([], [], c)
  | u :: rest, c =>
    match u with
    | .phi m inc =>
      let r := demoteIncoming n inc c
      let s := demoteInsts n a rest r.2.2
      (Instr.phi m r.1 :: s.1, r.2.1 ++ s.2.1, s.2.2)
    | _ =>
      if u.usesId n then
        let s := demoteInsts n a rest (c+1)
        (Instr.load c (Operand.reg a) :: u.substUses n c :: s.1, s.2.1, s.2.2)
      else
        let s := demoteInsts n a rest c
        (u :: s.1, s.2.1, s.2.2)

/-- Rewrite one block for the demotion of value `n`: instructions, then a
use in the terminator gets its load placed at the end of the instruction
list, immediately before the terminator. -/
def demoteBlock (n a : Nat) (b : Block) (c : Nat) : Block × List (Nat × Nat) × Nat :=
  let s := demoteInsts n a b.insts c
  if b.term.usesId n then
    (Block.mk b.bid (s.1 ++ [Instr.load s.2.2 (Operand.reg a)]) (b.term.substUses n s.2.2),
      s.2.1, s.2.2 + 1)
  else
    (Block.mk b.bid s.1 b.term, s.2.1, s.2.2)

def demoteBlocks (n a : Nat) : List Block → Nat → List Block × List (Nat × Nat) × Nat
  | [], c => ([], [], c)
  | b :: rest, c =>
    let s := demoteBlock n a b c
    let t := demoteBlocks n a rest s.2.2
    (s.1 :: t.1, s.2.1 ++ t.2.1, t.2.2)

/-- Append the recorded predecessor-block load for one phi use.  Block ids
stand for the C++ pointer identity, hence unique in any real function. -/
def appendLoad (a : Nat) (pl : Nat × Nat) (bs : List Block) : List Block :=
  bs.map fun b =>
    if b.bid = pl.1 then Block.mk b.bid (b.insts ++ [Instr.load pl.2 (Operand.reg a)]) b.term
    else b

def appendLoads (a : Nat) (pend : List (Nat × Nat)) (bs : List Block) : List Block :=
  pend.foldl (fun acc pl => appendLoad a pl acc) bs

/-- Insert `st` immediately after the definition of value `n`. -/
def insertAfterDef (n : Nat) (st : Instr) : List Instr → List Instr
  | [] => []
  | u :: rest =>
    if u.resId = some n then u :: st :: rest
    else u :: insertAfterDef n st rest

def insertStoreAfterDef (n : Nat) (st : Instr) (bs : List Block) : List Block :=
  bs.map fun b => Block.mk b.bid (insertAfterDef n st b.insts) b.term

/-- Append the demotion cell to the entry block, before its terminator. -/
def appendAllocaEntry (a : Nat) : List Block → List Block
  | [] => []
  | b :: rest => Block.mk b.bid (b.insts ++ [Instr.alloca a]) b.term :: rest

/-- Modelled from the spec: DemoteRegToStack (declared in
llvm/Transforms/Utils/Local.h, body external to this repository).  Spec 4.6
step 3: replace the collected escaping instruction result with a dedicated
storage cell, "a store right after the definition, a load at each use
site"; the cell is an alloca placed before the entry block terminator (the
AllocaPoint passed at Flattening.cpp:95).  A use inside a phi is evaluated
in the corresponding predecessor block (spec 4.1), so its load is placed
there, before that block's terminator. -/
def demoteRegToStack (n : Nat) (f : Func) (c : Nat) : Func × Nat :=
  if f.blocks.any (fun b => b.insts.any fun u => u.resId = some n) then
    let a := c
    let s := demoteBlocks n a f.blocks (c+1)
    let bs1 := appendLoads a s.2.1 s.1
    let bs2 := insertStoreAfterDef n (Instr.store (Operand.reg n) (Operand.reg a)) bs1
    (⟨appendAllocaEntry a bs2⟩, s.2.2)
  else (f, c)

/-- First incoming list of a phi with result id `n`. -/
def phiIncomingOf (n : Nat) (f : Func) : List (Nat × Operand) :=
  ((f.blocks.map fun b =>
    b.insts.filterMap fun u =>
      match u with
      | .phi m inc => if m = n then some inc else none
      | _ => none).flatten).headD []

/-- Replace the (first) phi with result id `n` in place by a load, keeping
the result id so the users are untouched. -/
def replacePhiWithLoad (n a : Nat) : List Instr → List Instr
  | [] => []
  | u :: rest =>
    if u.isPhi && u.resId = some n then Instr.load n (Operand.reg a) :: rest
    else u :: replacePhiWithLoad n a rest

def appendStore (a : Nat) (pv : Nat × Operand) (bs : List Block) : List Block :=
  bs.map fun b =>
    if b.bid = pv.1 then Block.mk b.bid (b.insts ++ [Instr.store pv.2 (Operand.reg a)]) b.term
    else b

/-- Modelled from the spec: DemotePHIToStack (declared in
llvm/Transforms/Utils/Local.h, body external to this repository).  Spec 4.6
step 2: replace the collected merge-value with a dedicated storage cell; at
the position of the merge-value, emit a load from the cell; for each
(predecessor, value) incoming pair, emit a store of that value into the
cell in the predecessor block, before its terminator.  The cell is an
alloca placed before the entry block terminator (the AllocaPoint passed at
Flattening.cpp:99). -/
def demotePhiToStack (n : Nat) (f : Func) (c : Nat) : Func × Nat :=
  if f.blocks.any (fun b => b.insts.any fun u => u.isPhi && u.resId = some n) then
    let a := c
    let inc := phiIncomingOf n f
    let bs1 := f.blocks.map fun b => Block.mk b.bid (replacePhiWithLoad n a b.insts) b.term
    let bs2 := inc.foldl (fun acc pv => appendStore a pv acc) bs1
    (⟨appendAllocaEntry a bs2⟩, c+1)
  else (f, c)

def demoteRegs (ns : List Nat) (f : Func) (c : Nat) : Func × Nat :=
  ns.foldl (fun acc n => demoteRegToStack n acc.1 acc.2) (f, c)

def demotePhis (ns : List Nat) (f : Func) (c : Nat) : Func × Nat :=
  ns.foldl (fun acc n => demotePhiToStack n acc.1 acc.2) (f, c)

/-- One iteration of the fixStack do-while body (Flattening.cpp:74-102):
scan collecting tmpReg and tmpPhi, then demote all regs, then all phis. -/
def fixPass (f : Func) (c : Nat) : Func × Nat :=
  let regs := collectRegs f
  let phis := collectPhis f
  let r := demoteRegs regs f c
  demotePhis phis r.1 r.2

def collectEmpty (f : Func) : Bool :=
  (collectRegs f).isEmpty && (collectPhis f).isEmpty

def fixIter : Nat → Func → Nat → Func × Nat
  | 0, f, c => (f, c)
  | n+1, f, c =>
    let r := fixPass f c
    if collectEmpty r.1 then r else fixIter n r.1 r.2

/-- fixStack (Flattening.cpp:68): repeat scan-and-demote until a scan
collects nothing.  On any function with distinct result ids the scan is
empty after at most two demotion rounds (theorem for claim C9 below), so
two rounds compute the fixed point the source do-while loop reaches. -/
def fixStack (f : Func) (c : Nat) : Func × Nat :=
  fixIter 2 f c

/-- Entry preparation (Flattening.cpp:141-157): if the entry terminator is
a conditional branch or has more than one successor, split the entry block.
The split point is before the terminator or, when the block has more than
one instruction (LLVM counts the terminator), before its second-to-last
instruction; the new block (id `c`) inherits the terminator and becomes the
head of the to-be-switched list.  Returns (retained entry instructions,
to-be-switched blocks, next fresh id). -/
def prepare (entry : Block) (rest : List Block) (c : Nat) :
    List Instr × List Block × Nat :=
  if entry.term.isCondBr || decide (entry.term.numSuccessors > 1) then
    match entry.insts.getLast? with
    | some li => (entry.insts.dropLast, Block.mk c [li] entry.term :: rest, c+1)
    | none => ([], Block.mk c [] entry.term :: rest, c+1)
  else (entry.insts, rest, c)

/-- State after dispatcher construction. -/
structure Mid where
  entryKept : Block
  dispatch : Block
  cases : List Block
  ct : List (Int × Nat)
  svId : Nat
  loadId : Nat
  dispatchBid : Nat
  next : Nat
deriving DecidableEq, Repr, Inhabited

/-- Case table built by the loop at Flattening.cpp:196-209: the i-th
visited block gets the case value switchI->getNumCases() at insertion time,
i.e. i, as an i32 constant. -/
def caseList (bs : List Block) : List (Int × Nat) :=
  bs.enum.map fun p => (Int.ofNat (p.1 % 4294967296), p.2.bid)

/-- Precheck and dispatcher construction (Flattening.cpp:117-209): none
when the pass declines (an invoke terminator anywhere, or at most one
block); otherwise perform the entry split, erase the entry terminator,
append the switchVar alloca and the store of 0 to the entry block, create
the loopEntry block right after the entry holding the load of switchVar and
the switch whose default is loopEntry itself, terminate the entry with a
jump to loopEntry, and register every to-be-switched block as a case. -/
def build (f : Func) (c : Nat) : Option Mid :=
  if f.blocks.any (fun b => b.term.isInvoke) then none
  else if f.blocks.length ≤ 1 then none
  else
    match f.blocks with
    | [] => none
    | entry :: rest =>
      let pr := prepare entry rest c
      let svId := pr.2.2
      let ldId := pr.2.2 + 1
      let dBid := pr.2.2 + 2
      let ct := caseList pr.2.1
      some
        { entryKept := Block.mk entry.bid
            (pr.1 ++ [Instr.alloca svId, Instr.store (Operand.const 0) (Operand.reg svId)])
            (Term.jump dBid)
          dispatch := Block.mk dBid [Instr.load ldId (Operand.reg svId)]
            (Term.switch (Operand.reg ldId) dBid ct)
          cases := pr.2.1
          ct := ct
          svId := svId
          loadId := ldId
          dispatchBid := dBid
          next := pr.2.2 + 3 }

/-- SwitchInst::findCaseDest: the unique case value whose successor is the
given block; none when no case, or more than one case, targets it. -/
def findCaseDest (cs : List (Int × Nat)) (bb : Nat) : Option Int :=
  match cs.filter (fun kc => kc.2 = bb) with
  | [kc] => some kc.1
  | _ => none

/-- The ConstantInt returned by findCaseDest, as a store or select operand;
the source passes the raw pointer, so a missing case becomes a null
operand. -/
def caseOp : Option Int → Operand
  | some k => Operand.const k
  | none => Operand.nullp

/-- Terminator rewriting for one registered block (Flattening.cpp:212-279).
Zero successors: untouched.  One successor: erase the terminator, store the
successor's case value into switchVar, jump to loopEntry.  Two successors:
the source casts the terminator to BranchInst (Flattening.cpp:266); for a
conditional branch, insert a select of the two case values driven by the
branch condition, erase the terminator, store the select result, jump to
loopEntry (a two-successor terminator that is not a branch would trap that
cast; the model leaves such a block untouched).  More than two successors:
untouched, no arm of the source loop applies. -/
def rewriteOne (ct : List (Int × Nat)) (dBid svId : Nat) (b : Block) (c : Nat) :
    Block × Nat :=
  if b.term.numSuccessors = 0 then (b, c)
  else if b.term.numSuccessors = 1 then
    (Block.mk b.bid
      (b.insts ++
        [Instr.store (caseOp (findCaseDest ct (b.term.successors.headD 0))) (Operand.reg svId)])
      (Term.jump dBid), c)
  else if b.term.numSuccessors = 2 then
    match b.term with
    | .br cond t e =>
      (Block.mk b.bid
        (b.insts ++
          [Instr.select c cond (caseOp (findCaseDest ct t)) (caseOp (findCaseDest ct e)),
            Instr.store (Operand.reg c) (Operand.reg svId)])
        (Term.jump dBid), c+1)
    | _ => (b, c)
  else (b, c)

def rewriteCases (ct : List (Int × Nat)) (dBid svId : Nat) :
    List Block → Nat → List Block × Nat
  | [], c => ([], c)
  | b :: rest, c =>
    let r := rewriteOne ct dBid svId b c
    let s := rewriteCases ct dBid svId rest r.2
    (r.1 :: s.1, s.2)

/-- Function layout after the move loop at Flattening.cpp:196-209: each
registered block is moved right after loopEntry in turn, leaving the
registered blocks in reverse visit order behind the dispatch block. -/
def midFunc (m : Mid) : Func :=
  ⟨m.entryKept :: m.dispatch :: m.cases.reverse⟩

def rewriteAll (m : Mid) : Func × Nat :=
  let r := rewriteCases m.ct m.dispatchBid m.svId m.cases m.next
  (⟨m.entryKept :: m.dispatch :: r.1.reverse⟩, r.2)

/-- Result of the pass: the boolean the source returns, the function, and
the bookkeeping the theorems below refer to. -/
structure FlatR where
  changed : Bool
  func : Func
  next : Nat
  dispatchBid : Nat
  svId : Nat
  ct : List (Int × Nat)
deriving DecidableEq, Repr, Inhabited

/-- Flattening::flatten (Flattening.cpp:105-284): precheck and dispatcher
construction (`build`), terminator rewriting (`rewriteAll`), then
`fixStack`; returns false with the function untouched when the precheck
declines. -/
def flatten (f : Func) (c : Nat) : FlatR :=
  match build f c with
  | none => ⟨false, f, c, 0, 0, []⟩
  | some m =>
    let r := rewriteAll m
    let s := fixStack r.1 r.2
    ⟨true, s.1, s.2, m.dispatchBid, m.svId, m.ct⟩

/-- Structural invariant of claim C4 for one block: either this is the
dispatch block (identified by its id), or the block ends in a Return or in
an unconditional jump to the dispatch block. -/
def blockOK (d : Nat) (b : Block) : Bool :=
  decide (b.bid = d) ||
    (match b.term with
     | .ret _ => true
     | .jump t => decide (t = d)
     | _ => false)

/-- The input contract of spec section 6: every terminator is a Return, a
Jump or a conditional Branch. -/
def supported3 : Term → Bool
  | .ret _ => true
  | .jump _ => true
  | .br _ _ _ => true
  | _ => false

/-- All result ids defined in the function, in scan order. -/
def resIds (f : Func) : List Nat :=
  (f.blocks.map fun b => b.insts.filterMap Instr.resId).flatten

/-- Does block `b` read value `m` anywhere (instruction or terminator)? -/
def blockUses (m : Nat) (b : Block) : Bool :=
  b.insts.any (fun u => u.usesId m) || b.term.usesId m

/-- The definitions of value `m` inside one instruction list, reported as
their storage-allocation flags, in order. -/
def defsOf (m : Nat) (l : List Instr) : List Bool :=
  l.filterMap fun u => if u.resId = some m then some u.isAlloca else none

/-- blockUses at a block index of the function. -/
def busesAt (f : Func) (i m : Nat) : Bool :=
  match f.blocks[i]? with
  | some b => blockUses m b
  | none => false

/-- defsOf at a block index of the function. -/
def defsAt (f : Func) (i m : Nat) : List Bool :=
  match f.blocks[i]? with
  | some b => defsOf m b.insts
  | none => []

/-- No merge-values anywhere in the function. -/
def noPhis (f : Func) : Bool :=
  f.blocks.all fun b => b.insts.all fun u => !u.isPhi

/-- Every id read by this operand is below `c`. -/
def Operand.idBelow (c : Nat) : Operand → Bool
  | .reg m => decide (m < c)
  | _ => true

/-- Every id defined or read by this instruction is below `c`. -/
def Instr.idsBelow (c : Nat) (u : Instr) : Bool :=
  (match u.resId with
   | some n => decide (n < c)
   | none => true) &&
    u.operands.all (Operand.idBelow c)

def Term.idsBelow (c : Nat) (t : Term) : Bool :=
  t.operands.all (Operand.idBelow c)

/-- Every id defined or read anywhere in the function is below `c`. -/
def Func.idsBelow (f : Func) (c : Nat) : Bool :=
  f.blocks.all fun b => b.insts.all (Instr.idsBelow c) && b.term.idsBelow c

/-! Example functions used to instantiate the theorems below. -/

/-- Two blocks, entry holding one prologue instruction and a plain jump. -/
def exC7 : Func :=
  ⟨[Block.mk 0 [Instr.op 1 []] (Term.jump 1), Block.mk 1 [] (Term.ret none)]⟩

/-- The dispatcher-construction state for `exC7`. -/
def midC7 : Mid := (build exC7 10).getD default

/-- Three blocks: a conditional entry, a jump block, a return block. -/
def exC3 : Func := ⟨[
  Block.mk 0 [Instr.op 3 []] (Term.br (Operand.reg 3) 1 2),
  Block.mk 1 [] (Term.jump 2),
  Block.mk 2 [] (Term.ret none)]⟩

/-- The dispatcher-construction state for `exC3`. -/
def midC3 : Mid := (build exC3 10).getD default

/-- Block of the flattened `exC3`, used by the C4 witness. -/
def blkC4 : Block := Block.mk 1 [Instr.store (Operand.const 2) (Operand.reg 11)] (Term.jump 13)

/-- A scan fixed point whose entry alloca (id 1) is loaded in another
block. -/
def exC5 : Func := ⟨[
  Block.mk 0 [Instr.alloca 1] (Term.jump 5),
  Block.mk 5 [Instr.load 2 (Operand.reg 1)] (Term.ret (some (Operand.reg 2)))]⟩

/-- Two blocks with a value (id 5) computed in the entry and returned from
the second block: the scan collects it and one demotion round repairs it. -/
def exC9 : Func := ⟨[
  Block.mk 0 [Instr.op 5 []] (Term.jump 1),
  Block.mk 1 [] (Term.ret (some (Operand.reg 5)))]⟩

/-! Basic lemmas about the precheck and the dispatcher construction. -/

theorem build_eq_none_iff (f : Func) (c : Nat) :
    build f c = none ↔ ((∃ b ∈ f.blocks, b.term.isInvoke = true) ∨ f.blocks.length ≤ 1) := by
  unfold build
  by_cases h1 : f.blocks.any (fun b => b.term.isInvoke) = true
  · simp only [h1, if_true, true_iff]
    exact Or.inl (List.any_eq_true.mp h1)
  · rw [if_neg h1]
    by_cases h2 : f.blocks.length ≤ 1
    · simp [h2]
    · rw [if_neg h2]
      rcases hbs : f.blocks with _ | ⟨entry, rest⟩
      · exact absurd (by rw [hbs]; simp) h2
      · rw [hbs] at h1 h2
        constructor
        · intro h; simp at h
        · intro h
          rcases h with ⟨b, hb2, hinv⟩ | h
          · exact absurd (List.any_eq_true.mpr ⟨b, hb2, hinv⟩) h1
          · exact absurd h h2

theorem build_eq_some_spec (f : Func) (c : Nat) (m : Mid) (h : build f c = some m) :
    ∃ entry rest, f.blocks = entry :: rest ∧
      m = { entryKept := Block.mk entry.bid
              ((prepare entry rest c).1 ++ [Instr.alloca ((prepare entry rest c).2.2),
                 Instr.store (Operand.const 0) (Operand.reg ((prepare entry rest c).2.2))])
              (Term.jump ((prepare entry rest c).2.2 + 2)),
            dispatch := Block.mk ((prepare entry rest c).2.2 + 2)
              [Instr.load ((prepare entry rest c).2.2 + 1) (Operand.reg ((prepare entry rest c).2.2))]
              (Term.switch (Operand.reg ((prepare entry rest c).2.2 + 1))
                ((prepare entry rest c).2.2 + 2) (caseList (prepare entry rest c).2.1)),
            cases := (prepare entry rest c).2.1,
            ct := caseList (prepare entry rest c).2.1,
            svId := (prepare entry rest c).2.2,
            loadId := (prepare entry rest c).2.2 + 1,
            dispatchBid := (prepare entry rest c).2.2 + 2,
            next := (prepare entry rest c).2.2 + 3 } := by
  unfold build at h
  by_cases h1 : f.blocks.any (fun b => b.term.isInvoke) = true
  · rw [if_pos h1] at h; cases h
  · rw [if_neg h1] at h
    by_cases h2 : f.blocks.length ≤ 1
    · rw [if_pos h2] at h; cases h
    · rw [if_neg h2] at h
      rcases hbs : f.blocks with _ | ⟨entry, rest⟩
      · rw [hbs] at h; cases h
      · rw [hbs] at h
        refine ⟨entry, rest, rfl, ?_⟩
        exact (Option.some.inj h).symm

theorem rewriteOne_ret (ct : List (Int × Nat)) (d sv : Nat) (b : Block) (c : Nat)
    (v : Option Operand) (h : b.term = Term.ret v) :
    rewriteOne ct d sv b c = (b, c) := by
  unfold rewriteOne
  rw [h]
  simp [Term.numSuccessors, Term.successors]

theorem rewriteOne_jump (ct : List (Int × Nat)) (d sv : Nat) (b : Block) (c : Nat)
    (t : Nat) (h : b.term = Term.jump t) :
    rewriteOne ct d sv b c =
      (Block.mk b.bid (b.insts ++ [Instr.store (caseOp (findCaseDest ct t)) (Operand.reg sv)])
        (Term.jump d), c) := by
  unfold rewriteOne
  rw [h]
  simp [Term.numSuccessors, Term.successors]

theorem rewriteOne_br (ct : List (Int × Nat)) (d sv : Nat) (b : Block) (c : Nat)
    (cond : Operand) (t e : Nat) (h : b.term = Term.br cond t e) :
    rewriteOne ct d sv b c =
      (Block.mk b.bid
        (b.insts ++ [Instr.select c cond (caseOp (findCaseDest ct t)) (caseOp (findCaseDest ct e)),
          Instr.store (Operand.reg c) (Operand.reg sv)])
        (Term.jump d), c+1) := by
  unfold rewriteOne
  rw [h]
  simp [Term.numSuccessors, Term.successors]

theorem rewriteCases_idx (ct : List (Int × Nat)) (d sv : Nat) (bs : List Block) (c : Nat)
    (i : Nat) (b : Block) (h : bs[i]? = some b) :
    ∃ ci, (rewriteCases ct d sv bs c).1[i]? = some (rewriteOne ct d sv b ci).1 := by
  induction bs generalizing c i with
  | nil => simp at h
  | cons x rest ih =>
    cases i with
    | zero =>
      simp at h
      subst h
      exact ⟨c, by simp [rewriteCases]⟩
    | succ j =>
      simp only [List.getElem?_cons_succ] at h
      obtain ⟨ci, hci⟩ := ih (rewriteOne ct d sv x c).2 j h
      exact ⟨ci, by simpa [rewriteCases] using hci⟩

theorem prepare_shape (entry : Block) (rest : List Block) (c : Nat) :
    ((prepare entry rest c).2.1 = rest ∧ (prepare entry rest c).2.2 = c) ∨
    ((prepare entry rest c).2.1 =
        Block.mk c entry.insts.getLast?.toList entry.term :: rest ∧
      (prepare entry rest c).2.2 = c + 1) := by
  unfold prepare
  by_cases h : (entry.term.isCondBr || decide (entry.term.numSuccessors > 1)) = true
  · rw [if_pos h]
    rcases hl : entry.insts.getLast? with _ | li
    · simp [hl]
    · simp [hl]
  · rw [if_neg h]; exact Or.inl ⟨rfl, rfl⟩

theorem caseList_map_fst (bs : List Block) (h : bs.length ≤ 4294967296) :
    (caseList bs).map Prod.fst = (List.range bs.length).map Int.ofNat := by
  unfold caseList
  rw [List.map_map]
  have h1 : (Prod.fst ∘ fun p : Nat × Block => (Int.ofNat (p.1 % 4294967296), p.2.bid)) =
      (fun i : Nat => Int.ofNat (i % 4294967296)) ∘ Prod.fst := rfl
  rw [h1, ← List.map_map, List.enum_map_fst]
  apply List.map_congr_left
  intro i hi
  have h2 : i < 4294967296 := lt_of_lt_of_le (List.mem_range.mp hi) h
  simp [Nat.mod_eq_of_lt h2]

theorem caseList_map_snd (bs : List Block) :
    (caseList bs).map Prod.snd = bs.map Block.bid := by
  unfold caseList
  rw [List.map_map]
  have h1 : (Prod.snd ∘ fun p : Nat × Block => (Int.ofNat (p.1 % 4294967296), p.2.bid)) =
      Block.bid ∘ Prod.snd := rfl
  rw [h1, ← List.map_map, List.enum_map_snd]

theorem filter_length_eq_count (cs : List (Int × Nat)) (s : Nat) :
    (cs.filter (fun kc => kc.2 = s)).length = (cs.map Prod.snd).count s := by
  induction cs with
  | nil => rfl
  | cons kc rest ih =>
    by_cases h : kc.2 = s
    · simp [List.filter_cons, h, List.count_cons, ih]
    · simp [List.filter_cons, h, List.count_cons, ih]

theorem findCaseDest_of_count_one (cs : List (Int × Nat)) (s : Nat)
    (h : (cs.map Prod.snd).count s = 1) : ∃ k, findCaseDest cs s = some k := by
  have hl : (cs.filter (fun kc => kc.2 = s)).length = 1 := by
    rw [filter_length_eq_count, h]
  obtain ⟨a, ha⟩ := List.length_eq_one.mp hl
  refine ⟨a.1, ?_⟩
  unfold findCaseDest
  rw [ha]

/-! Claim theorems. -/

/-- C2: flatten returns unchanged (false) iff some terminator is an invoke
(non-local edge) or the function has at most one block, and in the
declining cases the function comes back completely unmodified; the iff also
shows these are the only rejection conditions, so a terminator with more
than two successors is not rejected by the precheck. -/
theorem flatten_unchanged_iff (f : Func) (c : Nat) :
    ((flatten f c).changed = false ↔
      ((∃ b ∈ f.blocks, b.term.isInvoke = true) ∨ f.blocks.length ≤ 1)) ∧
    ((flatten f c).changed = false → (flatten f c).func = f) := by
  unfold flatten
  rcases hb : build f c with _ | m
  · have hc := (build_eq_none_iff f c).mp hb
    exact ⟨Iff.intro (fun _ => hc) (fun _ => rfl), fun _ => rfl⟩
  · have hc : ¬((∃ b ∈ f.blocks, b.term.isInvoke = true) ∨ f.blocks.length ≤ 1) := by
      intro h
      have h2 := (build_eq_none_iff f c).mpr h
      rw [h2] at hb; cases hb
    exact ⟨Iff.intro (fun h => nomatch h) (fun h => absurd h hc), fun h => nomatch h⟩

/-- C2 witness: a single-block function is declined and returned intact. -/
theorem flatten_unchanged_iff_witness :
    (flatten ⟨[Block.mk 0 [] (Term.ret none)]⟩ 5).changed = false ∧
    (flatten ⟨[Block.mk 0 [] (Term.ret none)]⟩ 5).func = ⟨[Block.mk 0 [] (Term.ret none)]⟩ := by
  have h := flatten_unchanged_iff ⟨[Block.mk 0 [] (Term.ret none)]⟩ 5
  have h1 : (flatten ⟨[Block.mk 0 [] (Term.ret none)]⟩ 5).changed = false :=
    h.1.mpr (Or.inr (by decide))
  exact ⟨h1, h.2 h1⟩

/-- C6: entry preparation splits the entry block iff its terminator is a
conditional branch or has more than one successor; the new block inherits
the terminator together with the last non-terminator instruction when the
entry has more than one instruction, and becomes the first entry of the
to-be-switched block list, the retained entry keeping the remaining
prologue; an entry ending in a plain jump or return is never split. -/
theorem prepare_entry_split (entry : Block) (rest : List Block) (c : Nat) :
    ((entry.term.isCondBr = true ∨ entry.term.numSuccessors > 1) →
      prepare entry rest c =
        (entry.insts.dropLast, Block.mk c entry.insts.getLast?.toList entry.term :: rest, c+1)) ∧
    (∀ t, entry.term = Term.jump t → prepare entry rest c = (entry.insts, rest, c)) ∧
    (∀ v, entry.term = Term.ret v → prepare entry rest c = (entry.insts, rest, c)) ∧
    ((entry.term.isCondBr = false ∧ entry.term.numSuccessors ≤ 1) →
      prepare entry rest c = (entry.insts, rest, c)) := by
  refine ⟨?_, ?_, ?_, ?_⟩
  · intro h
    have hcond : (entry.term.isCondBr || decide (entry.term.numSuccessors > 1)) = true := by
      rcases h with h | h
      · simp [h]
      · simp [h]
    unfold prepare
    rw [if_pos hcond]
    rcases hl : entry.insts.getLast? with _ | li
    · have hnil : entry.insts = [] := List.getLast?_eq_none_iff.mp hl
      simp [hnil]
    · simp
  · intro t ht
    unfold prepare
    rw [if_neg (by simp [ht, Term.isCondBr, Term.numSuccessors, Term.successors])]
  · intro v hv
    unfold prepare
    rw [if_neg (by simp [hv, Term.isCondBr, Term.numSuccessors, Term.successors])]
  · intro h
    unfold prepare
    rw [if_neg (by simp [h.1]; omega)]

/-- C6 witness: an entry made of one instruction and a conditional branch
is split before its second-to-last instruction, the new block taking the
instruction and the branch. -/
theorem prepare_entry_split_witness :
    prepare (Block.mk 0 [Instr.op 1 []] (Term.br (Operand.reg 1) 1 2)) [] 7 =
      ([], [Block.mk 7 [Instr.op 1 []] (Term.br (Operand.reg 1) 1 2)], 8) :=
  ((prepare_entry_split (Block.mk 0 [Instr.op 1 []] (Term.br (Operand.reg 1) 1 2)) [] 7).1
    (Or.inl (by decide))).trans (by decide)

/-- C7 counterexample: on a two-block function whose entry holds one
prologue instruction, the state-variable alloca is appended after that
instruction, so it is not at the head (top) of the entry block as the
claim states. -/
theorem switchVar_not_at_head :
    (build exC7 10).isSome = true ∧
    ((build exC7 10).getD default).entryKept.insts =
      [Instr.op 1 [], Instr.alloca 10, Instr.store (Operand.const 0) (Operand.reg 10)] ∧
    ((build exC7 10).getD default).svId = 10 ∧
    ((build exC7 10).getD default).entryKept.insts.head? ≠ some (Instr.alloca 10) := by
  decide

/-- C7 amended: dispatcher construction appends exactly one state-variable
storage cell, followed by the store initializing it to 0, at the end of the
(possibly split) entry block, immediately before its terminator, the
retained prologue staying in front. -/
theorem switchVar_at_entry_end (f : Func) (c : Nat) (m : Mid) (h : build f c = some m) :
    m.entryKept.insts =
      (prepare (f.blocks.headD default) f.blocks.tail c).1 ++
        [Instr.alloca m.svId, Instr.store (Operand.const 0) (Operand.reg m.svId)] ∧
    m.entryKept.term = Term.jump m.dispatchBid := by
  obtain ⟨entry, rest, hbs, rfl⟩ := build_eq_some_spec f c m h
  rw [hbs]
  exact ⟨rfl, rfl⟩

/-- C7 amended witness, on `exC7`. -/
theorem switchVar_at_entry_end_witness :
    midC7.entryKept.insts =
      (prepare (exC7.blocks.headD default) exC7.blocks.tail 10).1 ++
        [Instr.alloca midC7.svId, Instr.store (Operand.const 0) (Operand.reg midC7.svId)] ∧
    midC7.entryKept.term = Term.jump midC7.dispatchBid :=
  switchVar_at_entry_end exC7 10 midC7 (by decide)

/-- C8: after dispatcher construction the dispatch block is positioned
immediately after the entry block, begins with the load of the state
variable that drives its switch, the switch default target is the dispatch
block itself, and the entry terminator has become an unconditional jump to
the dispatch block. -/
theorem dispatch_block_spec (f : Func) (c : Nat) (m : Mid) (h : build f c = some m) :
    (rewriteAll m).1.blocks.head? = some m.entryKept ∧
    (rewriteAll m).1.blocks.tail.head? = some m.dispatch ∧
    m.dispatch.insts = [Instr.load m.loadId (Operand.reg m.svId)] ∧
    m.dispatch.term = Term.switch (Operand.reg m.loadId) m.dispatchBid m.ct ∧
    m.dispatch.bid = m.dispatchBid ∧
    m.entryKept.term = Term.jump m.dispatchBid := by
  obtain ⟨entry, rest, hbs, rfl⟩ := build_eq_some_spec f c m h
  exact ⟨rfl, rfl, rfl, rfl, rfl, rfl⟩

/-- C1: for every block registered in the case table (the last conjunct:
the blocks behind the dispatch block of the rewritten function are exactly
the rewrites of the registered blocks), a zero-successor Return terminator
is left unchanged; Jump(target) becomes a store of target's case index k
into the state variable followed by an unconditional jump to the dispatch
block; Branch(condition, trueTarget, falseTarget) becomes a single select
whose true-operand is kT and false-operand kF (so it evaluates to kT when
the condition holds and kF otherwise), a store of the selected value into
the state variable, and an unconditional jump to the dispatch block. -/
theorem terminator_rewriting (ct : List (Int × Nat)) (d sv : Nat) (b : Block) (c : Nat) :
    (∀ v, b.term = Term.ret v → rewriteOne ct d sv b c = (b, c)) ∧
    (∀ t k, b.term = Term.jump t → findCaseDest ct t = some k →
      rewriteOne ct d sv b c =
        (Block.mk b.bid (b.insts ++ [Instr.store (Operand.const k) (Operand.reg sv)])
          (Term.jump d), c)) ∧
    (∀ cond t e kT kF, b.term = Term.br cond t e →
      findCaseDest ct t = some kT → findCaseDest ct e = some kF →
      rewriteOne ct d sv b c =
        (Block.mk b.bid
          (b.insts ++ [Instr.select c cond (Operand.const kT) (Operand.const kF),
            Instr.store (Operand.reg c) (Operand.reg sv)])
          (Term.jump d), c+1)) ∧
    (∀ (m : Mid) (i : Nat) (bi : Block), m.cases[i]? = some bi →
      ∃ ci, ((rewriteAll m).1.blocks.drop 2).reverse[i]? =
        some (rewriteOne m.ct m.dispatchBid m.svId bi ci).1) := by
  refine ⟨?_, ?_, ?_, ?_⟩
  · intro v h; exact rewriteOne_ret ct d sv b c v h
  · intro t k h hk
    rw [rewriteOne_jump ct d sv b c t h, hk]
    rfl
  · intro cond t e kT kF h hkT hkF
    rw [rewriteOne_br ct d sv b c cond t e h, hkT, hkF]
    rfl
  · intro m i bi hbi
    have hdrop : ((rewriteAll m).1.blocks.drop 2).reverse =
        (rewriteCases m.ct m.dispatchBid m.svId m.cases m.next).1 := by
      simp [rewriteAll]
    rw [hdrop]
    exact rewriteCases_idx _ _ _ _ _ i bi hbi

/-- C1 witness: a registered block ending in a jump to the block with case
index 1 is rewritten to store 1 and jump to the dispatch block. -/
theorem terminator_rewriting_witness :
    rewriteOne [(0, 5), (1, 6)] 9 4 (Block.mk 5 [] (Term.jump 6)) 20 =
      (Block.mk 5 [Instr.store (Operand.const 1) (Operand.reg 4)] (Term.jump 9), 20) :=
  (((terminator_rewriting [(0, 5), (1, 6)] 9 4 (Block.mk 5 [] (Term.jump 6)) 20).2.1)
    6 1 rfl (by decide)).trans (by decide)

/-- C3: for a well-formed input (distinct block ids below the fresh
counter, successor edges staying inside the function and never entering the
entry block, fewer than 2^32 blocks), the case values are dense from 0 in
visit order, the targets are the visited blocks in order (split block
first, then the original non-entry blocks), target ids are distinct, every
original non-entry block occurs exactly once as a target, and every
successor of every pre-transform block (hence every target looked up during
rewriting) resolves through findCaseDest to some case value. -/
theorem case_table_spec (f : Func) (c : Nat) (m : Mid) (h : build f c = some m)
    (hnodup : (f.blocks.map Block.bid).Nodup)
    (hbids : ∀ b ∈ f.blocks, b.bid < c)
    (hlen : f.blocks.length < 4294967296)
    (hclosed : ∀ b ∈ f.blocks, ∀ s ∈ b.term.successors, s ∈ f.blocks.map Block.bid)
    (hnopred : ∀ b ∈ f.blocks, ∀ s ∈ b.term.successors, s ≠ entryBid f) :
    m.ct.map Prod.fst = (List.range m.cases.length).map Int.ofNat ∧
    m.ct.map Prod.snd = m.cases.map Block.bid ∧
    (m.cases.map Block.bid).Nodup ∧
    (∀ b ∈ f.blocks.tail, (m.cases.map Block.bid).count b.bid = 1) ∧
    (∀ b ∈ m.cases, ∀ s ∈ b.term.successors, ∃ k, findCaseDest m.ct s = some k) ∧
    (∀ b ∈ f.blocks, ∀ s ∈ b.term.successors, ∃ k, findCaseDest m.ct s = some k) := by
  obtain ⟨entry, rest, hbs, rfl⟩ := build_eq_some_spec f c m h
  have hshape := prepare_shape entry rest c
  have hnodup2 : (rest.map Block.bid).Nodup := by
    rw [hbs] at hnodup
    simpa using (by simpa using hnodup : ((entry :: rest).map Block.bid).Nodup).of_cons
  have hc_notin : c ∉ rest.map Block.bid := by
    intro hmem
    obtain ⟨b, hb, hbid⟩ := List.mem_map.mp hmem
    have := hbids b (by rw [hbs]; exact List.mem_cons_of_mem _ hb)
    omega
  have hcases_cases : ∀ b ∈ (prepare entry rest c).2.1, b ∈ rest ∨ b.term = entry.term := by
    intro b hb
    rcases hshape with ⟨hcs, _⟩ | ⟨hcs, _⟩
    · rw [hcs] at hb; exact Or.inl hb
    · rw [hcs] at hb
      rcases List.mem_cons.mp hb with h2 | h2
      · exact Or.inr (by rw [h2])
      · exact Or.inl h2
  have hbidseq : (prepare entry rest c).2.1.map Block.bid = rest.map Block.bid ∨
      (prepare entry rest c).2.1.map Block.bid = c :: rest.map Block.bid := by
    rcases hshape with ⟨hcs, _⟩ | ⟨hcs, _⟩
    · rw [hcs]; exact Or.inl rfl
    · rw [hcs]; exact Or.inr rfl
  have hlen_le : (prepare entry rest c).2.1.length ≤ f.blocks.length := by
    rw [hbs]; rcases hshape with ⟨hcs, _⟩ | ⟨hcs, _⟩ <;> simp [hcs]
  have hnodup_cs : ((prepare entry rest c).2.1.map Block.bid).Nodup := by
    rcases hbidseq with he | he <;> rw [he]
    · exact hnodup2
    · exact List.nodup_cons.mpr ⟨hc_notin, hnodup2⟩
  have hcount : ∀ s ∈ rest.map Block.bid,
      ((prepare entry rest c).2.1.map Block.bid).count s = 1 := by
    intro s hs
    rcases hbidseq with he | he <;> rw [he]
    · exact List.count_eq_one_of_mem hnodup2 hs
    · rw [List.count_cons]
      have hne : s ≠ c := by
        obtain ⟨b, hb, rfl⟩ := List.mem_map.mp hs
        have := hbids b (by rw [hbs]; exact List.mem_cons_of_mem _ hb)
        omega
      simp [hne, Ne.symm hne, List.count_eq_one_of_mem hnodup2 hs]
  have hent : entryBid f = entry.bid := by rw [entryBid, hbs]; rfl
  have hsucc_mem : ∀ b ∈ f.blocks, ∀ s ∈ b.term.successors, s ∈ rest.map Block.bid := by
    intro b hb s hs
    have h1 := hclosed b hb s hs
    have h2 := hnopred b hb s hs
    rw [hbs] at h1
    rcases (by simpa using h1 : s = entry.bid ∨ ∃ a ∈ rest, a.bid = s) with h3 | ⟨a, ha, ha2⟩
    · exact absurd (by rw [h3, ← hent]) h2
    · exact List.mem_map.mpr ⟨a, ha, ha2⟩
  have hfcd : ∀ s ∈ rest.map Block.bid,
      ∃ k, findCaseDest (caseList (prepare entry rest c).2.1) s = some k := by
    intro s hs
    apply findCaseDest_of_count_one
    rw [caseList_map_snd]
    exact hcount s hs
  refine ⟨?_, ?_, ?_, ?_, ?_, ?_⟩
  · exact caseList_map_fst _ (le_of_lt (lt_of_le_of_lt hlen_le hlen))
  · exact caseList_map_snd _
  · exact hnodup_cs
  · intro b hb
    have hbr : b ∈ rest := by rw [hbs] at hb; exact hb
    exact hcount b.bid (List.mem_map_of_mem _ hbr)
  · intro b hb s hs
    rcases hcases_cases b hb with h2 | h2
    · exact hfcd s (hsucc_mem b (by rw [hbs]; exact List.mem_cons_of_mem _ h2) s hs)
    · rw [h2] at hs
      exact hfcd s (hsucc_mem entry (by rw [hbs]; exact List.mem_cons_self _ _) s hs)
  · intro b hb s hs
    exact hfcd s (hsucc_mem b hb s hs)

/-- C3 witness, on the three-block function `exC3`. -/
theorem case_table_spec_witness :
    midC3.ct.map Prod.fst = (List.range midC3.cases.length).map Int.ofNat ∧
    midC3.ct.map Prod.snd = midC3.cases.map Block.bid ∧
    (midC3.cases.map Block.bid).Nodup ∧
    (∀ b ∈ exC3.blocks.tail, (midC3.cases.map Block.bid).count b.bid = 1) ∧
    (∀ b ∈ midC3.cases, ∀ s ∈ b.term.successors, ∃ k, findCaseDest midC3.ct s = some k) ∧
    (∀ b ∈ exC3.blocks, ∀ s ∈ b.term.successors, ∃ k, findCaseDest midC3.ct s = some k) :=
  case_table_spec exC3 10 midC3 (by decide) (by decide) (by decide) (by decide)
    (by decide) (by decide)

/-- C8 witness, on `exC7`. -/
theorem dispatch_block_spec_witness :
    (rewriteAll midC7).1.blocks.head? = some midC7.entryKept ∧
    (rewriteAll midC7).1.blocks.tail.head? = some midC7.dispatch ∧
    midC7.dispatch.insts = [Instr.load midC7.loadId (Operand.reg midC7.svId)] ∧
    midC7.dispatch.term = Term.switch (Operand.reg midC7.loadId) midC7.dispatchBid midC7.ct ∧
    midC7.dispatch.bid = midC7.dispatchBid ∧
    midC7.entryKept.term = Term.jump midC7.dispatchBid :=
  dispatch_block_spec exC7 10 midC7 (by decide)

theorem blockOK_substUses (d n l : Nat) (b : Block) (x : List Instr) (h : blockOK d b = true) :
    blockOK d (Block.mk b.bid x (Term.substUses n l b.term)) = true := by
  unfold blockOK at *
  rcases hb : b.term with v | t | ⟨co, t, e⟩ | _ | _ <;>
    rw [hb] at h <;> simp_all [Term.substUses]

theorem forall_blockOK_map (d : Nat) (g : Block → Block)
    (hg : ∀ b, (g b).bid = b.bid ∧ (g b).term = b.term) (bs : List Block)
    (h : ∀ b ∈ bs, blockOK d b = true) : ∀ b' ∈ bs.map g, blockOK d b' = true := by
  intro b' hb'
  obtain ⟨b, hb, rfl⟩ := List.mem_map.mp hb'
  have hgb := hg b
  have h2 := h b hb
  unfold blockOK at *
  rw [hgb.1, hgb.2]
  exact h2

theorem demoteBlocks_blockOK (d n a : Nat) (bs : List Block) (c : Nat)
    (h : ∀ b ∈ bs, blockOK d b = true) :
    ∀ b' ∈ (demoteBlocks n a bs c).1, blockOK d b' = true := by
  induction bs generalizing c with
  | nil => intro b' hb'; simp [demoteBlocks] at hb'
  | cons x rest ih =>
    intro b' hb'
    simp only [demoteBlocks] at hb'
    rcases List.mem_cons.mp hb' with rfl | hb2
    · show blockOK d (demoteBlock n a x c).1 = true
      unfold demoteBlock
      by_cases ht : x.term.usesId n = true
      · simp only [ht, if_true]
        exact blockOK_substUses d n _ x _ (h x (List.mem_cons_self _ _))
      · simp only [ht, if_false]
        exact h x (List.mem_cons_self _ _)
    · exact ih (demoteBlock n a x c).2.2 (fun b hb => h b (List.mem_cons_of_mem _ hb)) b' hb2

theorem appendLoads_blockOK (d a : Nat) (pend : List (Nat × Nat)) (bs : List Block)
    (h : ∀ b ∈ bs, blockOK d b = true) :
    ∀ b' ∈ appendLoads a pend bs, blockOK d b' = true := by
  induction pend generalizing bs with
  | nil => simpa [appendLoads] using h
  | cons pl rest ih =>
    have h1 : ∀ b' ∈ appendLoad a pl bs, blockOK d b' = true := by
      apply forall_blockOK_map d _ _ bs h
      intro b
      by_cases hb : b.bid = pl.1 <;> simp [hb]
    have := ih (appendLoad a pl bs) h1
    simpa [appendLoads, List.foldl_cons] using this

theorem appendAllocaEntry_blockOK (d a : Nat) (bs : List Block)
    (h : ∀ b ∈ bs, blockOK d b = true) :
    ∀ b' ∈ appendAllocaEntry a bs, blockOK d b' = true := by
  intro b' hb'
  cases bs with
  | nil => simp [appendAllocaEntry] at hb'
  | cons x rest =>
    simp only [appendAllocaEntry] at hb'
    rcases List.mem_cons.mp hb' with rfl | hb2
    · exact h x (List.mem_cons_self _ _)
    · exact h b' (List.mem_cons_of_mem _ hb2)

theorem demoteRegToStack_blockOK (d n : Nat) (f : Func) (c : Nat)
    (h : ∀ b ∈ f.blocks, blockOK d b = true) :
    ∀ b' ∈ (demoteRegToStack n f c).1.blocks, blockOK d b' = true := by
  unfold demoteRegToStack
  by_cases hd : (f.blocks.any (fun b => b.insts.any fun u => u.resId = some n)) = true
  · simp only [hd, if_true]
    apply appendAllocaEntry_blockOK
    apply forall_blockOK_map d _ _ _ (appendLoads_blockOK d _ _ _ (demoteBlocks_blockOK d n _ _ _ h))
    intro b
    constructor <;> rfl
  · simp only [hd, if_false]
    exact h

theorem demotePhiToStack_blockOK (d n : Nat) (f : Func) (c : Nat)
    (h : ∀ b ∈ f.blocks, blockOK d b = true) :
    ∀ b' ∈ (demotePhiToStack n f c).1.blocks, blockOK d b' = true := by
  unfold demotePhiToStack
  by_cases hd : (f.blocks.any (fun b => b.insts.any fun u => u.isPhi && u.resId = some n)) = true
  · simp only [hd, if_true]
    apply appendAllocaEntry_blockOK
    have h1 : ∀ b' ∈ f.blocks.map (fun b => Block.mk b.bid (replacePhiWithLoad n c b.insts) b.term),
        blockOK d b' = true := by
      apply forall_blockOK_map d _ _ _ h
      intro b
      constructor <;> rfl
    generalize f.blocks.map (fun b => Block.mk b.bid (replacePhiWithLoad n c b.insts) b.term) = bs0 at h1
    induction phiIncomingOf n f generalizing bs0 with
    | nil => simpa using h1
    | cons pv rest ih =>
      have h2 : ∀ b' ∈ appendStore c pv bs0, blockOK d b' = true := by
        apply forall_blockOK_map d _ _ bs0 h1
        intro b
        by_cases hb : b.bid = pv.1 <;> simp [hb]
      have := ih (appendStore c pv bs0) h2
      simpa [List.foldl_cons] using this
  · simp only [hd, if_false]
    exact h

theorem demoteRegs_blockOK (d : Nat) (ns : List Nat) (f : Func) (c : Nat)
    (h : ∀ b ∈ f.blocks, blockOK d b = true) :
    ∀ b' ∈ (demoteRegs ns f c).1.blocks, blockOK d b' = true := by
  induction ns generalizing f c with
  | nil => simpa [demoteRegs] using h
  | cons x rest ih =>
    have h1 := demoteRegToStack_blockOK d x f c h
    have h2 := ih (demoteRegToStack x f c).1 (demoteRegToStack x f c).2 h1
    simpa [demoteRegs, List.foldl_cons] using h2

theorem demotePhis_blockOK (d : Nat) (ns : List Nat) (f : Func) (c : Nat)
    (h : ∀ b ∈ f.blocks, blockOK d b = true) :
    ∀ b' ∈ (demotePhis ns f c).1.blocks, blockOK d b' = true := by
  induction ns generalizing f c with
  | nil => simpa [demotePhis] using h
  | cons x rest ih =>
    have h1 := demotePhiToStack_blockOK d x f c h
    have h2 := ih (demotePhiToStack x f c).1 (demotePhiToStack x f c).2 h1
    simpa [demotePhis, List.foldl_cons] using h2

theorem fixPass_blockOK (d : Nat) (f : Func) (c : Nat)
    (h : ∀ b ∈ f.blocks, blockOK d b = true) :
    ∀ b' ∈ (fixPass f c).1.blocks, blockOK d b' = true := by
  unfold fixPass
  exact demotePhis_blockOK d _ _ _ (demoteRegs_blockOK d _ _ _ h)

theorem fixIter_blockOK (d : Nat) (k : Nat) (f : Func) (c : Nat)
    (h : ∀ b ∈ f.blocks, blockOK d b = true) :
    ∀ b' ∈ (fixIter k f c).1.blocks, blockOK d b' = true := by
  induction k generalizing f c with
  | zero => simpa [fixIter] using h
  | succ j ih =>
    simp only [fixIter]
    by_cases hc : collectEmpty (fixPass f c).1 = true
    · simp only [hc, if_true]
      exact fixPass_blockOK d f c h
    · simp only [hc, if_false]
      exact ih (fixPass f c).1 (fixPass f c).2 (fixPass_blockOK d f c h)

theorem rewriteOne_blockOK (ct : List (Int × Nat)) (d sv : Nat) (b : Block) (c : Nat)
    (h : supported3 b.term = true) : blockOK d ((rewriteOne ct d sv b c).1) = true := by
  rcases hb : b.term with v | t | ⟨co, t, e⟩ | nd | sw
  · rw [rewriteOne_ret ct d sv b c v hb]
    unfold blockOK
    rw [hb]
    simp
  · rw [rewriteOne_jump ct d sv b c t hb]
    unfold blockOK
    simp
  · rw [rewriteOne_br ct d sv b c co t e hb]
    unfold blockOK
    simp
  · rw [hb] at h; cases h
  · rw [hb] at h; cases h

theorem rewriteCases_mem (ct : List (Int × Nat)) (d sv : Nat) (bs : List Block) (c : Nat)
    (b' : Block) (h : b' ∈ (rewriteCases ct d sv bs c).1) :
    ∃ b ∈ bs, ∃ ci, b' = (rewriteOne ct d sv b ci).1 := by
  induction bs generalizing c with
  | nil => simp [rewriteCases] at h
  | cons x rest ih =>
    simp only [rewriteCases] at h
    rcases List.mem_cons.mp h with rfl | h2
    · exact ⟨x, List.mem_cons_self _ _, c, rfl⟩
    · obtain ⟨b, hb, ci, rfl⟩ := ih _ h2
      exact ⟨b, List.mem_cons_of_mem _ hb, ci, rfl⟩

theorem blockOK_elim (d : Nat) (b : Block) (h : blockOK d b = true) (hne : b.bid ≠ d) :
    ((∃ v, b.term = Term.ret v) ∨ b.term = Term.jump d) ∧ b.term.isCondBr = false := by
  unfold blockOK at h
  rcases hb : b.term with v | t | ⟨co, t, e⟩ | nd | sw <;>
    rw [hb] at h <;> simp_all [Term.isCondBr]

/-- C4: for an input whose terminators are all Return, Jump or conditional
Branch, after a successful transform every block other than the dispatch
block (in particular every block other than the entry-prefix block and the
dispatch block) ends in a Return or an unconditional jump to the dispatch
block, and no block outside the dispatch block ends in a conditional
branch. -/
theorem flat_structure (f : Func) (c : Nat)
    (hsupp : ∀ b ∈ f.blocks, supported3 b.term = true)
    (hch : (flatten f c).changed = true) :
    ∀ b ∈ (flatten f c).func.blocks, b.bid ≠ (flatten f c).dispatchBid →
      ((∃ v, b.term = Term.ret v) ∨ b.term = Term.jump (flatten f c).dispatchBid) ∧
      b.term.isCondBr = false := by
  rcases hb : build f c with _ | m
  · unfold flatten at hch
    rw [hb] at hch
    cases hch
  · have hfl : flatten f c =
        ⟨true, (fixStack (rewriteAll m).1 (rewriteAll m).2).1,
          (fixStack (rewriteAll m).1 (rewriteAll m).2).2, m.dispatchBid, m.svId, m.ct⟩ := by
      unfold flatten
      rw [hb]
    rw [hfl]
    intro b hbm hne
    -- blockOK holds for every block after the rewrite phase
    obtain ⟨entry, rest, hbs, hm⟩ := build_eq_some_spec f c m hb
    have hcasesup : ∀ bb ∈ m.cases, supported3 bb.term = true := by
      intro bb hbb
      rw [hm] at hbb
      rcases prepare_shape entry rest c with ⟨hcs, _⟩ | ⟨hcs, _⟩
      · rw [hcs] at hbb
        exact hsupp bb (by rw [hbs]; exact List.mem_cons_of_mem _ hbb)
      · rw [hcs] at hbb
        rcases List.mem_cons.mp hbb with rfl | h2
        · exact hsupp entry (by rw [hbs]; exact List.mem_cons_self _ _)
        · exact hsupp bb (by rw [hbs]; exact List.mem_cons_of_mem _ h2)
    have hOK0 : ∀ bb ∈ (rewriteAll m).1.blocks, blockOK m.dispatchBid bb = true := by
      intro bb hbb
      have hblocks : (rewriteAll m).1.blocks =
          m.entryKept :: m.dispatch ::
            (rewriteCases m.ct m.dispatchBid m.svId m.cases m.next).1.reverse := rfl
      rw [hblocks] at hbb
      rcases List.mem_cons.mp hbb with rfl | hbb2
      · rw [hm]
        unfold blockOK
        simp
      · rcases List.mem_cons.mp hbb2 with rfl | hbb3
        · rw [hm]
          unfold blockOK
          simp
        · rw [List.mem_reverse] at hbb3
          obtain ⟨bx, hbx, ci, rfl⟩ := rewriteCases_mem _ _ _ _ _ _ hbb3
          exact rewriteOne_blockOK _ _ _ _ _ (hcasesup bx hbx)
    have hOK : ∀ bb ∈ (fixStack (rewriteAll m).1 (rewriteAll m).2).1.blocks,
        blockOK m.dispatchBid bb = true := by
      unfold fixStack
      exact fixIter_blockOK m.dispatchBid 2 _ _ hOK0
    exact blockOK_elim m.dispatchBid b (hOK b hbm) hne


/-- C4 witness: in the flattened `exC3`, the registered block with id 1
ends in an unconditional jump to the dispatch block and holds no
conditional branch. -/
theorem flat_structure_witness :
    blkC4.term = Term.jump (flatten exC3 10).dispatchBid ∧ blkC4.term.isCondBr = false := by
  have h := flat_structure exC3 10 (by decide) (by decide) blkC4 (by decide) (by decide)
  refine ⟨?_, h.2⟩
  rcases h.1 with ⟨v, hv⟩ | hj
  · exact nomatch hv
  · exact hj

theorem collectPhis_complete (f : Func) (b : Block) (j : Instr) (n : Nat)
    (hb : b ∈ f.blocks) (hj : j ∈ b.insts) (hphi : j.isPhi = true) (hres : j.resId = some n) :
    n ∈ collectPhis f := by
  unfold collectPhis
  rw [List.mem_flatten]
  refine ⟨b.insts.filterMap (fun j => if j.isPhi then j.resId else none),
    List.mem_map.mpr ⟨b, hb, rfl⟩, ?_⟩
  exact List.mem_filterMap.mpr ⟨j, hj, by rw [if_pos hphi]; exact hres⟩

theorem collectRegs_complete (f : Func) (b : Block) (j : Instr) (n : Nat)
    (hb : b ∈ f.blocks) (hj : j ∈ b.insts) (hres : j.resId = some n)
    (hphi : j.isPhi = false)
    (hex : j.isAlloca = false ∨ b.bid ≠ entryBid f)
    (hesc : valueEscapes f b.bid n = true ∨ usedOutsideOfBlock f b.bid n = true) :
    n ∈ collectRegs f := by
  unfold collectRegs
  rw [List.mem_flatten]
  refine ⟨_, List.mem_map.mpr ⟨b, hb, rfl⟩, ?_⟩
  refine List.mem_filterMap.mpr ⟨j, hj, ?_⟩
  rw [hres]
  show (if j.isPhi = true then none
    else if (j.isAlloca && decide (b.bid = entryBid f)) = true then none
    else if (valueEscapes f b.bid n || usedOutsideOfBlock f b.bid n) = true then some n
    else none) = some n
  rw [if_neg (by simp [hphi])]
  have hex2 : (j.isAlloca && decide (b.bid = entryBid f)) = false := by
    rcases hex with h | h
    · simp [h]
    · simp [h]
  rw [if_neg (by simp [hex2])]
  rw [if_pos (by rcases hesc with h | h <;> simp [h])]

theorem collectRegs_sound (f : Func) (n : Nat) (h : n ∈ collectRegs f) :
    ∃ b ∈ f.blocks, ∃ j ∈ b.insts, j.resId = some n ∧ j.isPhi = false ∧
      (j.isAlloca && decide (b.bid = entryBid f)) = false ∧
      (valueEscapes f b.bid n || usedOutsideOfBlock f b.bid n) = true := by
  unfold collectRegs at h
  rw [List.mem_flatten] at h
  obtain ⟨l, hl, hn⟩ := h
  obtain ⟨b, hb, rfl⟩ := List.mem_map.mp hl
  obtain ⟨j, hj, hjn⟩ := List.mem_filterMap.mp hn
  refine ⟨b, hb, j, hj, ?_⟩
  rcases hres : j.resId with _ | m
  · rw [hres] at hjn; cases hjn
  · rw [hres] at hjn
    have hjn2 : (if j.isPhi = true then none
        else if (j.isAlloca && decide (b.bid = entryBid f)) = true then none
        else if (valueEscapes f b.bid m || usedOutsideOfBlock f b.bid m) = true then some m
        else none) = some n := hjn
    by_cases hphi : j.isPhi = true
    · rw [if_pos hphi] at hjn2; cases hjn2
    · rw [if_neg hphi] at hjn2
      by_cases hex : (j.isAlloca && decide (b.bid = entryBid f)) = true
      · rw [if_pos hex] at hjn2; cases hjn2
      · rw [if_neg hex] at hjn2
        by_cases hesc : (valueEscapes f b.bid m || usedOutsideOfBlock f b.bid m) = true
        · rw [if_pos hesc] at hjn2
          have hmn : m = n := by cases hjn2; rfl
          subst hmn
          exact ⟨rfl, by simpa using hphi, by simpa using hex, hesc⟩
        · rw [if_neg hesc] at hjn2; cases hjn2

theorem collectPhis_sound (f : Func) (n : Nat) (h : n ∈ collectPhis f) :
    ∃ b ∈ f.blocks, ∃ j ∈ b.insts, j.isPhi = true ∧ j.resId = some n := by
  unfold collectPhis at h
  rw [List.mem_flatten] at h
  obtain ⟨l, hl, hn⟩ := h
  obtain ⟨b, hb, rfl⟩ := List.mem_map.mp hl
  obtain ⟨j, hj, hjn⟩ := List.mem_filterMap.mp hn
  by_cases hphi : j.isPhi = true
  · rw [if_pos hphi] at hjn
    exact ⟨b, hb, j, hj, hphi, hjn⟩
  · rw [if_neg hphi] at hjn; cases hjn

/-- C5 counterexample: a state where a full scan collects nothing (the
liveness-repair loop exits) and still a value definition (the state cell,
an alloca in the entry block) has a direct use in another block, against
the claim that no cross-block direct use remains. -/
theorem fixpoint_cross_block_use :
    collectRegs exC5 = [] ∧ collectPhis exC5 = [] ∧
    (Instr.alloca 1) ∈ (exC5.blocks.headD default).insts ∧
    valueEscapes exC5 (entryBid exC5) 1 = true ∧
    usedOutsideOfBlock exC5 (entryBid exC5) 1 = true := by decide

/-- C5 amended: when a full scan collects nothing, no merge-value (phi)
remains, and every value definition either is a storage allocation sitting
in the entry block (which dominates every use in the flattened function) or
has no use outside its own block and no phi use at all. -/
theorem fixpoint_invariant (f : Func)
    (hr : collectRegs f = []) (hp : collectPhis f = []) :
    (∀ b ∈ f.blocks, ∀ j ∈ b.insts, j.isPhi = false) ∧
    (∀ b ∈ f.blocks, ∀ j ∈ b.insts, ∀ n, j.resId = some n →
      (j.isAlloca = true ∧ b.bid = entryBid f) ∨
        (valueEscapes f b.bid n = false ∧ usedOutsideOfBlock f b.bid n = false)) := by
  have hnophi : ∀ b ∈ f.blocks, ∀ j ∈ b.insts, j.isPhi = false := by
    intro b hb j hj
    by_contra hc
    rw [Bool.not_eq_false] at hc
    have hres : ∃ n, j.resId = some n := by
      cases j <;> simp_all [Instr.isPhi, Instr.resId]
    obtain ⟨n, hn⟩ := hres
    have hmem := collectPhis_complete f b j n hb hj hc hn
    rw [hp] at hmem
    cases hmem
  refine ⟨hnophi, ?_⟩
  intro b hb j hj n hres
  by_contra hc
  push_neg at hc
  obtain ⟨h1, h2⟩ := hc
  have hex : j.isAlloca = false ∨ b.bid ≠ entryBid f := by
    by_cases ha : j.isAlloca = true
    · exact Or.inr (h1 ha)
    · exact Or.inl (by simpa using ha)
  have hesc : valueEscapes f b.bid n = true ∨ usedOutsideOfBlock f b.bid n = true := by
    by_cases he : valueEscapes f b.bid n = true
    · exact Or.inl he
    · have hef : valueEscapes f b.bid n = false := by simpa using he
      have hu := h2 hef
      exact Or.inr (by simpa using hu)
  have hmem := collectRegs_complete f b j n hb hj hres (hnophi b hb j hj) hex hesc
  rw [hr] at hmem
  cases hmem

/-- C5 amended witness: in the fixed point `exC5` the non-alloca
definition (the load, id 2) has no cross-block use. -/
theorem fixpoint_invariant_witness :
    valueEscapes exC5 5 2 = false ∧ usedOutsideOfBlock exC5 5 2 = false := by
  have h := (fixpoint_invariant exC5 (by decide) (by decide)).2
    (Block.mk 5 [Instr.load 2 (Operand.reg 1)] (Term.ret (some (Operand.reg 2))))
    (by decide) (Instr.load 2 (Operand.reg 1)) (by decide) 2 rfl
  rcases h with ⟨ha, hb⟩ | ⟨h1, h2⟩
  · exact absurd hb (by decide)
  · exact ⟨h1, h2⟩

theorem filterMap_resId_inj (l : List Instr) (h : (l.filterMap Instr.resId).Nodup)
    (a : Instr) (ha : a ∈ l) (b : Instr) (hb : b ∈ l) (n : Nat)
    (han : a.resId = some n) (hbn : b.resId = some n) : a = b := by
  induction l with
  | nil => cases ha
  | cons x tl ih =>
    rcases hres : x.resId with _ | m
    · have hfm : (x :: tl).filterMap Instr.resId = tl.filterMap Instr.resId := by
        simp [List.filterMap_cons, hres]
      rcases List.mem_cons.mp ha with rfl | hat
      · rw [hres] at han; cases han
      · rcases List.mem_cons.mp hb with rfl | hbt
        · rw [hres] at hbn; cases hbn
        · exact ih (by rwa [hfm] at h) hat hbt
    · have hfm : (x :: tl).filterMap Instr.resId = m :: tl.filterMap Instr.resId := by
        simp [List.filterMap_cons, hres]
      rw [hfm] at h
      rcases List.mem_cons.mp ha with rfl | hat
      · rcases List.mem_cons.mp hb with rfl | hbt
        · rfl
        · exfalso
          have hmem : n ∈ tl.filterMap Instr.resId := List.mem_filterMap.mpr ⟨b, hbt, hbn⟩
          have hmn : m = n := by rw [hres] at han; cases han; rfl
          exact (List.nodup_cons.mp h).1 (hmn ▸ hmem)
      · rcases List.mem_cons.mp hb with rfl | hbt
        · exfalso
          have hmem : n ∈ tl.filterMap Instr.resId := List.mem_filterMap.mpr ⟨a, hat, han⟩
          have hmn : m = n := by rw [hres] at hbn; cases hbn; rfl
          exact (List.nodup_cons.mp h).1 (hmn ▸ hmem)
        · exact ih (List.nodup_cons.mp h).2 hat hbt

theorem nodup_defs_inj (bs : List Block)
    (h : ((bs.map fun b => b.insts.filterMap Instr.resId).flatten).Nodup)
    (b1 : Block) (hb1 : b1 ∈ bs) (j1 : Instr) (hj1 : j1 ∈ b1.insts)
    (b2 : Block) (hb2 : b2 ∈ bs) (j2 : Instr) (hj2 : j2 ∈ b2.insts)
    (n : Nat) (h1 : j1.resId = some n) (h2 : j2.resId = some n) :
    b1 = b2 ∧ j1 = j2 := by
  induction bs with
  | nil => cases hb1
  | cons x tl ih =>
    rw [List.map_cons, List.flatten_cons] at h
    rcases List.mem_cons.mp hb1 with rfl | hb1t
    · rcases List.mem_cons.mp hb2 with rfl | hb2t
      · exact ⟨rfl, filterMap_resId_inj _ h.of_append_left j1 hj1 j2 hj2 n h1 h2⟩
      · exfalso
        have hn1 : n ∈ b1.insts.filterMap Instr.resId := List.mem_filterMap.mpr ⟨j1, hj1, h1⟩
        have hn2 : n ∈ ((tl.map fun b => b.insts.filterMap Instr.resId).flatten) := by
          rw [List.mem_flatten]
          exact ⟨_, List.mem_map.mpr ⟨b2, hb2t, rfl⟩, List.mem_filterMap.mpr ⟨j2, hj2, h2⟩⟩
        exact (List.disjoint_of_nodup_append h) hn1 hn2
    · rcases List.mem_cons.mp hb2 with rfl | hb2t
      · exfalso
        have hn2 : n ∈ b2.insts.filterMap Instr.resId := List.mem_filterMap.mpr ⟨j2, hj2, h2⟩
        have hn1 : n ∈ ((tl.map fun b => b.insts.filterMap Instr.resId).flatten) := by
          rw [List.mem_flatten]
          exact ⟨_, List.mem_map.mpr ⟨b1, hb1t, rfl⟩, List.mem_filterMap.mpr ⟨j1, hj1, h1⟩⟩
        exact (List.disjoint_of_nodup_append h) hn2 hn1
      · exact ih h.of_append_right hb1t hb2t

theorem entry_alloca_never_collected (f : Func) (n : Nat) (eb : Block)
    (hhead : f.blocks.headD default = eb) (hne : f.blocks ≠ [])
    (hj : Instr.alloca n ∈ eb.insts) (hnodup : (resIds f).Nodup) :
    n ∉ collectRegs f := by
  intro hmem
  obtain ⟨b, hb, j, hjb, hres, hphi, hexf, hesc⟩ := collectRegs_sound f n hmem
  have hebmem : eb ∈ f.blocks := by
    rcases hbs : f.blocks with _ | ⟨x, tl⟩
    · exact absurd hbs hne
    · rw [hbs] at hhead
      rw [← (by simpa using hhead : x = eb)]
      exact List.mem_cons_self _ _
  obtain ⟨hbe, hje⟩ := nodup_defs_inj f.blocks hnodup eb hebmem (Instr.alloca n) hj
    b hb j hjb n rfl hres
  have hbid : b.bid = entryBid f := by
    rw [← hbe, entryBid, hhead]
  rw [← hje, hbid] at hexf
  simp [Instr.isAlloca] at hexf

theorem demoteBlocks_cons (n a : Nat) (x : Block) (tl : List Block) (c : Nat) :
    ∃ x2 tl2, (demoteBlocks n a (x :: tl) c).1 = x2 :: tl2 ∧ x2.bid = x.bid := by
  refine ⟨(demoteBlock n a x c).1, (demoteBlocks n a tl (demoteBlock n a x c).2.2).1,
    by simp [demoteBlocks], ?_⟩
  unfold demoteBlock
  by_cases ht : x.term.usesId n = true <;> simp [ht]

theorem appendLoads_cons (a : Nat) (pend : List (Nat × Nat)) (x : Block) (tl : List Block) :
    ∃ x2 tl2, appendLoads a pend (x :: tl) = x2 :: tl2 ∧ x2.bid = x.bid := by
  induction pend generalizing x tl with
  | nil => exact ⟨x, tl, rfl, rfl⟩
  | cons pl rest ih =>
    have hfold : appendLoads a (pl :: rest) (x :: tl) =
        appendLoads a rest (appendLoad a pl (x :: tl)) := rfl
    have hstep : appendLoad a pl (x :: tl) =
        (if x.bid = pl.1 then
          Block.mk x.bid (x.insts ++ [Instr.load pl.2 (Operand.reg a)]) x.term
         else x) ::
          (tl.map fun b =>
            if b.bid = pl.1 then
              Block.mk b.bid (b.insts ++ [Instr.load pl.2 (Operand.reg a)]) b.term
            else b) := rfl
    rw [hfold, hstep]
    by_cases hx : x.bid = pl.1
    · rw [if_pos hx]
      obtain ⟨x2, tl2, he, hbid⟩ := ih _ _
      exact ⟨x2, tl2, he, hbid⟩
    · rw [if_neg hx]
      exact ih _ _

theorem demoteReg_cell_in_entry (n : Nat) (f : Func) (c : Nat) (x : Block) (tl : List Block)
    (hbs : f.blocks = x :: tl)
    (hdef : f.blocks.any (fun b => b.insts.any fun u => u.resId = some n) = true) :
    ∃ x2 tl2, (demoteRegToStack n f c).1.blocks = x2 :: tl2 ∧ x2.bid = x.bid ∧
      x2.insts.getLast? = some (Instr.alloca c) := by
  unfold demoteRegToStack
  rw [if_pos hdef, hbs]
  dsimp only
  obtain ⟨y1, t1, he1, hb1⟩ := demoteBlocks_cons n c x tl (c+1)
  rw [he1]
  obtain ⟨y2, t2, he2, hb2⟩ := appendLoads_cons c (demoteBlocks n c (x :: tl) (c+1)).2.1 y1 t1
  rw [he2]
  have hins : insertStoreAfterDef n (Instr.store (Operand.reg n) (Operand.reg c)) (y2 :: t2) =
      Block.mk y2.bid (insertAfterDef n (Instr.store (Operand.reg n) (Operand.reg c)) y2.insts) y2.term ::
        (t2.map fun b =>
          Block.mk b.bid (insertAfterDef n (Instr.store (Operand.reg n) (Operand.reg c)) b.insts) b.term) := rfl
  rw [hins]
  refine ⟨_, _, rfl, ?_, ?_⟩
  · show y2.bid = x.bid
    rw [hb2, hb1]
  · exact List.getLast?_concat _

theorem appendStores_cons (a : Nat) (inc : List (Nat × Operand)) (x : Block) (tl : List Block) :
    ∃ x2 tl2, inc.foldl (fun acc pv => appendStore a pv acc) (x :: tl) = x2 :: tl2 ∧
      x2.bid = x.bid := by
  induction inc generalizing x tl with
  | nil => exact ⟨x, tl, rfl, rfl⟩
  | cons pv rest ih =>
    have hfold : (pv :: rest).foldl (fun acc pv => appendStore a pv acc) (x :: tl) =
        rest.foldl (fun acc pv => appendStore a pv acc) (appendStore a pv (x :: tl)) := rfl
    have hstep : appendStore a pv (x :: tl) =
        (if x.bid = pv.1 then
          Block.mk x.bid (x.insts ++ [Instr.store pv.2 (Operand.reg a)]) x.term
         else x) ::
          (tl.map fun b =>
            if b.bid = pv.1 then
              Block.mk b.bid (b.insts ++ [Instr.store pv.2 (Operand.reg a)]) b.term
            else b) := rfl
    rw [hfold, hstep]
    by_cases hx : x.bid = pv.1
    · rw [if_pos hx]
      obtain ⟨x2, tl2, he, hbid⟩ := ih _ _
      exact ⟨x2, tl2, he, hbid⟩
    · rw [if_neg hx]
      exact ih _ _

theorem demotePhi_cell_in_entry (n : Nat) (f : Func) (c : Nat) (x : Block) (tl : List Block)
    (hbs : f.blocks = x :: tl)
    (hdef : f.blocks.any (fun b => b.insts.any fun u => u.isPhi && u.resId = some n) = true) :
    ∃ x2 tl2, (demotePhiToStack n f c).1.blocks = x2 :: tl2 ∧ x2.bid = x.bid ∧
      x2.insts.getLast? = some (Instr.alloca c) := by
  unfold demotePhiToStack
  rw [if_pos hdef, hbs]
  dsimp only
  obtain ⟨x2, tl2, he, hbid⟩ := appendStores_cons c (phiIncomingOf n f)
    (Block.mk x.bid (replacePhiWithLoad n c x.insts) x.term)
    (tl.map fun b => Block.mk b.bid (replacePhiWithLoad n c b.insts) b.term)
  rw [List.map_cons, he]
  exact ⟨_, _, rfl, hbid, List.getLast?_concat _⟩

/-- C10: a storage allocation is exempt from collection only when it sits
in the entry block: an entry-block alloca is never collected (so the cells
demotion creates are never re-collected later), an alloca in another block
whose result escapes is collected like any other escaping value, and both
demotion primitives append their replacement cell to the entry block,
before its terminator. -/
theorem demotion_alloca_policy (f : Func) (n : Nat) (eb b : Block) (c : Nat)
    (x : Block) (tl : List Block) :
    (f.blocks.headD default = eb → f.blocks ≠ [] → Instr.alloca n ∈ eb.insts →
      (resIds f).Nodup → n ∉ collectRegs f) ∧
    (b ∈ f.blocks → Instr.alloca n ∈ b.insts → b.bid ≠ entryBid f →
      (valueEscapes f b.bid n = true ∨ usedOutsideOfBlock f b.bid n = true) →
      n ∈ collectRegs f) ∧
    (f.blocks = x :: tl →
      f.blocks.any (fun b => b.insts.any fun u => u.resId = some n) = true →
      ∃ x2 tl2, (demoteRegToStack n f c).1.blocks = x2 :: tl2 ∧ x2.bid = x.bid ∧
        x2.insts.getLast? = some (Instr.alloca c)) ∧
    (f.blocks = x :: tl →
      f.blocks.any (fun b => b.insts.any fun u => u.isPhi && u.resId = some n) = true →
      ∃ x2 tl2, (demotePhiToStack n f c).1.blocks = x2 :: tl2 ∧ x2.bid = x.bid ∧
        x2.insts.getLast? = some (Instr.alloca c)) := by
  refine ⟨entry_alloca_never_collected f n eb, ?_, demoteReg_cell_in_entry n f c x tl,
    demotePhi_cell_in_entry n f c x tl⟩
  intro hb hj hne hesc
  exact collectRegs_complete f b (Instr.alloca n) n hb hj rfl rfl (Or.inr hne) hesc

/-- C10 witness: the entry alloca of `exC5` is not collected. -/
theorem demotion_alloca_policy_witness : 1 ∉ collectRegs exC5 :=
  (demotion_alloca_policy exC5 1 (Block.mk 0 [Instr.alloca 1] (Term.jump 5)) default 0
    default []).1 (by decide) (by decide) (by decide) (by decide)

/-! Helper lemmas about use substitution, for the liveness-repair proofs. -/

theorem list_any_congr {α : Type} (l : List α) (p q : α → Bool)
    (h : ∀ a ∈ l, p a = q a) : l.any p = l.any q := by
  induction l with
  | nil => rfl
  | cons x tl ih =>
    simp only [List.any_cons, h x (List.mem_cons_self _ _)]
    rw [ih (fun a ha => h a (List.mem_cons_of_mem _ ha))]

theorem substUses_resId (x r : Nat) (u : Instr) : (u.substUses x r).resId = u.resId := by
  cases u <;> rfl

theorem substUses_isPhi (x r : Nat) (u : Instr) : (u.substUses x r).isPhi = u.isPhi := by
  cases u <;> rfl

theorem substUses_isAlloca (x r : Nat) (u : Instr) : (u.substUses x r).isAlloca = u.isAlloca := by
  cases u <;> rfl

theorem substUses_operands (x r : Nat) (u : Instr) :
    (u.substUses x r).operands = u.operands.map (substOp x r) := by
  cases u <;> simp [Instr.substUses, Instr.operands, List.map_map]

theorem substUsesT_operands (x r : Nat) (t : Term) :
    (t.substUses x r).operands = t.operands.map (substOp x r) := by
  cases t with
  | ret v => cases v <;> rfl
  | _ => rfl

theorem substOp_eq_reg (x r m : Nat) (hx : m ≠ x) (hr : m ≠ r) (o : Operand) :
    decide (substOp x r o = Operand.reg m) = decide (o = Operand.reg m) := by
  cases o with
  | reg q =>
    by_cases hq : q = x
    · simp [substOp, hq, Ne.symm hr, Ne.symm hx]
    · simp [substOp, hq]
  | const k => simp [substOp]
  | nullp => simp [substOp]

theorem substOp_ne_x (x r : Nat) (hr : r ≠ x) (o : Operand) :
    decide (substOp x r o = Operand.reg x) = false := by
  cases o with
  | reg q =>
    by_cases hq : q = x
    · simp [substOp, hq, hr]
    · simp [substOp, hq, hq]
  | const k => simp [substOp]
  | nullp => simp [substOp]

theorem substUses_usesId (x r m : Nat) (hx : m ≠ x) (hr : m ≠ r) (u : Instr) :
    (u.substUses x r).usesId m = u.usesId m := by
  unfold Instr.usesId
  rw [substUses_operands, List.any_map]
  apply list_any_congr
  intro o _
  exact substOp_eq_reg x r m hx hr o

theorem substUses_not_x (x r : Nat) (hr : r ≠ x) (u : Instr) :
    (u.substUses x r).usesId x = false := by
  unfold Instr.usesId
  rw [substUses_operands, List.any_map]
  rw [List.any_eq_false]
  intro o _
  simp [substOp_ne_x x r hr o]

theorem substUsesT_usesId (x r m : Nat) (hx : m ≠ x) (hr : m ≠ r) (t : Term) :
    (t.substUses x r).usesId m = t.usesId m := by
  unfold Term.usesId
  rw [substUsesT_operands, List.any_map]
  apply list_any_congr
  intro o _
  exact substOp_eq_reg x r m hx hr o

theorem substUsesT_not_x (x r : Nat) (hr : r ≠ x) (t : Term) :
    (t.substUses x r).usesId x = false := by
  unfold Term.usesId
  rw [substUsesT_operands, List.any_map]
  rw [List.any_eq_false]
  intro o _
  simp [substOp_ne_x x r hr o]

theorem substOp_idBelow (x r cc : Nat) (hr : r < cc) (o : Operand) (h : o.idBelow cc = true) :
    (substOp x r o).idBelow cc = true := by
  cases o with
  | reg q =>
    by_cases hq : q = x <;> simp_all [substOp, Operand.idBelow]
  | const k => simp [substOp, Operand.idBelow]
  | nullp => simp [substOp, Operand.idBelow]

theorem idBelow_mono (c1 c2 : Nat) (h : c1 ≤ c2) (o : Operand) (ho : o.idBelow c1 = true) :
    o.idBelow c2 = true := by
  cases o with
  | reg q => simp_all [Operand.idBelow]; omega
  | const k => simp [Operand.idBelow]
  | nullp => simp [Operand.idBelow]

theorem instIdsBelow_mono (c1 c2 : Nat) (h : c1 ≤ c2) (u : Instr)
    (hu : u.idsBelow c1 = true) : u.idsBelow c2 = true := by
  unfold Instr.idsBelow at *
  rw [Bool.and_eq_true] at hu ⊢
  constructor
  · rcases hres : u.resId with _ | n
    · simp
    · rw [hres] at hu
      have := hu.1
      simp at this ⊢
      omega
  · rw [List.all_eq_true] at hu ⊢
    intro o ho
    exact idBelow_mono c1 c2 h o (hu.2 o ho)

theorem termIdsBelow_mono (c1 c2 : Nat) (h : c1 ≤ c2) (t : Term)
    (ht : t.idsBelow c1 = true) : t.idsBelow c2 = true := by
  unfold Term.idsBelow at *
  rw [List.all_eq_true] at ht ⊢
  intro o ho
  exact idBelow_mono c1 c2 h o (ht o ho)

theorem substUses_idsBelow (x r cc : Nat) (hr : r < cc) (u : Instr)
    (h : u.idsBelow cc = true) : (u.substUses x r).idsBelow cc = true := by
  unfold Instr.idsBelow at *
  rw [Bool.and_eq_true] at h ⊢
  constructor
  · rw [substUses_resId]; exact h.1
  · rw [substUses_operands, List.all_eq_true]
    intro o ho
    obtain ⟨o0, ho0, rfl⟩ := List.mem_map.mp ho
    exact substOp_idBelow x r cc hr o0 (List.all_eq_true.mp h.2 o0 ho0)

theorem substUsesT_idsBelow (x r cc : Nat) (hr : r < cc) (t : Term)
    (h : t.idsBelow cc = true) : (t.substUses x r).idsBelow cc = true := by
  unfold Term.idsBelow at *
  rw [substUsesT_operands, List.all_eq_true]
  intro o ho
  obtain ⟨o0, ho0, rfl⟩ := List.mem_map.mp ho
  exact substOp_idBelow x r cc hr o0 (List.all_eq_true.mp h o0 ho0)

/-! Characterization of one demotion over an instruction list. -/

theorem demoteInsts_cons_nophi (x a : Nat) (u : Instr) (rest : List Instr) (c : Nat)
    (h : u.isPhi = false) :
    demoteInsts x a (u :: rest) c =
      if u.usesId x then
        (Instr.load c (Operand.reg a) :: u.substUses x c :: (demoteInsts x a rest (c+1)).1,
          (demoteInsts x a rest (c+1)).2.1, (demoteInsts x a rest (c+1)).2.2)
      else
        (u :: (demoteInsts x a rest c).1,
          (demoteInsts x a rest c).2.1, (demoteInsts x a rest c).2.2) := by
  cases u with
  | phi m inc => simp [Instr.isPhi] at h
  | alloca m => by_cases hu : (Instr.alloca m).usesId x = true <;> simp [demoteInsts, hu]
  | load m p => by_cases hu : (Instr.load m p).usesId x = true <;> simp [demoteInsts, hu]
  | store v p => by_cases hu : (Instr.store v p).usesId x = true <;> simp [demoteInsts, hu]
  | select m c2 o1 o2 =>
    by_cases hu : (Instr.select m c2 o1 o2).usesId x = true <;> simp [demoteInsts, hu]
  | op m as => by_cases hu : (Instr.op m as).usesId x = true <;> simp [demoteInsts, hu]

theorem demoteIncoming_le (n : Nat) (inc : List (Nat × Operand)) (c : Nat) :
    c ≤ (demoteIncoming n inc c).2.2 := by
  induction inc generalizing c with
  | nil => simp [demoteIncoming]
  | cons pv rest ih =>
    obtain ⟨p, v⟩ := pv
    by_cases hv : v = Operand.reg n <;> simp only [demoteIncoming, hv, if_true, if_false]
    · exact le_trans (by omega) (ih (c+1))
    · exact ih c

theorem isPhi_exists (u : Instr) (h : u.isPhi = true) : ∃ m inc, u = Instr.phi m inc := by
  cases u with
  | phi m inc => exact ⟨m, inc, rfl⟩
  | alloca m => simp [Instr.isPhi] at h
  | load m p => simp [Instr.isPhi] at h
  | store v p => simp [Instr.isPhi] at h
  | select m c o1 o2 => simp [Instr.isPhi] at h
  | op m as => simp [Instr.isPhi] at h

theorem demoteInsts_cons_phi (x a m : Nat) (inc : List (Nat × Operand))
    (rest : List Instr) (c : Nat) :
    demoteInsts x a (Instr.phi m inc :: rest) c =
      (Instr.phi m (demoteIncoming x inc c).1 ::
          (demoteInsts x a rest (demoteIncoming x inc c).2.2).1,
        (demoteIncoming x inc c).2.1 ++
          (demoteInsts x a rest (demoteIncoming x inc c).2.2).2.1,
        (demoteInsts x a rest (demoteIncoming x inc c).2.2).2.2) := by
  simp [demoteInsts]

theorem demoteInsts_le (x a : Nat) (l : List Instr) (c : Nat) :
    c ≤ (demoteInsts x a l c).2.2 := by
  induction l generalizing c with
  | nil => simp [demoteInsts]
  | cons u rest ih =>
    by_cases hphi : u.isPhi = true
    · obtain ⟨m, inc, rfl⟩ := isPhi_exists u hphi
      rw [demoteInsts_cons_phi]
      exact le_trans (demoteIncoming_le x inc c) (ih _)
    · rw [demoteInsts_cons_nophi x a u rest c (by simpa using hphi)]
      by_cases hu : u.usesId x = true
      · rw [if_pos hu]
        exact le_trans (by omega) (ih (c+1))
      · rw [if_neg hu]
        exact ih c

theorem usesId_lt_of_idsBelow (cg m : Nat) (u : Instr) (hub : u.idsBelow cg = true)
    (h : u.usesId m = true) : m < cg := by
  unfold Instr.usesId at h
  rw [List.any_eq_true] at h
  obtain ⟨o, ho, heq⟩ := h
  unfold Instr.idsBelow at hub
  rw [Bool.and_eq_true, List.all_eq_true] at hub
  have h2 := hub.2 o ho
  rw [(by simpa using heq : o = Operand.reg m)] at h2
  simpa [Operand.idBelow] using h2

theorem termUsesId_lt_of_idsBelow (cg m : Nat) (t : Term) (hub : t.idsBelow cg = true)
    (h : t.usesId m = true) : m < cg := by
  unfold Term.usesId at h
  rw [List.any_eq_true] at h
  obtain ⟨o, ho, heq⟩ := h
  unfold Term.idsBelow at hub
  rw [List.all_eq_true] at hub
  have h2 := hub o ho
  rw [(by simpa using heq : o = Operand.reg m)] at h2
  simpa [Operand.idBelow] using h2

theorem demoteInsts_pend_nophi (x a : Nat) (l : List Instr) (c : Nat)
    (hnp : ∀ u ∈ l, u.isPhi = false) : (demoteInsts x a l c).2.1 = [] := by
  induction l generalizing c with
  | nil => simp [demoteInsts]
  | cons u rest ih =>
    rw [demoteInsts_cons_nophi x a u rest c (hnp u (List.mem_cons_self _ _))]
    by_cases hu : u.usesId x = true
    · rw [if_pos hu]
      exact ih (c+1) (fun v hv => hnp v (List.mem_cons_of_mem _ hv))
    · rw [if_neg hu]
      exact ih c (fun v hv => hnp v (List.mem_cons_of_mem _ hv))

theorem demoteInsts_nophi (x a : Nat) (l : List Instr) (c : Nat)
    (hnp : ∀ u ∈ l, u.isPhi = false) :
    ∀ v ∈ (demoteInsts x a l c).1, v.isPhi = false := by
  induction l generalizing c with
  | nil => intro v hv; simp [demoteInsts] at hv
  | cons u rest ih =>
    rw [demoteInsts_cons_nophi x a u rest c (hnp u (List.mem_cons_self _ _))]
    by_cases hu : u.usesId x = true
    · rw [if_pos hu]
      intro v hv
      rcases List.mem_cons.mp hv with rfl | hv2
      · rfl
      · rcases List.mem_cons.mp hv2 with rfl | hv3
        · rw [substUses_isPhi]; exact hnp u (List.mem_cons_self _ _)
        · exact ih (c+1) (fun w hw => hnp w (List.mem_cons_of_mem _ hw)) v hv3
    · rw [if_neg hu]
      intro v hv
      rcases List.mem_cons.mp hv with rfl | hv2
      · exact hnp v (List.mem_cons_self _ _)
      · exact ih c (fun w hw => hnp w (List.mem_cons_of_mem _ hw)) v hv2

theorem demoteInsts_uses_eq (x a m : Nat) (l : List Instr) (c : Nat)
    (hnp : ∀ u ∈ l, u.isPhi = false) (hm : m < c) (hx : m ≠ x) (ha : m ≠ a) :
    (demoteInsts x a l c).1.any (fun u => u.usesId m) = l.any (fun u => u.usesId m) := by
  induction l generalizing c with
  | nil => simp [demoteInsts]
  | cons u rest ih =>
    rw [demoteInsts_cons_nophi x a u rest c (hnp u (List.mem_cons_self _ _))]
    by_cases hu : u.usesId x = true
    · rw [if_pos hu]; simp only [List.any_cons]
      have hload : (Instr.load c (Operand.reg a)).usesId m = false := by
        simp [Instr.usesId, Instr.operands, Operand.reg.injEq, Ne.symm ha]
      rw [hload, substUses_usesId x c m hx (by omega)]
      rw [ih (c+1) (fun w hw => hnp w (List.mem_cons_of_mem _ hw)) (by omega)]
      simp
    · rw [if_neg hu]; simp only [List.any_cons]
      rw [ih c (fun w hw => hnp w (List.mem_cons_of_mem _ hw)) hm]

theorem demoteInsts_uses_x (x a : Nat) (l : List Instr) (c : Nat)
    (hnp : ∀ u ∈ l, u.isPhi = false) (hax : a ≠ x) (hxc : x < c) :
    (demoteInsts x a l c).1.any (fun u => u.usesId x) = false := by
  induction l generalizing c with
  | nil => simp [demoteInsts]
  | cons u rest ih =>
    rw [demoteInsts_cons_nophi x a u rest c (hnp u (List.mem_cons_self _ _))]
    by_cases hu : u.usesId x = true
    · rw [if_pos hu]; simp only [List.any_cons]
      have hload : (Instr.load c (Operand.reg a)).usesId x = false := by
        simp [Instr.usesId, Instr.operands, Operand.reg.injEq, hax]
      rw [hload, substUses_not_x x c (by omega)]
      rw [ih (c+1) (fun w hw => hnp w (List.mem_cons_of_mem _ hw)) (by omega)]
      simp
    · rw [if_neg hu]; simp only [List.any_cons]
      rw [ih c (fun w hw => hnp w (List.mem_cons_of_mem _ hw)) hxc]
      simpa using hu

theorem demoteInsts_uses_range (x a cg : Nat) (l : List Instr) (c : Nat)
    (hnp : ∀ u ∈ l, u.isPhi = false) (hub : ∀ u ∈ l, u.idsBelow cg = true)
    (hcg : cg ≤ c) (hxcg : x < cg) (m : Nat)
    (h : (demoteInsts x a l c).1.any (fun u => u.usesId m) = true) :
    m < cg ∨ m = a ∨ (c ≤ m ∧ m < (demoteInsts x a l c).2.2) := by
  induction l generalizing c with
  | nil => simp [demoteInsts] at h
  | cons u rest ih =>
    rw [demoteInsts_cons_nophi x a u rest c (hnp u (List.mem_cons_self _ _))] at h ⊢
    by_cases hu : u.usesId x = true
    · rw [if_pos hu] at h ⊢
      dsimp only at h ⊢
      simp only [List.any_cons] at h
      rcases (by simpa using h :
          (Instr.load c (Operand.reg a)).usesId m = true ∨
          (u.substUses x c).usesId m = true ∨
          (demoteInsts x a rest (c+1)).1.any (fun v => v.usesId m) = true) with h1 | h1 | h1
      · right; left
        have : Operand.reg a = Operand.reg m := by
          simpa [Instr.usesId, Instr.operands] using h1
        simpa using this.symm
      · by_cases hmc : m = c
        · right; right
          constructor
          · omega
          · have := demoteInsts_le x a rest (c+1)
            omega
        · by_cases hmx : m = x
          · rw [hmx] at h1
            rw [substUses_not_x x c (by omega)] at h1
            cases h1
          · rw [substUses_usesId x c m hmx hmc] at h1
            exact Or.inl (usesId_lt_of_idsBelow cg m u (hub u (List.mem_cons_self _ _)) h1)
      · rcases ih (c+1) (fun w hw => hnp w (List.mem_cons_of_mem _ hw))
          (fun w hw => hub w (List.mem_cons_of_mem _ hw)) (by omega) h1 with h2 | h2 | ⟨h2, h3⟩
        · exact Or.inl h2
        · exact Or.inr (Or.inl h2)
        · exact Or.inr (Or.inr ⟨by omega, h3⟩)
    · rw [if_neg hu] at h ⊢
      dsimp only at h ⊢
      simp only [List.any_cons] at h
      rcases (by simpa using h : u.usesId m = true ∨
          (demoteInsts x a rest c).1.any (fun v => v.usesId m) = true) with h1 | h1
      · exact Or.inl (usesId_lt_of_idsBelow cg m u (hub u (List.mem_cons_self _ _)) h1)
      · exact ih c (fun w hw => hnp w (List.mem_cons_of_mem _ hw))
          (fun w hw => hub w (List.mem_cons_of_mem _ hw)) hcg h1

theorem defsOf_lt_of_idsBelow (cg m : Nat) (l : List Instr)
    (hub : ∀ u ∈ l, u.idsBelow cg = true) (h : defsOf m l ≠ []) : m < cg := by
  obtain ⟨fl, hfl⟩ := List.exists_mem_of_ne_nil _ h
  obtain ⟨u, hu, hue⟩ := List.mem_filterMap.mp hfl
  by_cases hres : u.resId = some m
  · have h2 := hub u hu
    unfold Instr.idsBelow at h2
    rw [Bool.and_eq_true] at h2
    have h3 := h2.1
    rw [hres] at h3
    simpa using h3
  · rw [if_neg hres] at hue
    cases hue

theorem demoteIncoming_idBelow (n cg : Nat) (inc : List (Nat × Operand)) (c : Nat)
    (hub : ∀ pv ∈ inc, (Prod.snd pv).idBelow cg = true) (hcg : cg ≤ c) :
    ∀ pv ∈ (demoteIncoming n inc c).1,
      (Prod.snd pv).idBelow ((demoteIncoming n inc c).2.2) = true := by
  induction inc generalizing c with
  | nil => intro pv hpv; simp [demoteIncoming] at hpv
  | cons qv rest ih =>
    obtain ⟨p, v⟩ := qv
    intro pv hpv
    by_cases hv : v = Operand.reg n
    · simp only [demoteIncoming, hv, if_pos] at hpv ⊢
      rcases List.mem_cons.mp hpv with rfl | hpv2
      · have := demoteIncoming_le n rest (c+1)
        simp only [Operand.idBelow]
        simp
        omega
      · exact ih (c+1) (fun w hw => hub w (List.mem_cons_of_mem _ hw)) (by omega) pv hpv2
    · simp only [demoteIncoming, hv, if_neg, if_false] at hpv ⊢
      rcases List.mem_cons.mp hpv with rfl | hpv2
      · have h2 := hub (p, v) (List.mem_cons_self _ _)
        exact idBelow_mono cg _ (le_trans hcg (demoteIncoming_le n rest c)) _ h2
      · exact ih c (fun w hw => hub w (List.mem_cons_of_mem _ hw)) hcg pv hpv2

theorem demoteInsts_defs_eq (x a m : Nat) (l : List Instr) (c : Nat) (hm : m < c) :
    defsOf m (demoteInsts x a l c).1 = defsOf m l := by
  induction l generalizing c with
  | nil => simp [demoteInsts]
  | cons u rest ih =>
    by_cases hphi : u.isPhi = true
    · obtain ⟨m0, inc, rfl⟩ := isPhi_exists u hphi
      rw [demoteInsts_cons_phi]
      dsimp only
      unfold defsOf
      rw [List.filterMap_cons, List.filterMap_cons]
      have hle := demoteIncoming_le x inc c
      have hrec := ih ((demoteIncoming x inc c).2.2) (by omega)
      unfold defsOf at hrec
      rw [hrec]
      rfl
    · rw [demoteInsts_cons_nophi x a u rest c (by simpa using hphi)]
      by_cases hu : u.usesId x = true
      · rw [if_pos hu]
        dsimp only
        unfold defsOf
        rw [List.filterMap_cons, List.filterMap_cons, List.filterMap_cons]
        have hload : (if (Instr.load c (Operand.reg a)).resId = some m then
            some (Instr.load c (Operand.reg a)).isAlloca else none) = none := by
          rw [if_neg]
          simp [Instr.resId]
          omega
        rw [hload]
        have hrec := ih (c+1) (by omega)
        unfold defsOf at hrec
        rw [hrec, substUses_resId, substUses_isAlloca]
      · rw [if_neg hu]
        dsimp only
        unfold defsOf
        rw [List.filterMap_cons, List.filterMap_cons]
        have hrec := ih c hm
        unfold defsOf at hrec
        rw [hrec]

theorem demoteInsts_defs_range (x a : Nat) (l : List Instr) (c : Nat) (m : Nat)
    (h : defsOf m (demoteInsts x a l c).1 ≠ []) :
    defsOf m l ≠ [] ∨ (c ≤ m ∧ m < (demoteInsts x a l c).2.2) := by
  induction l generalizing c with
  | nil => simp [demoteInsts, defsOf] at h
  | cons u rest ih =>
    by_cases hphi : u.isPhi = true
    · obtain ⟨m0, inc, rfl⟩ := isPhi_exists u hphi
      rw [demoteInsts_cons_phi] at h ⊢
      dsimp only at h ⊢
      unfold defsOf at h ⊢
      rw [List.filterMap_cons] at h ⊢
      simp only [Instr.resId] at h ⊢
      by_cases hres : m0 = m
      · rw [if_pos (by rw [hres])]
        exact Or.inl (by intro hcon; cases hcon)
      · rw [if_neg (by simpa using hres)] at h
        rw [if_neg (by simpa using hres)]
        rcases ih ((demoteIncoming x inc c).2.2) h with h2 | ⟨h2, h3⟩
        · exact Or.inl h2
        · have := demoteIncoming_le x inc c
          exact Or.inr ⟨by omega, h3⟩
    · rw [demoteInsts_cons_nophi x a u rest c (by simpa using hphi)] at h ⊢
      by_cases hu : u.usesId x = true
      · rw [if_pos hu] at h ⊢
        dsimp only at h ⊢
        unfold defsOf at h ⊢
        rw [List.filterMap_cons, List.filterMap_cons] at h
        rw [List.filterMap_cons]
        by_cases hres : (Instr.load c (Operand.reg a)).resId = some m
        · have hcm : c = m := by simpa [Instr.resId] using hres
          have := demoteInsts_le x a rest (c+1)
          exact Or.inr ⟨by omega, by omega⟩
        · rw [if_neg hres] at h
          by_cases hres2 : u.resId = some m
          · rw [if_pos hres2]
            exact Or.inl (by intro hcon; cases hcon)
          · rw [if_neg (by rw [substUses_resId]; exact hres2)] at h
            rw [if_neg hres2]
            rcases ih (c+1) h with h2 | ⟨h2, h3⟩
            · exact Or.inl h2
            · exact Or.inr ⟨by omega, h3⟩
      · rw [if_neg hu] at h ⊢
        dsimp only at h ⊢
        unfold defsOf at h ⊢
        rw [List.filterMap_cons] at h ⊢
        by_cases hres : u.resId = some m
        · rw [if_pos hres]
          exact Or.inl (by intro hcon; cases hcon)
        · rw [if_neg hres] at h ⊢
          rcases ih c h with h2 | h2
          · exact Or.inl h2
          · exact Or.inr h2

theorem demoteInsts_defs_fresh (x a cg : Nat) (l : List Instr) (c : Nat)
    (hub : ∀ u ∈ l, u.idsBelow cg = true) (hcg : cg ≤ c) (m : Nat) (hm : cg ≤ m) :
    ∀ fl ∈ defsOf m (demoteInsts x a l c).1, fl = false := by
  induction l generalizing c with
  | nil => intro fl hfl; simp [demoteInsts, defsOf] at hfl
  | cons u rest ih =>
    have hresu : ¬(u.resId = some m) := by
      intro hcon
      have h2 := hub u (List.mem_cons_self _ _)
      unfold Instr.idsBelow at h2
      rw [Bool.and_eq_true] at h2
      have h3 := h2.1
      rw [hcon] at h3
      simp at h3
      omega
    by_cases hphi : u.isPhi = true
    · obtain ⟨m0, inc, rfl⟩ := isPhi_exists u hphi
      rw [demoteInsts_cons_phi]
      dsimp only
      intro fl hfl
      unfold defsOf at hfl
      rw [List.filterMap_cons] at hfl
      simp only [Instr.resId] at hfl
      rw [if_neg (by simpa [Instr.resId] using hresu)] at hfl
      exact ih ((demoteIncoming x inc c).2.2)
        (fun w hw => hub w (List.mem_cons_of_mem _ hw))
        (le_trans hcg (demoteIncoming_le x inc c)) fl hfl
    · rw [demoteInsts_cons_nophi x a u rest c (by simpa using hphi)]
      by_cases hu : u.usesId x = true
      · rw [if_pos hu]
        dsimp only
        intro fl hfl
        unfold defsOf at hfl
        rw [List.filterMap_cons, List.filterMap_cons] at hfl
        have hsub : ¬((Instr.substUses x c u).resId = some m) := by
          rw [substUses_resId]; exact hresu
        rw [if_neg hsub] at hfl
        by_cases hres : (Instr.load c (Operand.reg a)).resId = some m
        · rw [if_pos hres] at hfl
          rcases List.mem_cons.mp hfl with rfl | hfl2
          · rfl
          · exact ih (c+1) (fun w hw => hub w (List.mem_cons_of_mem _ hw)) (by omega) fl hfl2
        · rw [if_neg hres] at hfl
          exact ih (c+1) (fun w hw => hub w (List.mem_cons_of_mem _ hw)) (by omega) fl hfl
      · rw [if_neg hu]
        dsimp only
        intro fl hfl
        unfold defsOf at hfl
        rw [List.filterMap_cons] at hfl
        rw [if_neg hresu] at hfl
        exact ih c (fun w hw => hub w (List.mem_cons_of_mem _ hw)) hcg fl hfl

theorem demoteInsts_idsBelow (x a cg : Nat) (l : List Instr) (c : Nat)
    (hub : ∀ u ∈ l, u.idsBelow cg = true) (hcg : cg ≤ c) (ha : a < c) :
    ∀ v ∈ (demoteInsts x a l c).1, v.idsBelow ((demoteInsts x a l c).2.2) = true := by
  induction l generalizing c with
  | nil => intro v hv; simp [demoteInsts] at hv
  | cons u rest ih =>
    by_cases hphi : u.isPhi = true
    · obtain ⟨m0, inc, rfl⟩ := isPhi_exists u hphi
      rw [demoteInsts_cons_phi]
      dsimp only
      intro v hv
      rcases List.mem_cons.mp hv with rfl | hv2
      · unfold Instr.idsBelow
        rw [Bool.and_eq_true]
        constructor
        · have h2 := hub _ (List.mem_cons_self _ _)
          unfold Instr.idsBelow at h2
          rw [Bool.and_eq_true] at h2
          have h3 := h2.1
          simp [Instr.resId] at h3 ⊢
          have := demoteIncoming_le x inc c
          have := demoteInsts_le x a rest ((demoteIncoming x inc c).2.2)
          omega
        · rw [List.all_eq_true]
          intro o ho
          simp only [Instr.operands] at ho
          obtain ⟨pv, hpv, rfl⟩ := List.mem_map.mp ho
          have h4 : (Prod.snd pv).idBelow ((demoteIncoming x inc c).2.2) = true := by
            apply demoteIncoming_idBelow x cg inc c _ hcg pv hpv
            intro qv hqv
            have h2 := hub _ (List.mem_cons_self _ _)
            unfold Instr.idsBelow at h2
            rw [Bool.and_eq_true, List.all_eq_true] at h2
            exact h2.2 (Prod.snd qv) (by simp only [Instr.operands]; exact List.mem_map.mpr ⟨qv, hqv, rfl⟩)
          exact idBelow_mono _ _ (demoteInsts_le x a rest _) _ h4
      · exact ih ((demoteIncoming x inc c).2.2)
          (fun w hw => hub w (List.mem_cons_of_mem _ hw))
          (le_trans hcg (demoteIncoming_le x inc c))
          (by have := demoteIncoming_le x inc c; omega) v hv2
    · rw [demoteInsts_cons_nophi x a u rest c (by simpa using hphi)]
      by_cases hu : u.usesId x = true
      · rw [if_pos hu]
        dsimp only
        intro v hv
        have hle := demoteInsts_le x a rest (c+1)
        rcases List.mem_cons.mp hv with rfl | hv2
        · unfold Instr.idsBelow
          simp [Instr.resId, Instr.operands, Operand.idBelow]
          omega
        · rcases List.mem_cons.mp hv2 with rfl | hv3
          · apply substUses_idsBelow x c _ (by omega)
            exact instIdsBelow_mono cg _ (by omega) u (hub u (List.mem_cons_self _ _))
          · exact ih (c+1) (fun w hw => hub w (List.mem_cons_of_mem _ hw)) (by omega)
              (by omega) v hv3
      · rw [if_neg hu]
        dsimp only
        intro v hv
        rcases List.mem_cons.mp hv with rfl | hv2
        · exact instIdsBelow_mono cg _ (le_trans hcg (demoteInsts_le x a rest c)) v
            (hub v (List.mem_cons_self _ _))
        · exact ih c (fun w hw => hub w (List.mem_cons_of_mem _ hw)) hcg ha v hv2

/-! Block-level facts about one demotion. -/

theorem demoteBlock_le (x a : Nat) (b : Block) (c : Nat) :
    c ≤ (demoteBlock x a b c).2.2 := by
  unfold demoteBlock
  have := demoteInsts_le x a b.insts c
  by_cases ht : b.term.usesId x = true
  · rw [if_pos ht]; dsimp only; omega
  · rw [if_neg ht]; dsimp only; omega

theorem demoteBlock_bid (x a : Nat) (b : Block) (c : Nat) :
    (demoteBlock x a b c).1.bid = b.bid := by
  unfold demoteBlock
  by_cases ht : b.term.usesId x = true
  · rw [if_pos ht]
  · rw [if_neg ht]

theorem demoteBlock_pend_nophi (x a : Nat) (b : Block) (c : Nat)
    (hnp : ∀ u ∈ b.insts, u.isPhi = false) : (demoteBlock x a b c).2.1 = [] := by
  unfold demoteBlock
  by_cases ht : b.term.usesId x = true
  · rw [if_pos ht]; exact demoteInsts_pend_nophi x a b.insts c hnp
  · rw [if_neg ht]; exact demoteInsts_pend_nophi x a b.insts c hnp

theorem demoteBlock_nophi (x a : Nat) (b : Block) (c : Nat)
    (hnp : ∀ u ∈ b.insts, u.isPhi = false) :
    ∀ v ∈ (demoteBlock x a b c).1.insts, v.isPhi = false := by
  unfold demoteBlock
  by_cases ht : b.term.usesId x = true
  · rw [if_pos ht]
    dsimp only
    intro v hv
    rcases List.mem_append.mp hv with hv2 | hv2
    · exact demoteInsts_nophi x a b.insts c hnp v hv2
    · rcases List.mem_singleton.mp hv2 with rfl
      rfl
  · rw [if_neg ht]
    exact demoteInsts_nophi x a b.insts c hnp

theorem demoteBlock_uses_eq (x a m : Nat) (b : Block) (c : Nat)
    (hnp : ∀ u ∈ b.insts, u.isPhi = false) (hm : m < c) (hx : m ≠ x) (ha : m ≠ a) :
    blockUses m (demoteBlock x a b c).1 = blockUses m b := by
  unfold demoteBlock
  have hle := demoteInsts_le x a b.insts c
  by_cases ht : b.term.usesId x = true
  · rw [if_pos ht]
    unfold blockUses
    dsimp only
    rw [List.any_append]
    have hload : ([Instr.load (demoteInsts x a b.insts c).2.2 (Operand.reg a)].any
        (fun u => u.usesId m)) = false := by
      simp [Instr.usesId, Instr.operands, Operand.reg.injEq, Ne.symm ha]
    rw [hload, demoteInsts_uses_eq x a m b.insts c hnp hm hx ha]
    rw [substUsesT_usesId x _ m hx (by omega)]
    simp
  · rw [if_neg ht]
    unfold blockUses
    dsimp only
    rw [demoteInsts_uses_eq x a m b.insts c hnp hm hx ha]

theorem demoteBlock_uses_x (x a : Nat) (b : Block) (c : Nat)
    (hnp : ∀ u ∈ b.insts, u.isPhi = false) (hax : a ≠ x) (hxc : x < c) :
    blockUses x (demoteBlock x a b c).1 = false := by
  unfold demoteBlock
  have hle := demoteInsts_le x a b.insts c
  by_cases ht : b.term.usesId x = true
  · rw [if_pos ht]
    unfold blockUses
    dsimp only
    rw [List.any_append]
    have hload : ([Instr.load (demoteInsts x a b.insts c).2.2 (Operand.reg a)].any
        (fun u => u.usesId x)) = false := by
      simp [Instr.usesId, Instr.operands, Operand.reg.injEq, hax]
    rw [hload, demoteInsts_uses_x x a b.insts c hnp hax hxc]
    rw [substUsesT_not_x x _ (by omega)]
    rfl
  · rw [if_neg ht]
    unfold blockUses
    dsimp only
    rw [demoteInsts_uses_x x a b.insts c hnp hax hxc]
    simpa using ht

theorem demoteBlock_uses_range (x a cg : Nat) (b : Block) (c : Nat)
    (hnp : ∀ u ∈ b.insts, u.isPhi = false)
    (hub : (∀ u ∈ b.insts, u.idsBelow cg = true) ∧ b.term.idsBelow cg = true)
    (hcg : cg ≤ c) (hxcg : x < cg) (m : Nat)
    (h : blockUses m (demoteBlock x a b c).1 = true) :
    m < cg ∨ m = a ∨ (c ≤ m ∧ m < (demoteBlock x a b c).2.2) := by
  unfold demoteBlock at h ⊢
  have hle := demoteInsts_le x a b.insts c
  by_cases ht : b.term.usesId x = true
  · rw [if_pos ht] at h ⊢
    unfold blockUses at h
    dsimp only at h ⊢
    rw [List.any_append] at h
    rcases (by simpa using h :
        ((demoteInsts x a b.insts c).1.any (fun u => u.usesId m) = true ∨
          ([Instr.load (demoteInsts x a b.insts c).2.2 (Operand.reg a)].any
            (fun u => u.usesId m)) = true) ∨
          (b.term.substUses x (demoteInsts x a b.insts c).2.2).usesId m = true)
      with (h1 | h1) | h1
    · rcases demoteInsts_uses_range x a cg b.insts c hnp hub.1 hcg hxcg m h1 with h2 | h2 | ⟨h2, h3⟩
      · exact Or.inl h2
      · exact Or.inr (Or.inl h2)
      · exact Or.inr (Or.inr ⟨h2, by omega⟩)
    · have : Operand.reg a = Operand.reg m := by
        simpa [Instr.usesId, Instr.operands] using h1
      exact Or.inr (Or.inl (by simpa using this.symm))
    · by_cases hmt : m = (demoteInsts x a b.insts c).2.2
      · exact Or.inr (Or.inr ⟨by omega, by omega⟩)
      · by_cases hmx : m = x
        · rw [hmx, substUsesT_not_x x _ (by omega)] at h1
          cases h1
        · rw [substUsesT_usesId x _ m hmx hmt] at h1
          exact Or.inl (termUsesId_lt_of_idsBelow cg m b.term hub.2 h1)
  · rw [if_neg ht] at h ⊢
    unfold blockUses at h
    dsimp only at h ⊢
    rcases (by simpa using h :
        (demoteInsts x a b.insts c).1.any (fun u => u.usesId m) = true ∨
          b.term.usesId m = true) with h1 | h1
    · exact demoteInsts_uses_range x a cg b.insts c hnp hub.1 hcg hxcg m h1
    · exact Or.inl (termUsesId_lt_of_idsBelow cg m b.term hub.2 h1)

theorem demoteBlock_defs_eq (x a m : Nat) (b : Block) (c : Nat) (hm : m < c) :
    defsOf m (demoteBlock x a b c).1.insts = defsOf m b.insts := by
  unfold demoteBlock
  have hle := demoteInsts_le x a b.insts c
  by_cases ht : b.term.usesId x = true
  · rw [if_pos ht]
    dsimp only
    unfold defsOf
    rw [List.filterMap_append]
    have hload : List.filterMap (fun u => if u.resId = some m then some u.isAlloca else none)
        [Instr.load (demoteInsts x a b.insts c).2.2 (Operand.reg a)] = [] := by
      simp [Instr.resId]
      omega
    rw [hload, List.append_nil]
    exact demoteInsts_defs_eq x a m b.insts c hm
  · rw [if_neg ht]
    dsimp only
    exact demoteInsts_defs_eq x a m b.insts c hm

theorem demoteBlock_defs_range (x a : Nat) (b : Block) (c : Nat) (m : Nat)
    (h : defsOf m (demoteBlock x a b c).1.insts ≠ []) :
    defsOf m b.insts ≠ [] ∨ (c ≤ m ∧ m < (demoteBlock x a b c).2.2) := by
  unfold demoteBlock at h ⊢
  have hle := demoteInsts_le x a b.insts c
  by_cases ht : b.term.usesId x = true
  · rw [if_pos ht] at h ⊢
    dsimp only at h ⊢
    unfold defsOf at h
    rw [List.filterMap_append] at h
    by_cases hload : List.filterMap (fun u => if u.resId = some m then some u.isAlloca else none)
        [Instr.load (demoteInsts x a b.insts c).2.2 (Operand.reg a)] = []
    · rw [hload, List.append_nil] at h
      rcases demoteInsts_defs_range x a b.insts c m h with h2 | ⟨h2, h3⟩
      · exact Or.inl h2
      · exact Or.inr ⟨h2, by omega⟩
    · have hm : (demoteInsts x a b.insts c).2.2 = m := by
        by_contra hcon
        exact hload (by simp [Instr.resId, hcon])
      exact Or.inr ⟨by omega, by omega⟩
  · rw [if_neg ht] at h ⊢
    dsimp only at h ⊢
    rcases demoteInsts_defs_range x a b.insts c m h with h2 | ⟨h2, h3⟩
    · exact Or.inl h2
    · exact Or.inr ⟨h2, h3⟩

theorem demoteBlock_defs_fresh (x a cg : Nat) (b : Block) (c : Nat)
    (hub : ∀ u ∈ b.insts, u.idsBelow cg = true) (hcg : cg ≤ c) (m : Nat) (hm : cg ≤ m) :
    ∀ fl ∈ defsOf m (demoteBlock x a b c).1.insts, fl = false := by
  unfold demoteBlock
  by_cases ht : b.term.usesId x = true
  · rw [if_pos ht]
    dsimp only
    intro fl hfl
    unfold defsOf at hfl
    rw [List.filterMap_append] at hfl
    rcases List.mem_append.mp hfl with h2 | h2
    · exact demoteInsts_defs_fresh x a cg b.insts c hub hcg m hm fl h2
    · rcases hres : (Instr.load (demoteInsts x a b.insts c).2.2 (Operand.reg a)).resId = some m
        with _
      by_cases hx2 : (demoteInsts x a b.insts c).2.2 = m
      · simp [Instr.resId, hx2, Instr.isAlloca] at h2
        exact h2
      · simp [Instr.resId, hx2] at h2
  · rw [if_neg ht]
    dsimp only
    exact demoteInsts_defs_fresh x a cg b.insts c hub hcg m hm

theorem demoteBlock_idsBelow (x a cg : Nat) (b : Block) (c : Nat)
    (hub : (∀ u ∈ b.insts, u.idsBelow cg = true) ∧ b.term.idsBelow cg = true)
    (hcg : cg ≤ c) (ha : a < c) :
    (∀ v ∈ (demoteBlock x a b c).1.insts, v.idsBelow ((demoteBlock x a b c).2.2) = true) ∧
      (demoteBlock x a b c).1.term.idsBelow ((demoteBlock x a b c).2.2) = true := by
  unfold demoteBlock
  have hle := demoteInsts_le x a b.insts c
  by_cases ht : b.term.usesId x = true
  · rw [if_pos ht]
    dsimp only
    constructor
    · intro v hv
      rcases List.mem_append.mp hv with hv2 | hv2
      · exact instIdsBelow_mono _ _ (by omega)
          v (demoteInsts_idsBelow x a cg b.insts c hub.1 hcg ha v hv2)
      · rcases List.mem_singleton.mp hv2 with rfl
        unfold Instr.idsBelow
        simp [Instr.resId, Instr.operands, Operand.idBelow]
        omega
    · apply substUsesT_idsBelow x _ _ (by omega)
      exact termIdsBelow_mono cg _ (by omega) b.term hub.2
  · rw [if_neg ht]
    dsimp only
    constructor
    · exact demoteInsts_idsBelow x a cg b.insts c hub.1 hcg ha
    · exact termIdsBelow_mono cg _ (by omega) b.term hub.2

theorem mem_of_getElemQ {A : Type} (l : List A) (i : Nat) (a : A) (h : l[i]? = some a) :
    a ∈ l := by
  obtain ⟨hlt, rfl⟩ := List.getElem?_eq_some.mp h
  exact List.getElem_mem hlt

theorem demoteBlocks_le (x a : Nat) (bs : List Block) (c : Nat) :
    c ≤ (demoteBlocks x a bs c).2.2 := by
  induction bs generalizing c with
  | nil => simp [demoteBlocks]
  | cons b rest ih =>
    simp only [demoteBlocks]
    exact le_trans (demoteBlock_le x a b c) (ih _)

theorem demoteBlocks_length (x a : Nat) (bs : List Block) (c : Nat) :
    (demoteBlocks x a bs c).1.length = bs.length := by
  induction bs generalizing c with
  | nil => simp [demoteBlocks]
  | cons b rest ih => simp [demoteBlocks, ih]

theorem demoteBlocks_bid (x a : Nat) (bs : List Block) (c : Nat) (i : Nat) :
    ((demoteBlocks x a bs c).1[i]?).map Block.bid = (bs[i]?).map Block.bid := by
  induction bs generalizing c i with
  | nil => simp [demoteBlocks]
  | cons b rest ih =>
    simp only [demoteBlocks]
    cases i with
    | zero => simp [demoteBlock_bid]
    | succ j => simpa using ih _ j

theorem demoteBlocks_pend_nophi (x a : Nat) (bs : List Block) (c : Nat)
    (hnp : ∀ b ∈ bs, ∀ u ∈ b.insts, u.isPhi = false) :
    (demoteBlocks x a bs c).2.1 = [] := by
  induction bs generalizing c with
  | nil => simp [demoteBlocks]
  | cons b rest ih =>
    simp only [demoteBlocks]
    rw [demoteBlock_pend_nophi x a b c (hnp b (List.mem_cons_self _ _)),
      ih _ (fun w hw => hnp w (List.mem_cons_of_mem _ hw))]
    rfl

theorem demoteBlocks_nophi (x a : Nat) (bs : List Block) (c : Nat)
    (hnp : ∀ b ∈ bs, ∀ u ∈ b.insts, u.isPhi = false) :
    ∀ b2 ∈ (demoteBlocks x a bs c).1, ∀ u ∈ b2.insts, u.isPhi = false := by
  induction bs generalizing c with
  | nil => intro b2 hb2; simp [demoteBlocks] at hb2
  | cons b rest ih =>
    simp only [demoteBlocks]
    intro b2 hb2
    rcases List.mem_cons.mp hb2 with rfl | hb3
    · exact demoteBlock_nophi x a b c (hnp b (List.mem_cons_self _ _))
    · exact ih _ (fun w hw => hnp w (List.mem_cons_of_mem _ hw)) b2 hb3

theorem demoteBlocks_uses_eq (x a m : Nat) (bs : List Block) (c : Nat)
    (hnp : ∀ b ∈ bs, ∀ u ∈ b.insts, u.isPhi = false)
    (hm : m < c) (hx : m ≠ x) (ha : m ≠ a) (i : Nat) :
    ((demoteBlocks x a bs c).1[i]?).elim false (blockUses m) =
      (bs[i]?).elim false (blockUses m) := by
  induction bs generalizing c i with
  | nil => simp [demoteBlocks]
  | cons b rest ih =>
    simp only [demoteBlocks]
    cases i with
    | zero => simpa using demoteBlock_uses_eq x a m b c (hnp b (List.mem_cons_self _ _)) hm hx ha
    | succ j =>
      have hle := demoteBlock_le x a b c
      simpa using ih _ (fun w hw => hnp w (List.mem_cons_of_mem _ hw)) (by omega) j

theorem demoteBlocks_uses_x (x a : Nat) (bs : List Block) (c : Nat)
    (hnp : ∀ b ∈ bs, ∀ u ∈ b.insts, u.isPhi = false) (hax : a ≠ x) (hxc : x < c) :
    ∀ b2 ∈ (demoteBlocks x a bs c).1, blockUses x b2 = false := by
  induction bs generalizing c with
  | nil => intro b2 hb2; simp [demoteBlocks] at hb2
  | cons b rest ih =>
    simp only [demoteBlocks]
    intro b2 hb2
    rcases List.mem_cons.mp hb2 with rfl | hb3
    · exact demoteBlock_uses_x x a b c (hnp b (List.mem_cons_self _ _)) hax hxc
    · have hle := demoteBlock_le x a b c
      exact ih _ (fun w hw => hnp w (List.mem_cons_of_mem _ hw)) (by omega) b2 hb3

theorem demoteBlocks_defs_eq (x a m : Nat) (bs : List Block) (c : Nat) (hm : m < c) (i : Nat) :
    ((demoteBlocks x a bs c).1[i]?).elim [] (fun b => defsOf m b.insts) =
      (bs[i]?).elim [] (fun b => defsOf m b.insts) := by
  induction bs generalizing c i with
  | nil => simp [demoteBlocks]
  | cons b rest ih =>
    simp only [demoteBlocks]
    cases i with
    | zero => simpa using demoteBlock_defs_eq x a m b c hm
    | succ j =>
      have hle := demoteBlock_le x a b c
      simpa using ih _ (by omega) j

theorem demoteBlocks_idsBelow (x a cg : Nat) (bs : List Block) (c : Nat)
    (hub : ∀ b ∈ bs, (∀ u ∈ b.insts, u.idsBelow cg = true) ∧ b.term.idsBelow cg = true)
    (hcg : cg ≤ c) (ha : a < c) :
    ∀ b2 ∈ (demoteBlocks x a bs c).1,
      (∀ v ∈ b2.insts, v.idsBelow ((demoteBlocks x a bs c).2.2) = true) ∧
        b2.term.idsBelow ((demoteBlocks x a bs c).2.2) = true := by
  induction bs generalizing c with
  | nil => intro b2 hb2; simp [demoteBlocks] at hb2
  | cons b rest ih =>
    simp only [demoteBlocks]
    intro b2 hb2
    have hle := demoteBlock_le x a b c
    have hle2 := demoteBlocks_le x a rest (demoteBlock x a b c).2.2
    rcases List.mem_cons.mp hb2 with rfl | hb3
    · have h2 := demoteBlock_idsBelow x a cg b c (hub b (List.mem_cons_self _ _)) hcg ha
      exact ⟨fun v hv => instIdsBelow_mono _ _ (by omega) v (h2.1 v hv),
        termIdsBelow_mono _ _ (by omega) _ h2.2⟩
    · exact ih _ (fun w hw => hub w (List.mem_cons_of_mem _ hw)) (by omega) (by omega) b2 hb3

theorem demoteBlocks_uses_range (x a cg : Nat) (bs : List Block) (c : Nat)
    (hnp : ∀ b ∈ bs, ∀ u ∈ b.insts, u.isPhi = false)
    (hub : ∀ b ∈ bs, (∀ u ∈ b.insts, u.idsBelow cg = true) ∧ b.term.idsBelow cg = true)
    (hcg : cg ≤ c) (hxcg : x < cg) (m : Nat) :
    ∀ b2 ∈ (demoteBlocks x a bs c).1, blockUses m b2 = true →
      m < cg ∨ m = a ∨ (c ≤ m ∧ m < (demoteBlocks x a bs c).2.2) := by
  induction bs generalizing c with
  | nil => intro b2 hb2; simp [demoteBlocks] at hb2
  | cons b rest ih =>
    simp only [demoteBlocks]
    intro b2 hb2 huse
    have hle := demoteBlock_le x a b c
    have hle2 := demoteBlocks_le x a rest (demoteBlock x a b c).2.2
    rcases List.mem_cons.mp hb2 with rfl | hb3
    · rcases demoteBlock_uses_range x a cg b c (hnp b (List.mem_cons_self _ _))
        (hub b (List.mem_cons_self _ _)) hcg hxcg m huse with h2 | h2 | ⟨h2, h3⟩
      · exact Or.inl h2
      · exact Or.inr (Or.inl h2)
      · exact Or.inr (Or.inr ⟨h2, by omega⟩)
    · rcases ih _ (fun w hw => hnp w (List.mem_cons_of_mem _ hw))
        (fun w hw => hub w (List.mem_cons_of_mem _ hw)) (by omega) b2 hb3 huse
        with h2 | h2 | ⟨h2, h3⟩
      · exact Or.inl h2
      · exact Or.inr (Or.inl h2)
      · exact Or.inr (Or.inr ⟨by omega, h3⟩)

theorem demoteBlocks_defs_range (x a cg : Nat) (bs : List Block) (c : Nat)
    (hub : ∀ b ∈ bs, (∀ u ∈ b.insts, u.idsBelow cg = true) ∧ b.term.idsBelow cg = true)
    (hcg : cg ≤ c) (m : Nat) :
    ∀ b2 ∈ (demoteBlocks x a bs c).1, defsOf m b2.insts ≠ [] →
      m < cg ∨ (c ≤ m ∧ m < (demoteBlocks x a bs c).2.2) := by
  induction bs generalizing c with
  | nil => intro b2 hb2; simp [demoteBlocks] at hb2
  | cons b rest ih =>
    simp only [demoteBlocks]
    intro b2 hb2 hdef
    have hle := demoteBlock_le x a b c
    have hle2 := demoteBlocks_le x a rest (demoteBlock x a b c).2.2
    rcases List.mem_cons.mp hb2 with rfl | hb3
    · rcases demoteBlock_defs_range x a b c m hdef with h2 | ⟨h2, h3⟩
      · exact Or.inl (defsOf_lt_of_idsBelow cg m b.insts (hub b (List.mem_cons_self _ _)).1 h2)
      · exact Or.inr ⟨h2, by omega⟩
    · rcases ih _ (fun w hw => hub w (List.mem_cons_of_mem _ hw)) (by omega) b2 hb3 hdef
        with h2 | ⟨h2, h3⟩
      · exact Or.inl h2
      · exact Or.inr ⟨by omega, h3⟩

theorem demoteBlocks_defs_fresh (x a cg : Nat) (bs : List Block) (c : Nat)
    (hub : ∀ b ∈ bs, (∀ u ∈ b.insts, u.idsBelow cg = true) ∧ b.term.idsBelow cg = true)
    (hcg : cg ≤ c) (m : Nat) (hm : cg ≤ m) :
    ∀ b2 ∈ (demoteBlocks x a bs c).1, ∀ fl ∈ defsOf m b2.insts, fl = false := by
  induction bs generalizing c with
  | nil => intro b2 hb2; simp [demoteBlocks] at hb2
  | cons b rest ih =>
    simp only [demoteBlocks]
    intro b2 hb2
    have hle := demoteBlock_le x a b c
    rcases List.mem_cons.mp hb2 with rfl | hb3
    · exact demoteBlock_defs_fresh x a cg b c (hub b (List.mem_cons_self _ _)).1 hcg m hm
    · exact ih _ (fun w hw => hub w (List.mem_cons_of_mem _ hw)) (by omega) b2 hb3

theorem demoteBlocks_confine (x a cg : Nat) (bs : List Block) (c : Nat)
    (hnp : ∀ b ∈ bs, ∀ u ∈ b.insts, u.isPhi = false)
    (hub : ∀ b ∈ bs, (∀ u ∈ b.insts, u.idsBelow cg = true) ∧ b.term.idsBelow cg = true)
    (hcg : cg ≤ c) (hxcg : x < cg) (ha : a < c) (m : Nat) (hm : c ≤ m) :
    ∀ (i k : Nat) (bi bk : Block), (demoteBlocks x a bs c).1[i]? = some bi → defsOf m bi.insts ≠ [] →
      (demoteBlocks x a bs c).1[k]? = some bk → blockUses m bk = true → k = i := by
  induction bs generalizing c m with
  | nil => intro i k bi bk hbi; simp [demoteBlocks] at hbi
  | cons b rest ih =>
    intro i k bi bk hbi hdef hbk huse
    simp only [demoteBlocks] at hbi hbk
    have hle := demoteBlock_le x a b c
    have hle2 := demoteBlocks_le x a rest (demoteBlock x a b c).2.2
    cases i with
    | zero =>
      have hbi2 : bi = (demoteBlock x a b c).1 := by
        have h9 := hbi
        simp at h9
        exact h9.symm
      subst hbi2
      -- the definition of m in the head block puts m below the tail start counter
      have hdr : m < (demoteBlock x a b c).2.2 := by
        rcases demoteBlock_defs_range x a b c m hdef with h2 | ⟨h2, h3⟩
        · exact absurd (defsOf_lt_of_idsBelow cg m b.insts
            (hub b (List.mem_cons_self _ _)).1 h2) (by omega)
        · exact h3
      cases k with
      | zero => rfl
      | succ j =>
        exfalso
        have hbk2 : (demoteBlocks x a rest (demoteBlock x a b c).2.2).1[j]? = some bk := by
          simpa using hbk
        have hmem : bk ∈ (demoteBlocks x a rest (demoteBlock x a b c).2.2).1 :=
          mem_of_getElemQ _ _ _ hbk2
        rcases demoteBlocks_uses_range x a cg rest _
          (fun w hw => hnp w (List.mem_cons_of_mem _ hw))
          (fun w hw => hub w (List.mem_cons_of_mem _ hw)) (by omega) hxcg m bk hmem huse
          with h2 | h2 | ⟨h2, h3⟩
        · omega
        · omega
        · omega
    | succ j =>
      have hbi2 : (demoteBlocks x a rest (demoteBlock x a b c).2.2).1[j]? = some bi := by
        simpa using hbi
      have hmemi : bi ∈ (demoteBlocks x a rest (demoteBlock x a b c).2.2).1 :=
        mem_of_getElemQ _ _ _ hbi2
      have hdr : (demoteBlock x a b c).2.2 ≤ m := by
        rcases demoteBlocks_defs_range x a cg rest _
          (fun w hw => hub w (List.mem_cons_of_mem _ hw)) (by omega) m bi hmemi hdef
          with h2 | ⟨h2, h3⟩
        · omega
        · omega
      cases k with
      | zero =>
        exfalso
        have hbk2 : bk = (demoteBlock x a b c).1 := by
          have h9 := hbk
          simp at h9
          exact h9.symm
        subst hbk2
        rcases demoteBlock_uses_range x a cg b c (hnp b (List.mem_cons_self _ _))
          (hub b (List.mem_cons_self _ _)) hcg hxcg m huse with h2 | h2 | ⟨h2, h3⟩
        · omega
        · omega
        · omega
      | succ j2 =>
        have hbk2 : (demoteBlocks x a rest (demoteBlock x a b c).2.2).1[j2]? = some bk := by
          simpa using hbk
        have := ih _ (fun w hw => hnp w (List.mem_cons_of_mem _ hw))
          (fun w hw => hub w (List.mem_cons_of_mem _ hw)) (by omega) (by omega) m hdr
          j j2 bi bk hbi2 hdef hbk2 huse
        omega

open Flattening

theorem insertAfterDef_uses (n m : Nat) (st : Instr) (l : List Instr) :
    (insertAfterDef n st l).any (fun u => u.usesId m) =
      (l.any (fun u => u.usesId m) ||
        ((l.any fun u => u.resId = some n) && st.usesId m)) := by
  induction l with
  | nil => simp [insertAfterDef]
  | cons u rest ih =>
    unfold insertAfterDef
    by_cases hres : u.resId = some n
    · rw [if_pos hres]
      simp only [List.any_cons, hres]
      simp
      by_cases hum : u.usesId m = true <;>
        by_cases hsm : st.usesId m = true <;> simp [hum, hsm]
    · rw [if_neg hres]
      simp only [List.any_cons, ih]
      by_cases hum : u.usesId m = true <;> simp [hum, hres]

theorem insertAfterDef_defs (n m : Nat) (st : Instr) (hst : st.resId = none)
    (l : List Instr) : defsOf m (insertAfterDef n st l) = defsOf m l := by
  induction l with
  | nil => simp [insertAfterDef]
  | cons u rest ih =>
    unfold insertAfterDef
    by_cases hres : u.resId = some n
    · rw [if_pos hres]
      unfold defsOf
      simp only [List.filterMap_cons]
      have hstm : (if st.resId = some m then some st.isAlloca else none) = (none : Option Bool) := by
        rw [hst]
        simp
      rw [hstm]
    · rw [if_neg hres]
      unfold defsOf
      rw [List.filterMap_cons, List.filterMap_cons]
      unfold defsOf at ih
      rw [ih]

theorem insertAfterDef_nophi (n : Nat) (st : Instr) (hst : st.isPhi = false)
    (l : List Instr) (hnp : ∀ u ∈ l, u.isPhi = false) :
    ∀ u ∈ insertAfterDef n st l, u.isPhi = false := by
  induction l with
  | nil => intro u hu; simp [insertAfterDef] at hu
  | cons v rest ih =>
    unfold insertAfterDef
    by_cases hres : v.resId = some n
    · rw [if_pos hres]
      intro u hu
      rcases List.mem_cons.mp hu with rfl | hu2
      · exact hnp u (List.mem_cons_self _ _)
      · rcases List.mem_cons.mp hu2 with rfl | hu3
        · exact hst
        · exact hnp u (List.mem_cons_of_mem _ hu3)
    · rw [if_neg hres]
      intro u hu
      rcases List.mem_cons.mp hu with rfl | hu2
      · exact hnp u (List.mem_cons_self _ _)
      · exact ih (fun w hw => hnp w (List.mem_cons_of_mem _ hw)) u hu2

theorem insertAfterDef_idsBelow (n cc : Nat) (st : Instr) (hst : st.idsBelow cc = true)
    (l : List Instr) (hl : ∀ u ∈ l, u.idsBelow cc = true) :
    ∀ u ∈ insertAfterDef n st l, u.idsBelow cc = true := by
  induction l with
  | nil => intro u hu; simp [insertAfterDef] at hu
  | cons v rest ih =>
    unfold insertAfterDef
    by_cases hres : v.resId = some n
    · rw [if_pos hres]
      intro u hu
      rcases List.mem_cons.mp hu with rfl | hu2
      · exact hl u (List.mem_cons_self _ _)
      · rcases List.mem_cons.mp hu2 with rfl | hu3
        · exact hst
        · exact hl u (List.mem_cons_of_mem _ hu3)
    · rw [if_neg hres]
      intro u hu
      rcases List.mem_cons.mp hu with rfl | hu2
      · exact hl u (List.mem_cons_self _ _)
      · exact ih (fun w hw => hl w (List.mem_cons_of_mem _ hw)) u hu2

theorem noPhis_elim (g : Func) (h : noPhis g = true) :
    ∀ b ∈ g.blocks, ∀ u ∈ b.insts, u.isPhi = false := by
  unfold noPhis at h
  rw [List.all_eq_true] at h
  intro b hb u hu
  have h2 := h b hb
  rw [List.all_eq_true] at h2
  simpa using h2 u hu

theorem idsBelow_elim (g : Func) (cc : Nat) (h : Func.idsBelow g cc = true) :
    ∀ b ∈ g.blocks, (∀ u ∈ b.insts, u.idsBelow cc = true) ∧ b.term.idsBelow cc = true := by
  unfold Func.idsBelow at h
  rw [List.all_eq_true] at h
  intro b hb
  have h2 := h b hb
  rw [Bool.and_eq_true, List.all_eq_true] at h2
  exact ⟨h2.1, h2.2⟩

theorem defsOf_ne_nil_iff (m : Nat) (l : List Instr) :
    defsOf m l ≠ [] ↔ m ∈ l.filterMap Instr.resId := by
  constructor
  · intro h
    obtain ⟨fl, hfl⟩ := List.exists_mem_of_ne_nil _ h
    obtain ⟨u, hu, hue⟩ := List.mem_filterMap.mp hfl
    by_cases hres : u.resId = some m
    · exact List.mem_filterMap.mpr ⟨u, hu, hres⟩
    · rw [if_neg hres] at hue; cases hue
  · intro h
    obtain ⟨u, hu, hres⟩ := List.mem_filterMap.mp h
    intro hcon
    have : u.isAlloca ∈ defsOf m l :=
      List.mem_filterMap.mpr ⟨u, hu, by rw [if_pos hres]⟩
    rw [hcon] at this
    cases this

theorem idsBelow_no_def_above (g : Func) (cc m : Nat) (h : Func.idsBelow g cc = true)
    (hm : cc ≤ m) (i : Nat) : defsAt g i m = [] ∧ busesAt g i m = false := by
  unfold defsAt busesAt
  rcases hgi : g.blocks[i]? with _ | b
  · exact ⟨rfl, rfl⟩
  · have hb := idsBelow_elim g cc h b (mem_of_getElemQ _ _ _ hgi)
    constructor
    · by_contra hcon
      have := defsOf_lt_of_idsBelow cc m b.insts hb.1 hcon
      omega
    · unfold blockUses
      rw [Bool.or_eq_false_iff]
      constructor
      · rw [List.any_eq_false]
        intro u hu
        intro hcon
        have := usesId_lt_of_idsBelow cc m u (hb.1 u hu) (by simpa using hcon)
        omega
      · by_contra hcon
        have := termUsesId_lt_of_idsBelow cc m b.term hb.2 (by simpa using hcon)
        omega

theorem appendLoads_nil (a : Nat) (bs : List Block) : appendLoads a [] bs = bs := rfl

theorem demoteReg_pipeline (x cg : Nat) (g : Func)
    (hnp : noPhis g = true)
    (hguard : (g.blocks.any fun b => b.insts.any fun u => u.resId = some x) = true) :
    (demoteRegToStack x g cg).1.blocks =
      appendAllocaEntry cg (insertStoreAfterDef x
        (Instr.store (Operand.reg x) (Operand.reg cg))
        (demoteBlocks x cg g.blocks (cg+1)).1) ∧
    (demoteRegToStack x g cg).2 = (demoteBlocks x cg g.blocks (cg+1)).2.2 := by
  unfold demoteRegToStack
  rw [if_pos hguard]
  dsimp only
  rw [demoteBlocks_pend_nophi x cg g.blocks (cg+1) (noPhis_elim g hnp), appendLoads_nil]
  exact ⟨rfl, rfl⟩

theorem demoteIncoming_pend_range (n : Nat) (inc : List (Nat × Operand)) (c : Nat) :
    ∀ pl ∈ (demoteIncoming n inc c).2.1,
      c ≤ pl.2 ∧ pl.2 < (demoteIncoming n inc c).2.2 := by
  induction inc generalizing c with
  | nil => intro pl hpl; simp [demoteIncoming] at hpl
  | cons qv rest ih =>
    obtain ⟨p, v⟩ := qv
    intro pl hpl
    by_cases hv : v = Operand.reg n
    · simp only [demoteIncoming, hv, if_true] at hpl ⊢
      rcases List.mem_cons.mp hpl with rfl | h2
      · have := demoteIncoming_le n rest (c+1)
        exact ⟨le_refl c, by dsimp only; omega⟩
      · have := ih (c+1) pl h2
        exact ⟨by omega, this.2⟩
    · simp only [demoteIncoming, hv, if_false] at hpl ⊢
      exact ih c pl hpl

theorem demoteIncoming_pend_nodup (n : Nat) (inc : List (Nat × Operand)) (c : Nat) :
    ((demoteIncoming n inc c).2.1.map Prod.snd).Nodup := by
  induction inc generalizing c with
  | nil => simp [demoteIncoming]
  | cons qv rest ih =>
    obtain ⟨p, v⟩ := qv
    by_cases hv : v = Operand.reg n
    · simp only [demoteIncoming, hv, if_true]
      rw [List.map_cons, List.nodup_cons]
      refine ⟨?_, ih (c+1)⟩
      intro hmem
      obtain ⟨pl, hpl, hple⟩ := List.mem_map.mp hmem
      have := (demoteIncoming_pend_range n rest (c+1) pl hpl).1
      omega
    · simp only [demoteIncoming, hv, if_false]
      exact ih c

theorem demoteInsts_pend_range (x a : Nat) (l : List Instr) (c : Nat) :
    ∀ pl ∈ (demoteInsts x a l c).2.1,
      c ≤ pl.2 ∧ pl.2 < (demoteInsts x a l c).2.2 := by
  induction l generalizing c with
  | nil => intro pl hpl; simp [demoteInsts] at hpl
  | cons u rest ih =>
    intro pl hpl
    by_cases hphi : u.isPhi = true
    · obtain ⟨m0, inc, rfl⟩ := isPhi_exists u hphi
      rw [demoteInsts_cons_phi] at hpl ⊢
      dsimp only at hpl ⊢
      have hri := demoteIncoming_le x inc c
      have hsi := demoteInsts_le x a rest (demoteIncoming x inc c).2.2
      rcases List.mem_append.mp hpl with h2 | h2
      · have := demoteIncoming_pend_range x inc c pl h2
        exact ⟨this.1, by omega⟩
      · have := ih _ pl h2
        exact ⟨by omega, this.2⟩
    · rw [Bool.not_eq_true] at hphi
      rw [demoteInsts_cons_nophi x a u rest c hphi] at hpl ⊢
      by_cases hu : u.usesId x = true
      · rw [if_pos hu] at hpl ⊢
        dsimp only at hpl ⊢
        have := ih (c+1) pl hpl
        exact ⟨by omega, this.2⟩
      · rw [if_neg hu] at hpl ⊢
        exact ih c pl hpl

theorem demoteInsts_pend_nodup (x a : Nat) (l : List Instr) (c : Nat) :
    ((demoteInsts x a l c).2.1.map Prod.snd).Nodup := by
  induction l generalizing c with
  | nil => simp [demoteInsts]
  | cons u rest ih =>
    by_cases hphi : u.isPhi = true
    · obtain ⟨m0, inc, rfl⟩ := isPhi_exists u hphi
      rw [demoteInsts_cons_phi]
      dsimp only
      rw [List.map_append]
      apply List.Nodup.append (demoteIncoming_pend_nodup x inc c) (ih _)
      intro v hv1 hv2
      obtain ⟨pl1, hpl1, hpe1⟩ := List.mem_map.mp hv1
      obtain ⟨pl2, hpl2, hpe2⟩ := List.mem_map.mp hv2
      have h1 := (demoteIncoming_pend_range x inc c pl1 hpl1).2
      have h2 := (demoteInsts_pend_range x a rest ((demoteIncoming x inc c).2.2) pl2 hpl2).1
      omega
    · rw [Bool.not_eq_true] at hphi
      rw [demoteInsts_cons_nophi x a u rest c hphi]
      by_cases hu : u.usesId x = true
      · rw [if_pos hu]; exact ih (c+1)
      · rw [if_neg hu]; exact ih c

theorem demoteInsts_pend_not_defined (x a cg : Nat) (l : List Instr) (c : Nat)
    (hub : ∀ u ∈ l, u.idsBelow cg = true) (hcg : cg ≤ c) :
    ∀ pl ∈ (demoteInsts x a l c).2.1, defsOf pl.2 (demoteInsts x a l c).1 = [] := by
  induction l generalizing c with
  | nil => intro pl hpl; simp [demoteInsts] at hpl
  | cons u rest ih =>
    intro pl hpl
    by_cases hphi : u.isPhi = true
    · obtain ⟨m0, inc, rfl⟩ := isPhi_exists u hphi
      rw [demoteInsts_cons_phi] at hpl ⊢
      dsimp only at hpl ⊢
      have hri := demoteIncoming_le x inc c
      have hm0 : m0 < cg := by
        have h2 := hub _ (List.mem_cons_self _ _)
        unfold Instr.idsBelow at h2
        rw [Bool.and_eq_true] at h2
        have h3 := h2.1
        simp only [Instr.resId] at h3
        exact Nat.lt_of_le_of_lt (le_refl m0) (by simpa using h3)
      have hplr : c ≤ pl.2 ∧ pl.2 < (demoteInsts x a (Instr.phi m0 inc :: rest) c).2.2 := by
        have := demoteInsts_pend_range x a (Instr.phi m0 inc :: rest) c pl
          (by rw [demoteInsts_cons_phi]; exact hpl)
        rwa [demoteInsts_cons_phi] at this
      unfold defsOf
      rw [List.filterMap_cons]
      have hne : ¬((Instr.phi m0 (demoteIncoming x inc c).1).resId = some pl.2) := by
        simp only [Instr.resId]
        intro hcon
        have : m0 = pl.2 := by simpa using hcon
        omega
      rw [if_neg hne]
      rcases List.mem_append.mp hpl with h2 | h2
      · -- pend entry from the incoming list: its id is below the counter the
        -- tail starts from, so the tail defines only other ids
        have hr := demoteIncoming_pend_range x inc c pl h2
        show defsOf pl.2 (demoteInsts x a rest (demoteIncoming x inc c).2.2).1 = []
        by_contra hcon
        rcases demoteInsts_defs_range x a rest _ pl.2 hcon with hold | hfr
        · have := defsOf_lt_of_idsBelow cg pl.2 rest
            (fun w hw => hub w (List.mem_cons_of_mem _ hw)) hold
          omega
        · omega
      · exact ih _ (fun w hw => hub w (List.mem_cons_of_mem _ hw)) (by omega) pl h2
    · rw [Bool.not_eq_true] at hphi
      rw [demoteInsts_cons_nophi x a u rest c hphi] at hpl ⊢
      have hures : ∀ m2, u.resId = some m2 → m2 < cg := by
        intro m2 hm2
        have h2 := hub u (List.mem_cons_self _ _)
        unfold Instr.idsBelow at h2
        rw [Bool.and_eq_true] at h2
        have h3 := h2.1
        rw [hm2] at h3
        simpa using h3
      by_cases hu : u.usesId x = true
      · rw [if_pos hu] at hpl ⊢
        dsimp only at hpl ⊢
        have hplr := demoteInsts_pend_range x a rest (c+1) pl hpl
        unfold defsOf
        rw [List.filterMap_cons, List.filterMap_cons]
        have h1 : ¬((Instr.load c (Operand.reg a)).resId = some pl.2) := by
          simp only [Instr.resId]
          intro hcon
          have : c = pl.2 := by simpa using hcon
          omega
        have h2 : ¬((u.substUses x c).resId = some pl.2) := by
          rw [substUses_resId]
          intro hcon
          have := hures pl.2 hcon
          omega
        rw [if_neg h1, if_neg h2]
        exact ih (c+1) (fun w hw => hub w (List.mem_cons_of_mem _ hw)) (by omega) pl hpl
      · rw [if_neg hu] at hpl ⊢
        have hplr := demoteInsts_pend_range x a rest c pl hpl
        unfold defsOf
        rw [List.filterMap_cons]
        have h2 : ¬(u.resId = some pl.2) := by
          intro hcon
          have := hures pl.2 hcon
          omega
        rw [if_neg h2]
        exact ih c (fun w hw => hub w (List.mem_cons_of_mem _ hw)) hcg pl hpl

theorem demoteBlock_pend_range (x a : Nat) (b : Block) (c : Nat) :
    ∀ pl ∈ (demoteBlock x a b c).2.1,
      c ≤ pl.2 ∧ pl.2 < (demoteBlock x a b c).2.2 := by
  unfold demoteBlock
  have hle := demoteInsts_le x a b.insts c
  by_cases ht : b.term.usesId x = true
  · rw [if_pos ht]
    dsimp only
    intro pl hpl
    have := demoteInsts_pend_range x a b.insts c pl hpl
    omega
  · rw [if_neg ht]
    dsimp only
    intro pl hpl
    exact demoteInsts_pend_range x a b.insts c pl hpl

theorem demoteBlock_pend_nodup (x a : Nat) (b : Block) (c : Nat) :
    ((demoteBlock x a b c).2.1.map Prod.snd).Nodup := by
  unfold demoteBlock
  by_cases ht : b.term.usesId x = true
  · rw [if_pos ht]; exact demoteInsts_pend_nodup x a b.insts c
  · rw [if_neg ht]; exact demoteInsts_pend_nodup x a b.insts c

theorem demoteBlock_pend_not_defined (x a cg : Nat) (b : Block) (c : Nat)
    (hub : ∀ u ∈ b.insts, u.idsBelow cg = true) (hcg : cg ≤ c) :
    ∀ pl ∈ (demoteBlock x a b c).2.1, defsOf pl.2 (demoteBlock x a b c).1.insts = [] := by
  unfold demoteBlock
  by_cases ht : b.term.usesId x = true
  · rw [if_pos ht]
    dsimp only
    intro pl hpl
    have hr := demoteInsts_pend_range x a b.insts c pl hpl
    unfold defsOf
    rw [List.filterMap_append]
    rw [List.append_eq_nil]
    constructor
    · exact demoteInsts_pend_not_defined x a cg b.insts c hub hcg pl hpl
    · simp only [List.filterMap_cons, List.filterMap_nil]
      have hne : ¬((Instr.load (demoteInsts x a b.insts c).2.2 (Operand.reg a)).resId
          = some pl.2) := by
        simp only [Instr.resId]
        intro hcon
        have : (demoteInsts x a b.insts c).2.2 = pl.2 := by simpa using hcon
        omega
      rw [if_neg hne]
  · rw [if_neg ht]
    dsimp only
    intro pl hpl
    exact demoteInsts_pend_not_defined x a cg b.insts c hub hcg pl hpl

theorem demoteBlocks_pend_range (x a : Nat) (bs : List Block) (c : Nat) :
    ∀ pl ∈ (demoteBlocks x a bs c).2.1,
      c ≤ pl.2 ∧ pl.2 < (demoteBlocks x a bs c).2.2 := by
  induction bs generalizing c with
  | nil => intro pl hpl; simp [demoteBlocks] at hpl
  | cons b rest ih =>
    simp only [demoteBlocks]
    intro pl hpl
    have h1 := demoteBlock_le x a b c
    have h2 := demoteBlocks_le x a rest (demoteBlock x a b c).2.2
    rcases List.mem_append.mp hpl with h3 | h3
    · have := demoteBlock_pend_range x a b c pl h3
      exact ⟨this.1, by omega⟩
    · have := ih _ pl h3
      exact ⟨by omega, this.2⟩

theorem demoteBlocks_pend_nodup (x a : Nat) (bs : List Block) (c : Nat) :
    ((demoteBlocks x a bs c).2.1.map Prod.snd).Nodup := by
  induction bs generalizing c with
  | nil => simp [demoteBlocks]
  | cons b rest ih =>
    simp only [demoteBlocks]
    rw [List.map_append]
    apply List.Nodup.append (demoteBlock_pend_nodup x a b c) (ih _)
    intro v hv1 hv2
    obtain ⟨pl1, hpl1, hpe1⟩ := List.mem_map.mp hv1
    obtain ⟨pl2, hpl2, hpe2⟩ := List.mem_map.mp hv2
    have h1 := (demoteBlock_pend_range x a b c pl1 hpl1).2
    have h2 := (demoteBlocks_pend_range x a rest ((demoteBlock x a b c).2.2) pl2 hpl2).1
    omega

theorem demoteBlocks_pend_not_defined (x a cg : Nat) (bs : List Block) (c : Nat)
    (hub : ∀ b ∈ bs, (∀ u ∈ b.insts, u.idsBelow cg = true) ∧ b.term.idsBelow cg = true)
    (hcg : cg ≤ c) :
    ∀ pl ∈ (demoteBlocks x a bs c).2.1, ∀ (i : Nat) (bi : Block),
      (demoteBlocks x a bs c).1[i]? = some bi → defsOf pl.2 bi.insts = [] := by
  induction bs generalizing c with
  | nil => intro pl hpl; simp [demoteBlocks] at hpl
  | cons b rest ih =>
    simp only [demoteBlocks]
    intro pl hpl i bi hbi
    have h1 := demoteBlock_le x a b c
    have h2 := demoteBlocks_le x a rest (demoteBlock x a b c).2.2
    rcases List.mem_append.mp hpl with h3 | h3
    · have hr := demoteBlock_pend_range x a b c pl h3
      cases i with
      | zero =>
        have hbi2 : bi = (demoteBlock x a b c).1 := by simpa using hbi.symm
        rw [hbi2]
        exact demoteBlock_pend_not_defined x a cg b c
          (hub b (List.mem_cons_self _ _)).1 hcg pl h3
      | succ j =>
        have hbi2 : (demoteBlocks x a rest (demoteBlock x a b c).2.2).1[j]? = some bi := by
          simpa using hbi
        by_contra hcon
        have := demoteBlocks_defs_range x a cg rest _
          (fun w hw => hub w (List.mem_cons_of_mem _ hw)) (by omega) pl.2 bi
          (mem_of_getElemQ _ _ _ hbi2) hcon
        omega
    · have hr := demoteBlocks_pend_range x a rest _ pl h3
      cases i with
      | zero =>
        have hbi2 : bi = (demoteBlock x a b c).1 := by simpa using hbi.symm
        rw [hbi2]
        by_contra hcon
        rcases demoteBlock_defs_range x a b c pl.2 hcon with hold | hfr
        · have := defsOf_lt_of_idsBelow cg pl.2 b.insts (hub b (List.mem_cons_self _ _)).1 hold
          omega
        · omega
      | succ j =>
        have hbi2 : (demoteBlocks x a rest (demoteBlock x a b c).2.2).1[j]? = some bi := by
          simpa using hbi
        exact ih _ (fun w hw => hub w (List.mem_cons_of_mem _ hw)) (by omega) pl h3 j bi hbi2

theorem demoteBlocks_defs_confine (x a cg : Nat) (bs : List Block) (c : Nat)
    (hub : ∀ b ∈ bs, (∀ u ∈ b.insts, u.idsBelow cg = true) ∧ b.term.idsBelow cg = true)
    (hcg : cg ≤ c) (m : Nat) (hm : c ≤ m) :
    ∀ (i k : Nat) (bi bk : Block), (demoteBlocks x a bs c).1[i]? = some bi →
      defsOf m bi.insts ≠ [] → (demoteBlocks x a bs c).1[k]? = some bk →
      defsOf m bk.insts ≠ [] → i = k := by
  induction bs generalizing c m with
  | nil => intro i k bi bk hbi; simp [demoteBlocks] at hbi
  | cons b rest ih =>
    simp only [demoteBlocks]
    intro i k bi bk hbi hdi hbk hdk
    have h1 := demoteBlock_le x a b c
    cases i with
    | zero =>
      cases k with
      | zero => rfl
      | succ j =>
        have hbi2 : bi = (demoteBlock x a b c).1 := by simpa using hbi.symm
        have hbk2 : (demoteBlocks x a rest (demoteBlock x a b c).2.2).1[j]? = some bk := by
          simpa using hbk
        rw [hbi2] at hdi
        rcases demoteBlock_defs_range x a b c m hdi with hold | hfr
        · have := defsOf_lt_of_idsBelow cg m b.insts (hub b (List.mem_cons_self _ _)).1 hold
          omega
        · rcases demoteBlocks_defs_range x a cg rest _
            (fun w hw => hub w (List.mem_cons_of_mem _ hw)) (by omega) m bk
            (mem_of_getElemQ _ _ _ hbk2) hdk with h4 | h4
          · omega
          · omega
    | succ j =>
      cases k with
      | zero =>
        have hbk2 : bk = (demoteBlock x a b c).1 := by simpa using hbk.symm
        have hbi2 : (demoteBlocks x a rest (demoteBlock x a b c).2.2).1[j]? = some bi := by
          simpa using hbi
        rw [hbk2] at hdk
        rcases demoteBlock_defs_range x a b c m hdk with hold | hfr
        · have := defsOf_lt_of_idsBelow cg m b.insts (hub b (List.mem_cons_self _ _)).1 hold
          omega
        · rcases demoteBlocks_defs_range x a cg rest _
            (fun w hw => hub w (List.mem_cons_of_mem _ hw)) (by omega) m bi
            (mem_of_getElemQ _ _ _ hbi2) hdi with h4 | h4
          · omega
          · omega
      | succ j2 =>
        have hbi2 : (demoteBlocks x a rest (demoteBlock x a b c).2.2).1[j]? = some bi := by
          simpa using hbi
        have hbk2 : (demoteBlocks x a rest (demoteBlock x a b c).2.2).1[j2]? = some bk := by
          simpa using hbk
        rcases demoteBlocks_defs_range x a cg rest _
          (fun w hw => hub w (List.mem_cons_of_mem _ hw)) (by omega) m bi
          (mem_of_getElemQ _ _ _ hbi2) hdi with h4 | h4
        · omega
        · have := ih _ (fun w hw => hub w (List.mem_cons_of_mem _ hw)) (by omega) m
            (by omega) j j2 bi bk hbi2 hdi hbk2 hdk
          omega

theorem demoteInsts_fresh_use_def (x a cg : Nat) (l : List Instr) (c : Nat)
    (hnp : ∀ u ∈ l, u.isPhi = false) (hub : ∀ u ∈ l, u.idsBelow cg = true)
    (hcg : cg ≤ c) (hx : x < cg) (ha : a < c) (m : Nat) (hm : c ≤ m)
    (h : (demoteInsts x a l c).1.any (fun u => u.usesId m) = true) :
    defsOf m (demoteInsts x a l c).1 ≠ [] := by
  induction l generalizing c with
  | nil => simp [demoteInsts] at h
  | cons u rest ih =>
    have hu0 : u.isPhi = false := hnp u (List.mem_cons_self _ _)
    have hub0 : u.idsBelow cg = true := hub u (List.mem_cons_self _ _)
    rw [demoteInsts_cons_nophi x a u rest c hu0] at h ⊢
    by_cases hu : u.usesId x = true
    · rw [if_pos hu] at h ⊢
      by_cases hmc : m = c
      · -- the freshly inserted load defines m = c right here
        intro hcon
        unfold defsOf at hcon
        rw [List.filterMap_cons] at hcon
        have hres : (Instr.load c (Operand.reg a)).resId = some m := by
          simp [Instr.resId, hmc]
        rw [if_pos hres] at hcon
        cases hcon
      · -- m > c: the use can only come from the tail
        dsimp only at h
        simp only [List.any_cons] at h
        have h1 : (Instr.load c (Operand.reg a)).usesId m = false := by
          simp only [Instr.usesId, Instr.operands, List.any_cons, List.any_nil]
          simp only [Bool.or_false]
          simp only [decide_eq_false_iff_not]
          intro hcon
          have : a = m := by
            have := congrArg (fun o => match o with | Operand.reg z => z | _ => 0) hcon
            simpa using this
          omega
        have h2 : (u.substUses x c).usesId m = false := by
          rw [substUses_usesId x c m (by omega) (by omega)]
          by_contra hcon
          rw [Bool.not_eq_false] at hcon
          have := usesId_lt_of_idsBelow cg m u hub0 hcon
          omega
        rw [h1, h2] at h
        simp only [Bool.false_or] at h
        have h3 := ih (c+1) (fun w hw => hnp w (List.mem_cons_of_mem _ hw))
          (fun w hw => hub w (List.mem_cons_of_mem _ hw)) (by omega) (by omega)
          (by omega) h
        intro hcon
        unfold defsOf at hcon
        rw [List.filterMap_cons, List.filterMap_cons] at hcon
        have hr1 : ¬((Instr.load c (Operand.reg a)).resId = some m) := by
          simp only [Instr.resId]
          intro hcon2
          have : c = m := by simpa using hcon2
          omega
        have hr2 : ¬((u.substUses x c).resId = some m) := by
          rw [substUses_resId]
          intro hcon2
          have h4 := hub0
          unfold Instr.idsBelow at h4
          rw [Bool.and_eq_true] at h4
          have h5 := h4.1
          rw [hcon2] at h5
          have : m < cg := by simpa using h5
          omega
        rw [if_neg hr1, if_neg hr2] at hcon
        exact h3 hcon
    · rw [if_neg hu] at h ⊢
      simp only [List.any_cons] at h
      have h2 : u.usesId m = false := by
        by_contra hcon
        rw [Bool.not_eq_false] at hcon
        have := usesId_lt_of_idsBelow cg m u hub0 hcon
        omega
      rw [h2] at h
      simp only [Bool.false_or] at h
      have h3 := ih c (fun w hw => hnp w (List.mem_cons_of_mem _ hw))
        (fun w hw => hub w (List.mem_cons_of_mem _ hw)) hcg ha hm h
      intro hcon
      unfold defsOf at hcon
      rw [List.filterMap_cons] at hcon
      have hr2 : ¬(u.resId = some m) := by
        intro hcon2
        have h4 := hub0
        unfold Instr.idsBelow at h4
        rw [Bool.and_eq_true] at h4
        have h5 := h4.1
        rw [hcon2] at h5
        have : m < cg := by simpa using h5
        omega
      rw [if_neg hr2] at hcon
      exact h3 hcon

theorem demoteBlock_fresh_use_def (x a cg : Nat) (b : Block) (c : Nat)
    (hnp : ∀ u ∈ b.insts, u.isPhi = false)
    (hub : (∀ u ∈ b.insts, u.idsBelow cg = true) ∧ b.term.idsBelow cg = true)
    (hcg : cg ≤ c) (hx : x < cg) (ha : a < c) (m : Nat) (hm : c ≤ m)
    (h : blockUses m (demoteBlock x a b c).1 = true) :
    defsOf m (demoteBlock x a b c).1.insts ≠ [] := by
  unfold demoteBlock at h ⊢
  have hle := demoteInsts_le x a b.insts c
  by_cases ht : b.term.usesId x = true
  · rw [if_pos ht] at h ⊢
    unfold blockUses at h
    dsimp only at h ⊢
    by_cases hms : m = (demoteInsts x a b.insts c).2.2
    · -- the terminator load defines m
      intro hcon
      unfold defsOf at hcon
      rw [List.filterMap_append] at hcon
      rw [List.append_eq_nil] at hcon
      have hcon2 := hcon.2
      simp only [List.filterMap_cons, List.filterMap_nil] at hcon2
      have hres : (Instr.load (demoteInsts x a b.insts c).2.2 (Operand.reg a)).resId
          = some m := by
        simp [Instr.resId, hms]
      rw [if_pos hres] at hcon2
      cases hcon2
    · rw [Bool.or_eq_true] at h
      have hterm : (b.term.substUses x (demoteInsts x a b.insts c).2.2).usesId m = false := by
        rw [substUsesT_usesId x _ m (by omega) hms]
        by_contra hcon
        rw [Bool.not_eq_false] at hcon
        have := termUsesId_lt_of_idsBelow cg m b.term hub.2 hcon
        omega
      rcases h with h | h
      · rw [List.any_append] at h
        rw [Bool.or_eq_true] at h
        rcases h with h | h
        · have h3 := demoteInsts_fresh_use_def x a cg b.insts c hnp hub.1 hcg hx ha m hm h
          intro hcon
          unfold defsOf at hcon
          rw [List.filterMap_append, List.append_eq_nil] at hcon
          exact h3 hcon.1
        · simp only [List.any_cons, List.any_nil] at h
          simp only [Bool.or_false] at h
          simp only [Instr.usesId, Instr.operands, List.any_cons, List.any_nil] at h
          simp only [Bool.or_false] at h
          rw [decide_eq_true_iff] at h
          have : a = m := by
            have := congrArg (fun o => match o with | Operand.reg z => z | _ => 0) h
            simpa using this
          omega
      · rw [hterm] at h
        cases h
  · rw [if_neg ht] at h ⊢
    unfold blockUses at h
    dsimp only at h ⊢
    rw [Bool.or_eq_true] at h
    rcases h with h | h
    · exact demoteInsts_fresh_use_def x a cg b.insts c hnp hub.1 hcg hx ha m hm h
    · have := termUsesId_lt_of_idsBelow cg m b.term hub.2 h
      omega

theorem demoteBlocks_fresh_use_def (x a cg : Nat) (bs : List Block) (c : Nat)
    (hnp : ∀ b ∈ bs, ∀ u ∈ b.insts, u.isPhi = false)
    (hub : ∀ b ∈ bs, (∀ u ∈ b.insts, u.idsBelow cg = true) ∧ b.term.idsBelow cg = true)
    (hcg : cg ≤ c) (hx : x < cg) (ha : a < c) (m : Nat) (hm : c ≤ m) :
    ∀ (k : Nat) (bk : Block), (demoteBlocks x a bs c).1[k]? = some bk →
      blockUses m bk = true → defsOf m bk.insts ≠ [] := by
  induction bs generalizing c m with
  | nil => intro k bk hbk; simp [demoteBlocks] at hbk
  | cons b rest ih =>
    simp only [demoteBlocks]
    intro k bk hbk huse
    have h1 := demoteBlock_le x a b c
    cases k with
    | zero =>
      have hbk2 : bk = (demoteBlock x a b c).1 := by simpa using hbk.symm
      rw [hbk2] at huse ⊢
      exact demoteBlock_fresh_use_def x a cg b c (hnp b (List.mem_cons_self _ _))
        (hub b (List.mem_cons_self _ _)) hcg hx ha m hm huse
    | succ j =>
      have hbk2 : (demoteBlocks x a rest (demoteBlock x a b c).2.2).1[j]? = some bk := by
        simpa using hbk
      by_cases hms : (demoteBlock x a b c).2.2 ≤ m
      · exact ih _ (fun w hw => hnp w (List.mem_cons_of_mem _ hw))
          (fun w hw => hub w (List.mem_cons_of_mem _ hw)) (by omega) (by omega) m
          (by omega) j bk hbk2 huse
      · -- m lies in the interval consumed by the head block: the tail never
        -- mentions it
        have := demoteBlocks_uses_range x a cg rest _
          (fun w hw => hnp w (List.mem_cons_of_mem _ hw))
          (fun w hw => hub w (List.mem_cons_of_mem _ hw)) (by omega) hx m bk
          (mem_of_getElemQ _ _ _ hbk2) huse
        omega

theorem defsOf_append (m : Nat) (l1 l2 : List Instr) :
    defsOf m (l1 ++ l2) = defsOf m l1 ++ defsOf m l2 := by
  unfold defsOf
  exact List.filterMap_append _ _ _

theorem nodup_bids_index (bs : List Block) (h : (bs.map Block.bid).Nodup)
    (i k : Nat) (bi bk : Block) (hbi : bs[i]? = some bi) (hbk : bs[k]? = some bk)
    (he : bi.bid = bk.bid) : i = k := by
  obtain ⟨hlt1, hg1⟩ := List.getElem?_eq_some.mp hbi
  obtain ⟨hlt2, hg2⟩ := List.getElem?_eq_some.mp hbk
  have h1 : (bs.map Block.bid)[i]? = some bi.bid := by
    rw [List.getElem?_map, hbi, Option.map_some']
  have h2 : (bs.map Block.bid)[k]? = some bk.bid := by
    rw [List.getElem?_map, hbk, Option.map_some']
  exact List.getElem?_inj (by simpa using hlt1) h (by rw [h1, h2, he])

theorem appendLoad_getQ (a : Nat) (pl : Nat × Nat) (bs : List Block) (i : Nat) :
    (appendLoad a pl bs)[i]? = (bs[i]?).map (fun b =>
      if b.bid = pl.1 then
        Block.mk b.bid (b.insts ++ [Instr.load pl.2 (Operand.reg a)]) b.term
      else b) := by
  unfold appendLoad
  exact List.getElem?_map _ _ _

theorem appendLoad_map_bid (a : Nat) (pl : Nat × Nat) (bs : List Block) :
    (appendLoad a pl bs).map Block.bid = bs.map Block.bid := by
  unfold appendLoad
  rw [List.map_map]
  apply List.map_congr_left
  intro b hb
  by_cases hbid : b.bid = pl.1 <;> simp [hbid]

theorem appendLoads_map_bid (a : Nat) (pend : List (Nat × Nat)) (bs : List Block) :
    (appendLoads a pend bs).map Block.bid = bs.map Block.bid := by
  induction pend generalizing bs with
  | nil => rfl
  | cons pl rest ih =>
    show (appendLoads a rest (appendLoad a pl bs)).map Block.bid = bs.map Block.bid
    rw [ih, appendLoad_map_bid]

theorem appendLoad_defs_other (a m : Nat) (pl : Nat × Nat) (hm : m ≠ pl.2)
    (bs : List Block) (i : Nat) (bi : Block) (hbi : (appendLoad a pl bs)[i]? = some bi) :
    ∃ b0, bs[i]? = some b0 ∧ defsOf m bi.insts = defsOf m b0.insts := by
  rw [appendLoad_getQ] at hbi
  rcases hb0 : bs[i]? with _ | b0
  · rw [hb0] at hbi; cases hbi
  · rw [hb0] at hbi
    refine ⟨b0, rfl, ?_⟩
    rw [Option.map_some'] at hbi
    by_cases hbid : b0.bid = pl.1
    · rw [if_pos hbid] at hbi
      rw [← Option.some_inj.mp hbi]
      dsimp only
      rw [defsOf_append]
      have : defsOf m [Instr.load pl.2 (Operand.reg a)] = [] := by
        unfold defsOf
        simp only [List.filterMap_cons, List.filterMap_nil]
        have hne : ¬((Instr.load pl.2 (Operand.reg a)).resId = some m) := by
          simp only [Instr.resId]
          intro hcon
          exact hm (by simpa using hcon.symm)
        rw [if_neg hne]
      rw [this, List.append_nil]
    · rw [if_neg hbid] at hbi
      rw [← Option.some_inj.mp hbi]

theorem appendLoad_defs_self (a : Nat) (pl : Nat × Nat) (bs : List Block) (i : Nat)
    (bi : Block) (hbi : (appendLoad a pl bs)[i]? = some bi)
    (h : defsOf pl.2 bi.insts ≠ []) :
    ∃ b0, bs[i]? = some b0 ∧ (defsOf pl.2 b0.insts ≠ [] ∨ b0.bid = pl.1) := by
  rw [appendLoad_getQ] at hbi
  rcases hb0 : bs[i]? with _ | b0
  · rw [hb0] at hbi; cases hbi
  · rw [hb0] at hbi
    refine ⟨b0, rfl, ?_⟩
    rw [Option.map_some'] at hbi
    by_cases hbid : b0.bid = pl.1
    · exact Or.inr hbid
    · rw [if_neg hbid] at hbi
      rw [← Option.some_inj.mp hbi] at h
      exact Or.inl h

theorem appendLoad_bid_preserved (a : Nat) (pl : Nat × Nat) (bs : List Block) (i : Nat)
    (bi : Block) (hbi : (appendLoad a pl bs)[i]? = some bi) :
    ∃ b0, bs[i]? = some b0 ∧ bi.bid = b0.bid := by
  rw [appendLoad_getQ] at hbi
  rcases hb0 : bs[i]? with _ | b0
  · rw [hb0] at hbi; cases hbi
  · rw [hb0] at hbi
    refine ⟨b0, rfl, ?_⟩
    rw [Option.map_some'] at hbi
    by_cases hbid : b0.bid = pl.1
    · rw [if_pos hbid] at hbi
      rw [← Option.some_inj.mp hbi]
    · rw [if_neg hbid] at hbi
      rw [← Option.some_inj.mp hbi]

theorem appendLoads_udef (a : Nat) (pend : List (Nat × Nat)) (bs : List Block)
    (w1 : ∀ pl ∈ pend, ∀ (i : Nat) (bi : Block), bs[i]? = some bi →
      defsOf pl.2 bi.insts = [])
    (w2 : (pend.map Prod.snd).Nodup)
    (w3 : (bs.map Block.bid).Nodup)
    (w4 : ∀ (m i k : Nat) (bi bk : Block), bs[i]? = some bi → defsOf m bi.insts ≠ [] →
      bs[k]? = some bk → defsOf m bk.insts ≠ [] → i = k) :
    ∀ (m i k : Nat) (bi bk : Block), (appendLoads a pend bs)[i]? = some bi →
      defsOf m bi.insts ≠ [] → (appendLoads a pend bs)[k]? = some bk →
      defsOf m bk.insts ≠ [] → i = k := by
  induction pend generalizing bs with
  | nil => exact w4
  | cons pl rest ih =>
    show ∀ (m i k : Nat) (bi bk : Block),
      (appendLoads a rest (appendLoad a pl bs))[i]? = some bi → _
    apply ih
    · -- remaining pend ids are still defined nowhere
      intro pl2 hpl2 i bi hbi
      obtain ⟨b0, hb0, hdefs⟩ := appendLoad_defs_other a pl2.2 pl
        (by
          intro hcon
          rw [List.map_cons, List.nodup_cons] at w2
          exact w2.1 (hcon ▸ List.mem_map.mpr ⟨pl2, hpl2, rfl⟩))
        bs i bi hbi
      rw [hdefs]
      exact w1 pl2 (List.mem_cons_of_mem _ hpl2) i b0 hb0
    · rw [List.map_cons, List.nodup_cons] at w2
      exact w2.2
    · rw [appendLoad_map_bid]
      exact w3
    · -- unique definition index still holds after placing this load
      intro m i k bi bk hbi hdi hbk hdk
      by_cases hm : m = pl.2
      · subst hm
        obtain ⟨b1, hb1, hc1⟩ := appendLoad_defs_self a pl bs i bi hbi hdi
        obtain ⟨b2, hb2, hc2⟩ := appendLoad_defs_self a pl bs k bk hbk hdk
        rcases hc1 with hc1 | hc1
        · exact absurd hc1 (by rw [w1 pl (List.mem_cons_self _ _) i b1 hb1]; simp)
        · rcases hc2 with hc2 | hc2
          · exact absurd hc2 (by rw [w1 pl (List.mem_cons_self _ _) k b2 hb2]; simp)
          · exact nodup_bids_index bs w3 i k b1 b2 hb1 hb2 (by rw [hc1, hc2])
      · obtain ⟨b1, hb1, hd1⟩ := appendLoad_defs_other a m pl hm bs i bi hbi
        obtain ⟨b2, hb2, hd2⟩ := appendLoad_defs_other a m pl hm bs k bk hbk
        exact w4 m i k b1 b2 hb1 (by rw [← hd1]; exact hdi) hb2 (by rw [← hd2]; exact hdk)

theorem appendLoads_defs_other (a : Nat) (pend : List (Nat × Nat)) (bs : List Block)
    (m : Nat) (hm : ∀ pl ∈ pend, m ≠ pl.2) (i : Nat) (bi : Block)
    (hbi : (appendLoads a pend bs)[i]? = some bi) :
    ∃ b0, bs[i]? = some b0 ∧ defsOf m bi.insts = defsOf m b0.insts := by
  induction pend generalizing bs with
  | nil => exact ⟨bi, hbi, rfl⟩
  | cons pl rest ih =>
    have hbi2 : (appendLoads a rest (appendLoad a pl bs))[i]? = some bi := hbi
    obtain ⟨b1, hb1, hd1⟩ := ih (appendLoad a pl bs)
      (fun q hq => hm q (List.mem_cons_of_mem _ hq)) hbi2
    obtain ⟨b0, hb0, hd0⟩ := appendLoad_defs_other a m pl
      (hm pl (List.mem_cons_self _ _)) bs i b1 hb1
    exact ⟨b0, hb0, by rw [hd1, hd0]⟩

theorem appendAllocaEntry_getQ_zero (a : Nat) (bs : List Block) :
    (appendAllocaEntry a bs)[0]? = (bs[0]?).map (fun b =>
      Block.mk b.bid (b.insts ++ [Instr.alloca a]) b.term) := by
  cases bs with
  | nil => simp [appendAllocaEntry]
  | cons b rest => simp [appendAllocaEntry]

theorem appendAllocaEntry_getQ_succ (a : Nat) (bs : List Block) (i : Nat) :
    (appendAllocaEntry a bs)[i+1]? = bs[i+1]? := by
  cases bs with
  | nil => simp [appendAllocaEntry]
  | cons b rest => simp [appendAllocaEntry]

theorem insertStoreAfterDef_getQ (n : Nat) (st : Instr) (bs : List Block) (i : Nat) :
    (insertStoreAfterDef n st bs)[i]? = (bs[i]?).map (fun b =>
      Block.mk b.bid (insertAfterDef n st b.insts) b.term) := by
  unfold insertStoreAfterDef
  exact List.getElem?_map _ _ _

theorem appendLoad_idsBelow (a cc : Nat) (pl : Nat × Nat) (hpl : pl.2 < cc) (ha : a < cc)
    (bs : List Block)
    (hb : ∀ b ∈ bs, (∀ u ∈ b.insts, u.idsBelow cc = true) ∧ b.term.idsBelow cc = true) :
    ∀ b2 ∈ appendLoad a pl bs,
      (∀ u ∈ b2.insts, u.idsBelow cc = true) ∧ b2.term.idsBelow cc = true := by
  intro b2 hb2
  unfold appendLoad at hb2
  obtain ⟨b0, hb0, rfl⟩ := List.mem_map.mp hb2
  by_cases hbid : b0.bid = pl.1
  · rw [if_pos hbid]
    dsimp only
    refine ⟨?_, (hb b0 hb0).2⟩
    intro u hu
    rcases List.mem_append.mp hu with h2 | h2
    · exact (hb b0 hb0).1 u h2
    · have : u = Instr.load pl.2 (Operand.reg a) := by simpa using h2
      rw [this]
      unfold Instr.idsBelow
      simp only [Instr.resId, Instr.operands]
      rw [Bool.and_eq_true]
      constructor
      · simpa using hpl
      · simp only [List.all_cons, List.all_nil, Bool.and_true]
        unfold Operand.idBelow
        simpa using ha
  · rw [if_neg hbid]
    exact hb b0 hb0

theorem appendLoads_idsBelow (a cc : Nat) (pend : List (Nat × Nat))
    (hpend : ∀ pl ∈ pend, pl.2 < cc) (ha : a < cc) (bs : List Block)
    (hb : ∀ b ∈ bs, (∀ u ∈ b.insts, u.idsBelow cc = true) ∧ b.term.idsBelow cc = true) :
    ∀ b2 ∈ appendLoads a pend bs,
      (∀ u ∈ b2.insts, u.idsBelow cc = true) ∧ b2.term.idsBelow cc = true := by
  induction pend generalizing bs with
  | nil => exact hb
  | cons pl rest ih =>
    show ∀ b2 ∈ appendLoads a rest (appendLoad a pl bs), _
    exact ih (fun q hq => hpend q (List.mem_cons_of_mem _ hq)) (appendLoad a pl bs)
      (appendLoad_idsBelow a cc pl (hpend pl (List.mem_cons_self _ _)) ha bs hb)

theorem appendAllocaEntry_idsBelow (a cc : Nat) (ha : a < cc) (bs : List Block)
    (hb : ∀ b ∈ bs, (∀ u ∈ b.insts, u.idsBelow cc = true) ∧ b.term.idsBelow cc = true) :
    ∀ b2 ∈ appendAllocaEntry a bs,
      (∀ u ∈ b2.insts, u.idsBelow cc = true) ∧ b2.term.idsBelow cc = true := by
  intro b2 hb2
  cases bs with
  | nil => cases hb2
  | cons b rest =>
    unfold appendAllocaEntry at hb2
    rcases List.mem_cons.mp hb2 with rfl | h2
    · refine ⟨?_, (hb b (List.mem_cons_self _ _)).2⟩
      intro u hu
      rcases List.mem_append.mp hu with h3 | h3
      · exact (hb b (List.mem_cons_self _ _)).1 u h3
      · have : u = Instr.alloca a := by simpa using h3
        rw [this]
        unfold Instr.idsBelow
        simp only [Instr.resId, Instr.operands]
        simpa using ha
    · exact hb b2 (List.mem_cons_of_mem _ h2)

theorem insertStoreAfterDef_idsBelow (n cc : Nat) (st : Instr) (hst : st.idsBelow cc = true)
    (bs : List Block)
    (hb : ∀ b ∈ bs, (∀ u ∈ b.insts, u.idsBelow cc = true) ∧ b.term.idsBelow cc = true) :
    ∀ b2 ∈ insertStoreAfterDef n st bs,
      (∀ u ∈ b2.insts, u.idsBelow cc = true) ∧ b2.term.idsBelow cc = true := by
  intro b2 hb2
  unfold insertStoreAfterDef at hb2
  obtain ⟨b0, hb0, rfl⟩ := List.mem_map.mp hb2
  exact ⟨insertAfterDef_idsBelow n cc st hst b0.insts ((hb b0 hb0).1), (hb b0 hb0).2⟩

theorem demoteInsts_phiCnt (x a n : Nat) (l : List Instr) (c : Nat) :
    (demoteInsts x a l c).1.countP (fun u => u.isPhi && decide (u.resId = some n)) =
      l.countP (fun u => u.isPhi && decide (u.resId = some n)) := by
  induction l generalizing c with
  | nil => simp [demoteInsts]
  | cons u rest ih =>
    by_cases hphi : u.isPhi = true
    · obtain ⟨m0, inc, rfl⟩ := isPhi_exists u hphi
      rw [demoteInsts_cons_phi]
      dsimp only
      rw [List.countP_cons, List.countP_cons, ih]
      simp [Instr.isPhi, Instr.resId]
    · rw [Bool.not_eq_true] at hphi
      rw [demoteInsts_cons_nophi x a u rest c hphi]
      by_cases hu : u.usesId x = true
      · rw [if_pos hu]
        dsimp only
        rw [List.countP_cons, List.countP_cons, List.countP_cons, ih]
        have h1 : ((Instr.load c (Operand.reg a)).isPhi &&
            decide ((Instr.load c (Operand.reg a)).resId = some n)) = false := by
          simp [Instr.isPhi]
        have h2 : ((u.substUses x c).isPhi && decide ((u.substUses x c).resId = some n))
            = (u.isPhi && decide (u.resId = some n)) := by
          rw [substUses_isPhi, substUses_resId]
        rw [h1, h2]
        simp
      · rw [if_neg hu]
        dsimp only
        rw [List.countP_cons, List.countP_cons, ih]

theorem demoteBlock_phiCnt (x a n : Nat) (b : Block) (c : Nat) :
    (demoteBlock x a b c).1.insts.countP (fun u => u.isPhi && decide (u.resId = some n)) =
      b.insts.countP (fun u => u.isPhi && decide (u.resId = some n)) := by
  unfold demoteBlock
  by_cases ht : b.term.usesId x = true
  · rw [if_pos ht]
    dsimp only
    rw [List.countP_append, demoteInsts_phiCnt]
    have : [Instr.load (demoteInsts x a b.insts c).2.2 (Operand.reg a)].countP
        (fun u => u.isPhi && decide (u.resId = some n)) = 0 := by
      simp [Instr.isPhi]
    rw [this]
    omega
  · rw [if_neg ht]
    dsimp only
    exact demoteInsts_phiCnt x a n b.insts c

theorem demoteBlocks_phiCnt (x a n : Nat) (bs : List Block) (c : Nat) (i : Nat) :
    ((demoteBlocks x a bs c).1[i]?).elim 0
        (fun b => b.insts.countP (fun u => u.isPhi && decide (u.resId = some n))) =
      (bs[i]?).elim 0
        (fun b => b.insts.countP (fun u => u.isPhi && decide (u.resId = some n))) := by
  induction bs generalizing c i with
  | nil => simp [demoteBlocks]
  | cons b rest ih =>
    simp only [demoteBlocks]
    cases i with
    | zero => simpa using demoteBlock_phiCnt x a n b c
    | succ j => simpa using ih _ j

theorem insertAfterDef_phiCnt (nn n : Nat) (st : Instr) (hst : st.isPhi = false)
    (l : List Instr) :
    (insertAfterDef nn st l).countP (fun u => u.isPhi && decide (u.resId = some n)) =
      l.countP (fun u => u.isPhi && decide (u.resId = some n)) := by
  induction l with
  | nil => simp [insertAfterDef]
  | cons u rest ih =>
    unfold insertAfterDef
    by_cases hres : u.resId = some nn
    · rw [if_pos hres]
      rw [List.countP_cons, List.countP_cons, List.countP_cons]
      have : (st.isPhi && decide (st.resId = some n)) = false := by rw [hst]; simp
      rw [this]
      simp
    · rw [if_neg hres]
      rw [List.countP_cons, List.countP_cons, ih]

theorem appendLoad_phiCnt (a n : Nat) (pl : Nat × Nat) (bs : List Block) (i : Nat) :
    ((appendLoad a pl bs)[i]?).elim 0
        (fun b => b.insts.countP (fun u => u.isPhi && decide (u.resId = some n))) =
      (bs[i]?).elim 0
        (fun b => b.insts.countP (fun u => u.isPhi && decide (u.resId = some n))) := by
  rw [appendLoad_getQ]
  rcases hb0 : bs[i]? with _ | b0
  · rfl
  · rw [Option.map_some']
    by_cases hbid : b0.bid = pl.1
    · rw [if_pos hbid]
      dsimp only [Option.elim]
      rw [List.countP_append]
      have : [Instr.load pl.2 (Operand.reg a)].countP
          (fun u => u.isPhi && decide (u.resId = some n)) = 0 := by
        simp [Instr.isPhi]
      rw [this]
      omega
    · rw [if_neg hbid]

theorem appendLoads_phiCnt (a n : Nat) (pend : List (Nat × Nat)) (bs : List Block) (i : Nat) :
    ((appendLoads a pend bs)[i]?).elim 0
        (fun b => b.insts.countP (fun u => u.isPhi && decide (u.resId = some n))) =
      (bs[i]?).elim 0
        (fun b => b.insts.countP (fun u => u.isPhi && decide (u.resId = some n))) := by
  induction pend generalizing bs with
  | nil => rfl
  | cons pl rest ih =>
    show ((appendLoads a rest (appendLoad a pl bs))[i]?).elim 0 _ = _
    rw [ih (appendLoad a pl bs), appendLoad_phiCnt]

theorem appendAllocaEntry_phiCnt (a n : Nat) (bs : List Block) (i : Nat) :
    ((appendAllocaEntry a bs)[i]?).elim 0
        (fun b => b.insts.countP (fun u => u.isPhi && decide (u.resId = some n))) =
      (bs[i]?).elim 0
        (fun b => b.insts.countP (fun u => u.isPhi && decide (u.resId = some n))) := by
  cases i with
  | zero =>
    rw [appendAllocaEntry_getQ_zero]
    rcases hb0 : bs[0]? with _ | b0
    · rfl
    · rw [Option.map_some']
      dsimp only [Option.elim]
      rw [List.countP_append]
      have : [Instr.alloca a].countP (fun u => u.isPhi && decide (u.resId = some n))
          = 0 := by
        simp [Instr.isPhi]
      rw [this]
      omega
  | succ j =>
    rw [appendAllocaEntry_getQ_succ]

theorem insertStoreAfterDef_phiCnt (nn n : Nat) (st : Instr) (hst : st.isPhi = false)
    (bs : List Block) (i : Nat) :
    ((insertStoreAfterDef nn st bs)[i]?).elim 0
        (fun b => b.insts.countP (fun u => u.isPhi && decide (u.resId = some n))) =
      (bs[i]?).elim 0
        (fun b => b.insts.countP (fun u => u.isPhi && decide (u.resId = some n))) := by
  rw [insertStoreAfterDef_getQ]
  rcases hb0 : bs[i]? with _ | b0
  · rfl
  · rw [Option.map_some']
    dsimp only [Option.elim]
    rw [insertAfterDef_phiCnt nn n st hst]

theorem demoteRegToStack_phiCnt (x n : Nat) (g : Func) (c : Nat) (i : Nat) :
    (((demoteRegToStack x g c).1.blocks[i]?).elim 0
        (fun b => b.insts.countP (fun u => u.isPhi && decide (u.resId = some n)))) =
      ((g.blocks[i]?).elim 0
        (fun b => b.insts.countP (fun u => u.isPhi && decide (u.resId = some n)))) := by
  unfold demoteRegToStack
  by_cases hguard : (g.blocks.any fun b => b.insts.any fun u => u.resId = some x) = true
  · rw [if_pos hguard]
    dsimp only
    rw [appendAllocaEntry_phiCnt, insertStoreAfterDef_phiCnt x n _ (by simp [Instr.isPhi]),
      appendLoads_phiCnt, demoteBlocks_phiCnt]
  · rw [if_neg hguard]

theorem defsOf_cons (m : Nat) (u : Instr) (rest : List Instr) :
    defsOf m (u :: rest) =
      (if u.resId = some m then [u.isAlloca] else []) ++ defsOf m rest := by
  unfold defsOf
  rw [List.filterMap_cons]
  by_cases h : u.resId = some m
  · rw [if_pos h, if_pos h]
    rfl
  · rw [if_neg h, if_neg h]
    rfl

theorem replacePhiWithLoad_defsOf (n a m : Nat) (l : List Instr) :
    defsOf m (replacePhiWithLoad n a l) = defsOf m l := by
  induction l with
  | nil => rfl
  | cons u rest ih =>
    unfold replacePhiWithLoad
    by_cases hhit : (u.isPhi && decide (u.resId = some n)) = true
    · rw [if_pos hhit]
      rw [Bool.and_eq_true] at hhit
      obtain ⟨m0, inc, rfl⟩ := isPhi_exists u hhit.1
      have hres : (Instr.phi m0 inc).resId = some n := by
        have h2 := hhit.2
        rw [decide_eq_true_iff] at h2
        exact h2
      rw [defsOf_cons, defsOf_cons]
      rw [hres]
      simp [Instr.resId, Instr.isAlloca]
    · rw [if_neg hhit]
      rw [defsOf_cons, defsOf_cons, ih]

theorem replacePhiWithLoad_phiCnt_other (n a n2 : Nat) (hne : n2 ≠ n) (l : List Instr) :
    (replacePhiWithLoad n a l).countP (fun u => u.isPhi && decide (u.resId = some n2)) =
      l.countP (fun u => u.isPhi && decide (u.resId = some n2)) := by
  induction l with
  | nil => rfl
  | cons u rest ih =>
    unfold replacePhiWithLoad
    by_cases hhit : (u.isPhi && decide (u.resId = some n)) = true
    · rw [if_pos hhit]
      rw [Bool.and_eq_true, decide_eq_true_iff] at hhit
      rw [List.countP_cons, List.countP_cons]
      have h1 : ((Instr.load n (Operand.reg a)).isPhi &&
          decide ((Instr.load n (Operand.reg a)).resId = some n2)) = false := by
        simp [Instr.isPhi]
      have h2 : (u.isPhi && decide (u.resId = some n2)) = false := by
        rw [hhit.1, Bool.true_and, decide_eq_false_iff_not, hhit.2]
        intro hcon
        exact hne (by simpa using hcon.symm)
      rw [h1, h2]
    · rw [if_neg hhit]
      rw [List.countP_cons, List.countP_cons, ih]

theorem replacePhiWithLoad_phiCnt_self (n a : Nat) (l : List Instr) :
    (replacePhiWithLoad n a l).countP (fun u => u.isPhi && decide (u.resId = some n)) =
      l.countP (fun u => u.isPhi && decide (u.resId = some n)) -
        (if l.any (fun u => u.isPhi && decide (u.resId = some n)) then 1 else 0) := by
  induction l with
  | nil => rfl
  | cons u rest ih =>
    unfold replacePhiWithLoad
    by_cases hhit : (u.isPhi && decide (u.resId = some n)) = true
    · rw [if_pos hhit]
      rw [List.countP_cons]
      have h1 : ((Instr.load n (Operand.reg a)).isPhi &&
          decide ((Instr.load n (Operand.reg a)).resId = some n)) = false := by
        simp [Instr.isPhi]
      rw [List.countP_cons, h1]
      rw [List.any_cons, hhit]
      simp
    · rw [if_neg hhit]
      rw [List.countP_cons, List.countP_cons, ih]
      rw [Bool.not_eq_true] at hhit
      rw [List.any_cons, hhit]
      have h2 : (if (false : Bool) = true then 1 else 0) = 0 := by simp
      rw [h2]
      simp only [Bool.false_or]
      by_cases hany : rest.any (fun u => u.isPhi && decide (u.resId = some n)) = true
      · rw [hany]
        have : 0 < rest.countP (fun u => u.isPhi && decide (u.resId = some n)) := by
          rw [List.any_eq_true] at hany
          obtain ⟨w, hw, hpw⟩ := hany
          exact List.countP_pos_iff.mpr ⟨w, hw, hpw⟩
        simp only [if_true]
        omega
      · rw [Bool.not_eq_true] at hany
        rw [hany]
        simp

theorem replacePhiWithLoad_idsBelow (n a cc : Nat) (hn : n < cc) (ha : a < cc)
    (l : List Instr) (hl : ∀ u ∈ l, u.idsBelow cc = true) :
    ∀ u ∈ replacePhiWithLoad n a l, u.idsBelow cc = true := by
  induction l with
  | nil => intro u hu; cases hu
  | cons u rest ih =>
    unfold replacePhiWithLoad
    by_cases hhit : (u.isPhi && decide (u.resId = some n)) = true
    · rw [if_pos hhit]
      intro v hv
      rcases List.mem_cons.mp hv with rfl | h2
      · unfold Instr.idsBelow
        simp only [Instr.resId, Instr.operands]
        rw [Bool.and_eq_true]
        refine ⟨by simpa using hn, ?_⟩
        simp only [List.all_cons, List.all_nil, Bool.and_true]
        unfold Operand.idBelow
        simpa using ha
      · exact hl v (List.mem_cons_of_mem _ h2)
    · rw [if_neg hhit]
      intro v hv
      rcases List.mem_cons.mp hv with rfl | h2
      · exact hl v (List.mem_cons_self _ _)
      · exact ih (fun w hw => hl w (List.mem_cons_of_mem _ hw)) v h2

theorem appendStore_getQ (a : Nat) (pv : Nat × Operand) (bs : List Block) (i : Nat) :
    (appendStore a pv bs)[i]? = (bs[i]?).map (fun b =>
      if b.bid = pv.1 then
        Block.mk b.bid (b.insts ++ [Instr.store pv.2 (Operand.reg a)]) b.term
      else b) := by
  unfold appendStore
  exact List.getElem?_map _ _ _

theorem appendStore_map_bid (a : Nat) (pv : Nat × Operand) (bs : List Block) :
    (appendStore a pv bs).map Block.bid = bs.map Block.bid := by
  unfold appendStore
  rw [List.map_map]
  apply List.map_congr_left
  intro b hb
  by_cases hbid : b.bid = pv.1 <;> simp [hbid]

theorem appendStore_defs (a m : Nat) (pv : Nat × Operand) (bs : List Block) (i : Nat) :
    ((appendStore a pv bs)[i]?).elim [] (fun b => defsOf m b.insts) =
      (bs[i]?).elim [] (fun b => defsOf m b.insts) := by
  rw [appendStore_getQ]
  rcases hb0 : bs[i]? with _ | b0
  · rfl
  · rw [Option.map_some']
    by_cases hbid : b0.bid = pv.1
    · rw [if_pos hbid]
      dsimp only [Option.elim]
      rw [defsOf_append]
      have : defsOf m [Instr.store pv.2 (Operand.reg a)] = [] := by
        unfold defsOf
        simp [Instr.resId]
      rw [this, List.append_nil]
    · rw [if_neg hbid]

theorem appendStore_phiCnt (a n : Nat) (pv : Nat × Operand) (bs : List Block) (i : Nat) :
    ((appendStore a pv bs)[i]?).elim 0
        (fun b => b.insts.countP (fun u => u.isPhi && decide (u.resId = some n))) =
      (bs[i]?).elim 0
        (fun b => b.insts.countP (fun u => u.isPhi && decide (u.resId = some n))) := by
  rw [appendStore_getQ]
  rcases hb0 : bs[i]? with _ | b0
  · rfl
  · rw [Option.map_some']
    by_cases hbid : b0.bid = pv.1
    · rw [if_pos hbid]
      dsimp only [Option.elim]
      rw [List.countP_append]
      have : [Instr.store pv.2 (Operand.reg a)].countP
          (fun u => u.isPhi && decide (u.resId = some n)) = 0 := by
        simp [Instr.isPhi]
      rw [this]
      omega
    · rw [if_neg hbid]

theorem appendStore_idsBelow (a cc : Nat) (pv : Nat × Operand)
    (hpv : pv.2.idBelow cc = true) (ha : a < cc) (bs : List Block)
    (hb : ∀ b ∈ bs, (∀ u ∈ b.insts, u.idsBelow cc = true) ∧ b.term.idsBelow cc = true) :
    ∀ b2 ∈ appendStore a pv bs,
      (∀ u ∈ b2.insts, u.idsBelow cc = true) ∧ b2.term.idsBelow cc = true := by
  intro b2 hb2
  unfold appendStore at hb2
  obtain ⟨b0, hb0, rfl⟩ := List.mem_map.mp hb2
  by_cases hbid : b0.bid = pv.1
  · rw [if_pos hbid]
    dsimp only
    refine ⟨?_, (hb b0 hb0).2⟩
    intro u hu
    rcases List.mem_append.mp hu with h2 | h2
    · exact (hb b0 hb0).1 u h2
    · have : u = Instr.store pv.2 (Operand.reg a) := by simpa using h2
      rw [this]
      unfold Instr.idsBelow
      simp only [Instr.resId, Instr.operands]
      rw [Bool.true_and]
      simp only [List.all_cons, List.all_nil, Bool.and_true]
      rw [Bool.and_eq_true]
      constructor
      · exact hpv
      · unfold Operand.idBelow
        simpa using ha
  · rw [if_neg hbid]
    exact hb b0 hb0

theorem appendStores_defs (a m : Nat) (inc : List (Nat × Operand)) (bs : List Block)
    (i : Nat) :
    ((inc.foldl (fun acc pv => appendStore a pv acc) bs)[i]?).elim []
        (fun b => defsOf m b.insts) =
      (bs[i]?).elim [] (fun b => defsOf m b.insts) := by
  induction inc generalizing bs with
  | nil => rfl
  | cons pv rest ih =>
    show ((rest.foldl (fun acc pv => appendStore a pv acc) (appendStore a pv bs))[i]?).elim
      [] _ = _
    rw [ih (appendStore a pv bs), appendStore_defs]

theorem appendStores_phiCnt (a n : Nat) (inc : List (Nat × Operand)) (bs : List Block)
    (i : Nat) :
    ((inc.foldl (fun acc pv => appendStore a pv acc) bs)[i]?).elim 0
        (fun b => b.insts.countP (fun u => u.isPhi && decide (u.resId = some n))) =
      (bs[i]?).elim 0
        (fun b => b.insts.countP (fun u => u.isPhi && decide (u.resId = some n))) := by
  induction inc generalizing bs with
  | nil => rfl
  | cons pv rest ih =>
    show ((rest.foldl (fun acc pv => appendStore a pv acc) (appendStore a pv bs))[i]?).elim
      0 _ = _
    rw [ih (appendStore a pv bs), appendStore_phiCnt]

theorem appendStores_map_bid (a : Nat) (inc : List (Nat × Operand)) (bs : List Block) :
    (inc.foldl (fun acc pv => appendStore a pv acc) bs).map Block.bid =
      bs.map Block.bid := by
  induction inc generalizing bs with
  | nil => rfl
  | cons pv rest ih =>
    show (rest.foldl (fun acc pv => appendStore a pv acc) (appendStore a pv bs)).map
      Block.bid = _
    rw [ih (appendStore a pv bs), appendStore_map_bid]

theorem appendStores_idsBelow (a cc : Nat) (inc : List (Nat × Operand))
    (hinc : ∀ pv ∈ inc, (Prod.snd pv).idBelow cc = true) (ha : a < cc) (bs : List Block)
    (hb : ∀ b ∈ bs, (∀ u ∈ b.insts, u.idsBelow cc = true) ∧ b.term.idsBelow cc = true) :
    ∀ b2 ∈ inc.foldl (fun acc pv => appendStore a pv acc) bs,
      (∀ u ∈ b2.insts, u.idsBelow cc = true) ∧ b2.term.idsBelow cc = true := by
  induction inc generalizing bs with
  | nil => exact hb
  | cons pv rest ih =>
    show ∀ b2 ∈ rest.foldl (fun acc pv => appendStore a pv acc) (appendStore a pv bs), _
    exact ih (fun q hq => hinc q (List.mem_cons_of_mem _ hq)) (appendStore a pv bs)
      (appendStore_idsBelow a cc pv (hinc pv (List.mem_cons_self _ _)) ha bs hb)

theorem phiIncomingOf_idBelow (n cc : Nat) (f : Func) (hf : Func.idsBelow f cc = true) :
    ∀ pv ∈ phiIncomingOf n f, (Prod.snd pv).idBelow cc = true := by
  unfold phiIncomingOf
  intro pv hpv
  rcases hL : (f.blocks.map fun b =>
      b.insts.filterMap fun u =>
        match u with
        | .phi m inc => if m = n then some inc else none
        | _ => none).flatten with _ | ⟨inc0, tl⟩
  · rw [hL] at hpv
    simp at hpv
  · rw [hL] at hpv
    have hmem : inc0 ∈ (f.blocks.map fun b =>
        b.insts.filterMap fun u =>
          match u with
          | .phi m inc => if m = n then some inc else none
          | _ => none).flatten := by
      rw [hL]
      exact List.mem_cons_self _ _
    rw [List.mem_flatten] at hmem
    obtain ⟨part, hpart, hin⟩ := hmem
    obtain ⟨b, hb, rfl⟩ := List.mem_map.mp hpart
    obtain ⟨u, hu, hue⟩ := List.mem_filterMap.mp hin
    have hpv0 : pv ∈ inc0 := by simpa using hpv
    cases u with
    | phi m inc =>
      have hue2 : (if m = n then some inc else none) = some inc0 := hue
      by_cases hmn : m = n
      · rw [if_pos hmn] at hue2
        have hie : inc = inc0 := by simpa using hue2
        have hbelow := idsBelow_elim f cc hf b hb
        have hu2 := hbelow.1 _ hu
        unfold Instr.idsBelow at hu2
        rw [Bool.and_eq_true, List.all_eq_true] at hu2
        apply hu2.2
        show Prod.snd pv ∈ (Instr.phi m inc).operands
        unfold Instr.operands
        rw [hie]
        exact List.mem_map.mpr ⟨pv, hpv0, rfl⟩
      · rw [if_neg hmn] at hue2
        cases hue2
    | alloca m => cases hue
    | load m p => cases hue
    | store v p => cases hue
    | select m c2 o1 o2 => cases hue
    | op m as => cases hue

theorem idsBelow_intro (g : Func) (cc : Nat)
    (h : ∀ b ∈ g.blocks, (∀ u ∈ b.insts, u.idsBelow cc = true) ∧
      b.term.idsBelow cc = true) : Func.idsBelow g cc = true := by
  unfold Func.idsBelow
  rw [List.all_eq_true]
  intro b hb
  rw [Bool.and_eq_true, List.all_eq_true]
  exact ⟨(h b hb).1, (h b hb).2⟩

theorem appendAllocaEntry_map_bid (a : Nat) (bs : List Block) :
    (appendAllocaEntry a bs).map Block.bid = bs.map Block.bid := by
  cases bs with
  | nil => rfl
  | cons b rest => rfl

theorem appendAllocaEntry_defs_other (a m : Nat) (hm : m ≠ a) (bs : List Block) (i : Nat) :
    ((appendAllocaEntry a bs)[i]?).elim [] (fun b => defsOf m b.insts) =
      (bs[i]?).elim [] (fun b => defsOf m b.insts) := by
  cases i with
  | zero =>
    rw [appendAllocaEntry_getQ_zero]
    rcases hb0 : bs[0]? with _ | b0
    · rfl
    · rw [Option.map_some']
      dsimp only [Option.elim]
      rw [defsOf_append]
      have : defsOf m [Instr.alloca a] = [] := by
        unfold defsOf
        simp only [List.filterMap_cons, List.filterMap_nil]
        have hne : ¬((Instr.alloca a).resId = some m) := by
          simp only [Instr.resId]
          intro hcon
          exact hm (by simpa using hcon.symm)
        rw [if_neg hne]
      rw [this, List.append_nil]
  | succ j =>
    rw [appendAllocaEntry_getQ_succ]

theorem demotePhiToStack_le (n : Nat) (f : Func) (c : Nat) :
    c ≤ (demotePhiToStack n f c).2 := by
  unfold demotePhiToStack
  by_cases hg : (f.blocks.any fun b => b.insts.any fun u =>
      u.isPhi && u.resId = some n) = true
  · rw [if_pos hg]
    dsimp only
    omega
  · rw [if_neg hg]

theorem demotePhiToStack_map_bid (n : Nat) (f : Func) (c : Nat) :
    (demotePhiToStack n f c).1.blocks.map Block.bid = f.blocks.map Block.bid := by
  unfold demotePhiToStack
  by_cases hg : (f.blocks.any fun b => b.insts.any fun u =>
      u.isPhi && u.resId = some n) = true
  · rw [if_pos hg]
    dsimp only
    rw [appendAllocaEntry_map_bid, appendStores_map_bid, List.map_map]
    apply List.map_congr_left
    intro b hb
    rfl
  · rw [if_neg hg]

theorem demotePhiToStack_defs_other (n m : Nat) (f : Func) (c : Nat) (hm : m ≠ c)
    (i : Nat) :
    (((demotePhiToStack n f c).1.blocks[i]?).elim [] (fun b => defsOf m b.insts)) =
      ((f.blocks[i]?).elim [] (fun b => defsOf m b.insts)) := by
  unfold demotePhiToStack
  by_cases hg : (f.blocks.any fun b => b.insts.any fun u =>
      u.isPhi && u.resId = some n) = true
  · rw [if_pos hg]
    dsimp only
    rw [appendAllocaEntry_defs_other c m hm, appendStores_defs]
    rw [List.getElem?_map]
    rcases hb0 : f.blocks[i]? with _ | b0
    · rfl
    · rw [Option.map_some']
      dsimp only [Option.elim]
      exact replacePhiWithLoad_defsOf n c m b0.insts
  · rw [if_neg hg]

theorem demotePhiToStack_defs_cell (n : Nat) (f : Func) (c : Nat)
    (hfresh : ∀ (i : Nat) (bi : Block), f.blocks[i]? = some bi → defsOf c bi.insts = []) :
    ∀ (i : Nat) (bi : Block), (demotePhiToStack n f c).1.blocks[i]? = some bi →
      defsOf c bi.insts ≠ [] → i = 0 ∧ ∀ fl ∈ defsOf c bi.insts, fl = true := by
  intro i bi hbi hd
  unfold demotePhiToStack at hbi
  by_cases hg : (f.blocks.any fun b => b.insts.any fun u =>
      u.isPhi && u.resId = some n) = true
  · rw [if_pos hg] at hbi
    dsimp only at hbi
    cases i with
    | zero =>
      refine ⟨rfl, ?_⟩
      rw [appendAllocaEntry_getQ_zero] at hbi
      rcases hb2 : ((phiIncomingOf n f).foldl (fun acc pv => appendStore c pv acc)
          (f.blocks.map fun b =>
            Block.mk b.bid (replacePhiWithLoad n c b.insts) b.term))[0]?
          with _ | b2
      · rw [hb2] at hbi
        cases hbi
      · rw [hb2] at hbi
        rw [Option.map_some'] at hbi
        have hbi2 := Option.some_inj.mp hbi
        rw [← hbi2]
        dsimp only
        rw [defsOf_append]
        have hz : defsOf c b2.insts = [] := by
          have h3 := appendStores_defs c c (phiIncomingOf n f)
            (f.blocks.map fun b =>
              Block.mk b.bid (replacePhiWithLoad n c b.insts) b.term) 0
          rw [hb2] at h3
          dsimp only [Option.elim] at h3
          rw [List.getElem?_map] at h3
          rcases hb0 : f.blocks[0]? with _ | b0
          · rw [hb0] at h3
            simpa using h3
          · rw [hb0, Option.map_some'] at h3
            dsimp only [Option.elim] at h3
            rw [replacePhiWithLoad_defsOf] at h3
            rw [hfresh 0 b0 hb0] at h3
            exact h3
        rw [hz]
        intro fl hfl
        have : fl ∈ defsOf c [Instr.alloca c] := by simpa using hfl
        unfold defsOf at this
        simp only [List.filterMap_cons, List.filterMap_nil] at this
        have hres : (Instr.alloca c).resId = some c := by simp [Instr.resId]
        rw [if_pos hres] at this
        have : fl = (Instr.alloca c).isAlloca := by simpa using this
        rw [this]
        simp [Instr.isAlloca]
    | succ j =>
      exfalso
      rw [appendAllocaEntry_getQ_succ] at hbi
      have h3 := appendStores_defs c c (phiIncomingOf n f)
        (f.blocks.map fun b =>
          Block.mk b.bid (replacePhiWithLoad n c b.insts) b.term) (j+1)
      rw [hbi] at h3
      dsimp only [Option.elim] at h3
      rw [List.getElem?_map] at h3
      rcases hb0 : f.blocks[j+1]? with _ | b0
      · rw [hb0] at h3
        simp only [Option.map_none'] at h3
        exact hd (by simpa using h3)
      · rw [hb0, Option.map_some'] at h3
        dsimp only [Option.elim] at h3
        rw [replacePhiWithLoad_defsOf] at h3
        rw [hfresh (j+1) b0 hb0] at h3
        exact hd h3
  · rw [if_neg hg] at hbi
    exact absurd (hfresh i bi hbi) hd

theorem demotePhiToStack_phiCnt_other (n n2 : Nat) (hne : n2 ≠ n) (f : Func) (c : Nat)
    (i : Nat) :
    (((demotePhiToStack n f c).1.blocks[i]?).elim 0
        (fun b => b.insts.countP (fun u => u.isPhi && decide (u.resId = some n2)))) =
      ((f.blocks[i]?).elim 0
        (fun b => b.insts.countP (fun u => u.isPhi && decide (u.resId = some n2)))) := by
  unfold demotePhiToStack
  by_cases hg : (f.blocks.any fun b => b.insts.any fun u =>
      u.isPhi && u.resId = some n) = true
  · rw [if_pos hg]
    dsimp only
    rw [appendAllocaEntry_phiCnt, appendStores_phiCnt, List.getElem?_map]
    rcases hb0 : f.blocks[i]? with _ | b0
    · rfl
    · rw [Option.map_some']
      dsimp only [Option.elim]
      exact replacePhiWithLoad_phiCnt_other n c n2 hne b0.insts
  · rw [if_neg hg]

theorem demotePhiToStack_phiCnt_self (n : Nat) (f : Func) (c : Nat) (i : Nat) :
    (((demotePhiToStack n f c).1.blocks[i]?).elim 0
        (fun b => b.insts.countP (fun u => u.isPhi && decide (u.resId = some n)))) =
      ((f.blocks[i]?).elim 0
        (fun b => b.insts.countP (fun u => u.isPhi && decide (u.resId = some n)))) -
      (if 0 < ((f.blocks[i]?).elim 0
        (fun b => b.insts.countP (fun u => u.isPhi && decide (u.resId = some n))))
        then 1 else 0) := by
  unfold demotePhiToStack
  by_cases hg : (f.blocks.any fun b => b.insts.any fun u =>
      u.isPhi && u.resId = some n) = true
  · rw [if_pos hg]
    dsimp only
    rw [appendAllocaEntry_phiCnt, appendStores_phiCnt, List.getElem?_map]
    rcases hb0 : f.blocks[i]? with _ | b0
    · rfl
    · rw [Option.map_some']
      dsimp only [Option.elim]
      rw [replacePhiWithLoad_phiCnt_self]
      have hiff : (b0.insts.any (fun u => u.isPhi && decide (u.resId = some n)) = true) ↔
          0 < b0.insts.countP (fun u => u.isPhi && decide (u.resId = some n)) := by
        rw [List.any_eq_true, List.countP_pos_iff]
      by_cases hany : b0.insts.any (fun u => u.isPhi && decide (u.resId = some n)) = true
      · rw [hany, if_pos (hiff.mp hany)]
        simp
      · rw [Bool.not_eq_true] at hany
        rw [hany]
        have : ¬(0 < b0.insts.countP (fun u => u.isPhi && decide (u.resId = some n))) := by
          intro hcon
          rw [← hiff] at hcon
          rw [hany] at hcon
          cases hcon
        rw [if_neg this]
        simp
  · rw [if_neg hg]
    rw [Bool.not_eq_true, List.any_eq_false] at hg
    rcases hb0 : f.blocks[i]? with _ | b0
    · rfl
    · dsimp only [Option.elim]
      have hz : b0.insts.countP (fun u => u.isPhi && decide (u.resId = some n)) = 0 := by
        rw [List.countP_eq_zero]
        intro u hu
        have h5 := hg b0 (mem_of_getElemQ _ _ _ hb0)
        rw [Bool.not_eq_true, List.any_eq_false] at h5
        exact h5 u hu
      rw [hz]
      simp

theorem demotePhiToStack_idsBelow (n : Nat) (f : Func) (c : Nat) (hn : n < c)
    (hf : Func.idsBelow f c = true) :
    Func.idsBelow (demotePhiToStack n f c).1 (demotePhiToStack n f c).2 = true := by
  unfold demotePhiToStack
  by_cases hg : (f.blocks.any fun b => b.insts.any fun u =>
      u.isPhi && u.resId = some n) = true
  · rw [if_pos hg]
    dsimp only
    apply idsBelow_intro
    show ∀ b ∈ appendAllocaEntry c _, _
    apply appendAllocaEntry_idsBelow c (c+1) (by omega)
    apply appendStores_idsBelow c (c+1) (phiIncomingOf n f)
      (fun pv hpv => idBelow_mono c (c+1) (by omega) _
        (phiIncomingOf_idBelow n c f hf pv hpv)) (by omega)
    intro b2 hb2
    obtain ⟨b0, hb0, rfl⟩ := List.mem_map.mp hb2
    have hbelow := idsBelow_elim f c hf b0 hb0
    constructor
    · apply replacePhiWithLoad_idsBelow n c (c+1) (by omega) (by omega)
      intro u hu
      exact instIdsBelow_mono c (c+1) (by omega) u (hbelow.1 u hu)
    · exact termIdsBelow_mono c (c+1) (by omega) _ hbelow.2
  · rw [if_neg hg]
    exact hf

theorem defsAt_eq (g : Func) (i m : Nat) (b : Block) (hb : g.blocks[i]? = some b) :
    defsAt g i m = defsOf m b.insts := by
  unfold defsAt
  rw [hb]

theorem demotePhis_cons (n : Nat) (ns : List Nat) (f : Func) (c : Nat) :
    demotePhis (n :: ns) f c =
      demotePhis ns (demotePhiToStack n f c).1 (demotePhiToStack n f c).2 := by
  unfold demotePhis
  rfl

theorem demotePhis_pack (ns : List Nat) (h : Func) (c : Nat)
    (hns : ∀ n ∈ ns, n < c) (hids : Func.idsBelow h c = true)
    (hudef : ∀ (m i k : Nat) (bi bk : Block), h.blocks[i]? = some bi →
      defsOf m bi.insts ≠ [] → h.blocks[k]? = some bk → defsOf m bk.insts ≠ [] → i = k) :
    c ≤ (demotePhis ns h c).2 ∧
    Func.idsBelow (demotePhis ns h c).1 (demotePhis ns h c).2 = true ∧
    (demotePhis ns h c).1.blocks.map Block.bid = h.blocks.map Block.bid ∧
    (∀ (m : Nat), m < c → ∀ (i : Nat),
      (((demotePhis ns h c).1.blocks[i]?).elim [] (fun b => defsOf m b.insts)) =
        ((h.blocks[i]?).elim [] (fun b => defsOf m b.insts))) ∧
    (∀ (m i k : Nat) (bi bk : Block), (demotePhis ns h c).1.blocks[i]? = some bi →
      defsOf m bi.insts ≠ [] → (demotePhis ns h c).1.blocks[k]? = some bk →
      defsOf m bk.insts ≠ [] → i = k) := by
  induction ns generalizing h c with
  | nil =>
    refine ⟨le_refl c, hids, rfl, fun m hm i => rfl, hudef⟩
  | cons n rest ih =>
    rw [demotePhis_cons]
    have hle := demotePhiToStack_le n h c
    have hudef2 : ∀ (m i k : Nat) (bi bk : Block),
        (demotePhiToStack n h c).1.blocks[i]? = some bi → defsOf m bi.insts ≠ [] →
        (demotePhiToStack n h c).1.blocks[k]? = some bk → defsOf m bk.insts ≠ [] →
        i = k := by
      intro m i k bi bk hbi hdi hbk hdk
      by_cases hm : m = c
      · subst hm
        have hfresh : ∀ (i2 : Nat) (bi2 : Block), h.blocks[i2]? = some bi2 →
            defsOf m bi2.insts = [] := by
          intro i2 bi2 hbi2
          have := (idsBelow_no_def_above h m m hids (le_refl m) i2).1
          rw [defsAt_eq h i2 m bi2 hbi2] at this
          exact this
        have h1 := demotePhiToStack_defs_cell n h m hfresh i bi hbi hdi
        have h2 := demotePhiToStack_defs_cell n h m hfresh k bk hbk hdk
        rw [h1.1, h2.1]
      · have h1 := demotePhiToStack_defs_other n m h c hm i
        have h2 := demotePhiToStack_defs_other n m h c hm k
        rw [hbi] at h1
        rw [hbk] at h2
        dsimp only [Option.elim] at h1 h2
        rcases hb1 : h.blocks[i]? with _ | b1
        · rw [hb1] at h1
          dsimp only [Option.elim] at h1
          exact absurd h1 hdi
        · rcases hb2 : h.blocks[k]? with _ | b2
          · rw [hb2] at h2
            dsimp only [Option.elim] at h2
            exact absurd h2 hdk
          · rw [hb1] at h1
            rw [hb2] at h2
            dsimp only [Option.elim] at h1 h2
            exact hudef m i k b1 b2 hb1 (by rw [← h1]; exact hdi) hb2
              (by rw [← h2]; exact hdk)
    have hrec := ih (demotePhiToStack n h c).1 (demotePhiToStack n h c).2
      (fun q hq => lt_of_lt_of_le (hns q (List.mem_cons_of_mem _ hq)) hle)
      (demotePhiToStack_idsBelow n h c (hns n (List.mem_cons_self _ _)) hids)
      hudef2
    refine ⟨le_trans hle hrec.1, hrec.2.1, ?_, ?_, hrec.2.2.2.2⟩
    · rw [hrec.2.2.1, demotePhiToStack_map_bid]
    · intro m hm i
      rw [hrec.2.2.2.1 m (by omega) i]
      exact demotePhiToStack_defs_other n m h c (by omega) i

theorem getQ_of_mem {A : Type} (l : List A) (a : A) (h : a ∈ l) :
    ∃ i : Nat, l[i]? = some a := by
  rw [List.mem_iff_getElem] at h
  obtain ⟨i, hi, he⟩ := h
  exact ⟨i, by rw [List.getElem?_eq_getElem hi, he]⟩

theorem demotePhis_nophi (ns : List Nat) (h : Func) (c : Nat)
    (hcnt : ∀ (n i : Nat),
      ((h.blocks[i]?).elim 0
        (fun b => b.insts.countP (fun u => u.isPhi && decide (u.resId = some n)))) ≤
      ns.count n) :
    noPhis (demotePhis ns h c).1 = true := by
  induction ns generalizing h c with
  | nil =>
    have hred : demotePhis [] h c = (h, c) := rfl
    rw [hred]
    unfold noPhis
    rw [List.all_eq_true]
    intro b hb
    rw [List.all_eq_true]
    intro u hu
    by_contra hcon
    have hphi : u.isPhi = true := by
      by_contra h2
      rw [Bool.not_eq_true] at h2
      rw [h2] at hcon
      exact hcon rfl
    obtain ⟨m0, inc, rfl⟩ := isPhi_exists u hphi
    obtain ⟨i, hi⟩ := getQ_of_mem _ b hb
    have h1 := hcnt m0 i
    rw [hi] at h1
    dsimp only [Option.elim] at h1
    have h2 : 0 < b.insts.countP (fun u => u.isPhi && decide (u.resId = some m0)) := by
      apply List.countP_pos_iff.mpr
      refine ⟨Instr.phi m0 inc, hu, ?_⟩
      simp [Instr.isPhi, Instr.resId]
    rw [List.count_nil] at h1
    omega
  | cons n rest ih =>
    rw [demotePhis_cons]
    apply ih
    intro n2 i
    by_cases hne : n2 = n
    · subst hne
      have h1 := demotePhiToStack_phiCnt_self n2 h c i
      rw [h1]
      have h2 := hcnt n2 i
      rw [List.count_cons] at h2
      have h3 : (if (n2 == n2) = true then 1 else 0) = 1 := by simp
      rw [h3] at h2
      by_cases hz : 0 < ((h.blocks[i]?).elim 0
          (fun b => b.insts.countP (fun u => u.isPhi && decide (u.resId = some n2))))
      · rw [if_pos hz]
        omega
      · rw [if_neg hz]
        omega
    · have h1 := demotePhiToStack_phiCnt_other n n2 hne h c i
      rw [h1]
      have h2 := hcnt n2 i
      rw [List.count_cons] at h2
      have h3 : (if (n == n2) = true then 1 else 0) = 0 := by
        have : ¬((n == n2) = true) := by
          rw [beq_iff_eq]
          intro hcon
          exact hne hcon.symm
        rw [if_neg this]
      omega

theorem insertStoreAfterDef_map_bid (n : Nat) (st : Instr) (bs : List Block) :
    (insertStoreAfterDef n st bs).map Block.bid = bs.map Block.bid := by
  unfold insertStoreAfterDef
  rw [List.map_map]
  apply List.map_congr_left
  intro b hb
  rfl

theorem insertStoreAfterDef_defs (n m : Nat) (st : Instr) (hst : st.resId = none)
    (bs : List Block) (i : Nat) :
    ((insertStoreAfterDef n st bs)[i]?).elim [] (fun b => defsOf m b.insts) =
      (bs[i]?).elim [] (fun b => defsOf m b.insts) := by
  rw [insertStoreAfterDef_getQ]
  rcases hb0 : bs[i]? with _ | b0
  · rfl
  · rw [Option.map_some']
    dsimp only [Option.elim]
    exact insertAfterDef_defs n m st hst b0.insts

theorem demoteBlocks_map_bid (x a : Nat) (bs : List Block) (c : Nat) :
    (demoteBlocks x a bs c).1.map Block.bid = bs.map Block.bid := by
  apply List.ext_getElem?
  intro i
  rw [List.getElem?_map, List.getElem?_map]
  exact demoteBlocks_bid x a bs c i

theorem guard_x_lt (x : Nat) (g : Func) (c : Nat) (hids : Func.idsBelow g c = true)
    (hguard : (g.blocks.any fun b => b.insts.any fun u => u.resId = some x) = true) :
    x < c := by
  rw [List.any_eq_true] at hguard
  obtain ⟨b, hb, h2⟩ := hguard
  rw [List.any_eq_true] at h2
  obtain ⟨u, hu, h3⟩ := h2
  rw [decide_eq_true_iff] at h3
  have h4 := (idsBelow_elim g c hids b hb).1 u hu
  unfold Instr.idsBelow at h4
  rw [Bool.and_eq_true] at h4
  have h5 := h4.1
  rw [h3] at h5
  simpa using h5

theorem demoteRegToStack_le (x : Nat) (g : Func) (c : Nat) :
    c ≤ (demoteRegToStack x g c).2 := by
  unfold demoteRegToStack
  by_cases hguard : (g.blocks.any fun b => b.insts.any fun u => u.resId = some x) = true
  · rw [if_pos hguard]
    dsimp only
    have := demoteBlocks_le x c g.blocks (c+1)
    omega
  · rw [if_neg hguard]

theorem demoteRegToStack_map_bid (x : Nat) (g : Func) (c : Nat) :
    (demoteRegToStack x g c).1.blocks.map Block.bid = g.blocks.map Block.bid := by
  unfold demoteRegToStack
  by_cases hguard : (g.blocks.any fun b => b.insts.any fun u => u.resId = some x) = true
  · rw [if_pos hguard]
    dsimp only
    rw [appendAllocaEntry_map_bid, insertStoreAfterDef_map_bid, appendLoads_map_bid,
      demoteBlocks_map_bid]
  · rw [if_neg hguard]

theorem demoteRegToStack_idsBelow (x : Nat) (g : Func) (c : Nat)
    (hids : Func.idsBelow g c = true) :
    Func.idsBelow (demoteRegToStack x g c).1 (demoteRegToStack x g c).2 = true := by
  unfold demoteRegToStack
  by_cases hguard : (g.blocks.any fun b => b.insts.any fun u => u.resId = some x) = true
  · rw [if_pos hguard]
    dsimp only
    have hx := guard_x_lt x g c hids hguard
    have hle := demoteBlocks_le x c g.blocks (c+1)
    apply idsBelow_intro
    show ∀ b ∈ appendAllocaEntry c _, _
    apply appendAllocaEntry_idsBelow c _ (by omega)
    apply insertStoreAfterDef_idsBelow x _ (Instr.store (Operand.reg x) (Operand.reg c))
      (by
        unfold Instr.idsBelow
        simp only [Instr.resId, Instr.operands]
        rw [Bool.true_and]
        simp only [List.all_cons, List.all_nil, Bool.and_true]
        rw [Bool.and_eq_true]
        constructor
        · unfold Operand.idBelow
          simp only [decide_eq_true_iff]
          omega
        · unfold Operand.idBelow
          simp only [decide_eq_true_iff]
          omega)
    apply appendLoads_idsBelow c _ _
      (fun pl hpl => (demoteBlocks_pend_range x c g.blocks (c+1) pl hpl).2) (by omega)
    exact demoteBlocks_idsBelow x c c g.blocks (c+1)
      (fun b hb => idsBelow_elim g c hids b hb) (by omega) (by omega)
  · rw [if_neg hguard]
    exact hids

theorem demoteRegToStack_udef (x : Nat) (g : Func) (c : Nat)
    (hids : Func.idsBelow g c = true) (hbids : (g.blocks.map Block.bid).Nodup)
    (hudef : ∀ (m i k : Nat) (bi bk : Block), g.blocks[i]? = some bi →
      defsOf m bi.insts ≠ [] → g.blocks[k]? = some bk → defsOf m bk.insts ≠ [] → i = k) :
    ∀ (m i k : Nat) (bi bk : Block), (demoteRegToStack x g c).1.blocks[i]? = some bi →
      defsOf m bi.insts ≠ [] → (demoteRegToStack x g c).1.blocks[k]? = some bk →
      defsOf m bk.insts ≠ [] → i = k := by
  unfold demoteRegToStack
  by_cases hguard : (g.blocks.any fun b => b.insts.any fun u => u.resId = some x) = true
  · rw [if_pos hguard]
    dsimp only
    have hx := guard_x_lt x g c hids hguard
    have hle := demoteBlocks_le x c g.blocks (c+1)
    -- unique definition index for the partially demoted block list
    have hudefS : ∀ (m i k : Nat) (bi bk : Block),
        (demoteBlocks x c g.blocks (c+1)).1[i]? = some bi → defsOf m bi.insts ≠ [] →
        (demoteBlocks x c g.blocks (c+1)).1[k]? = some bk → defsOf m bk.insts ≠ [] →
        i = k := by
      intro m i k bi bk hbi hdi hbk hdk
      by_cases hm : c + 1 ≤ m
      · exact demoteBlocks_defs_confine x c c g.blocks (c+1)
          (fun b hb => idsBelow_elim g c hids b hb) (by omega) m hm i k bi bk
          hbi hdi hbk hdk
      · have hd1 := demoteBlocks_defs_eq x c m g.blocks (c+1) (by omega) i
        have hd2 := demoteBlocks_defs_eq x c m g.blocks (c+1) (by omega) k
        rw [hbi] at hd1
        rw [hbk] at hd2
        dsimp only [Option.elim] at hd1 hd2
        rcases hb1 : g.blocks[i]? with _ | b1
        · rw [hb1] at hd1
          dsimp only [Option.elim] at hd1
          exact absurd hd1 hdi
        · rcases hb2 : g.blocks[k]? with _ | b2
          · rw [hb2] at hd2
            dsimp only [Option.elim] at hd2
            exact absurd hd2 hdk
          · rw [hb1] at hd1
            rw [hb2] at hd2
            dsimp only [Option.elim] at hd1 hd2
            exact hudef m i k b1 b2 hb1 (by rw [← hd1]; exact hdi) hb2
              (by rw [← hd2]; exact hdk)
    have hudefL : ∀ (m i k : Nat) (bi bk : Block),
        (appendLoads c (demoteBlocks x c g.blocks (c+1)).2.1
          (demoteBlocks x c g.blocks (c+1)).1)[i]? = some bi → defsOf m bi.insts ≠ [] →
        (appendLoads c (demoteBlocks x c g.blocks (c+1)).2.1
          (demoteBlocks x c g.blocks (c+1)).1)[k]? = some bk → defsOf m bk.insts ≠ [] →
        i = k := by
      apply appendLoads_udef
      · intro pl hpl i bi hbi
        exact demoteBlocks_pend_not_defined x c c g.blocks (c+1)
          (fun b hb => idsBelow_elim g c hids b hb) (by omega) pl hpl i bi hbi
      · exact demoteBlocks_pend_nodup x c g.blocks (c+1)
      · rw [demoteBlocks_map_bid]
        exact hbids
      · exact hudefS
    intro m i k bi bk hbi hdi hbk hdk
    by_cases hm : m = c
    · -- the cell id: defined only by the alloca appended to the entry block
      subst hm
      have hzero : ∀ (j : Nat) (bj : Block),
          (appendAllocaEntry m (insertStoreAfterDef x
            (Instr.store (Operand.reg x) (Operand.reg m))
            (appendLoads m (demoteBlocks x m g.blocks (m+1)).2.1
              (demoteBlocks x m g.blocks (m+1)).1)))[j]? = some bj →
          defsOf m bj.insts ≠ [] → j = 0 := by
        intro j bj hbj hdj
        cases j with
        | zero => rfl
        | succ j2 =>
          exfalso
          rw [appendAllocaEntry_getQ_succ] at hbj
          have h1 := insertStoreAfterDef_defs x m
            (Instr.store (Operand.reg x) (Operand.reg m)) rfl
            (appendLoads m (demoteBlocks x m g.blocks (m+1)).2.1
              (demoteBlocks x m g.blocks (m+1)).1) (j2+1)
          rw [hbj] at h1
          dsimp only [Option.elim] at h1
          rcases hb1 : (appendLoads m (demoteBlocks x m g.blocks (m+1)).2.1
              (demoteBlocks x m g.blocks (m+1)).1)[j2+1]? with _ | b1
          · rw [hb1] at h1
            dsimp only [Option.elim] at h1
            exact hdj h1
          · rw [hb1] at h1
            dsimp only [Option.elim] at h1
            -- the loads appended for phi uses carry fresh ids, never the cell id
            obtain ⟨b0, hb0, hd0⟩ := appendLoads_defs_other m
              (demoteBlocks x m g.blocks (m+1)).2.1
              (demoteBlocks x m g.blocks (m+1)).1 m
              (fun pl hpl => by
                have := demoteBlocks_pend_range x m g.blocks (m+1) pl hpl
                omega) (j2+1) b1 hb1
            rw [hd0] at h1
            have h2 := demoteBlocks_defs_eq x m m g.blocks (m+1) (by omega) (j2+1)
            rw [hb0] at h2
            dsimp only [Option.elim] at h2
            rcases hb2 : g.blocks[j2+1]? with _ | b2
            · rw [hb2] at h2
              dsimp only [Option.elim] at h2
              rw [h2] at h1
              exact hdj (by rw [h1])
            · rw [hb2] at h2
              dsimp only [Option.elim] at h2
              have h3 := (idsBelow_no_def_above g m m hids (le_refl m) (j2+1)).1
              rw [defsAt_eq g (j2+1) m b2 hb2] at h3
              rw [h3] at h2
              rw [h2] at h1
              exact hdj (by rw [h1])
      rw [hzero i bi hbi hdi, hzero k bk hbk hdk]
    · -- any other id: its definitions sit where they sat before the store
      -- insertion and the cell allocation
      have htrans : ∀ (j : Nat) (bj : Block),
          (appendAllocaEntry c (insertStoreAfterDef x
            (Instr.store (Operand.reg x) (Operand.reg c))
            (appendLoads c (demoteBlocks x c g.blocks (c+1)).2.1
              (demoteBlocks x c g.blocks (c+1)).1)))[j]? = some bj →
          defsOf m bj.insts ≠ [] → ∃ b1,
            (appendLoads c (demoteBlocks x c g.blocks (c+1)).2.1
              (demoteBlocks x c g.blocks (c+1)).1)[j]? = some b1 ∧
            defsOf m b1.insts ≠ [] := by
        intro j bj hbj hdj
        have ha := appendAllocaEntry_defs_other c m hm
          (insertStoreAfterDef x (Instr.store (Operand.reg x) (Operand.reg c))
            (appendLoads c (demoteBlocks x c g.blocks (c+1)).2.1
              (demoteBlocks x c g.blocks (c+1)).1)) j
        rw [hbj] at ha
        dsimp only [Option.elim] at ha
        have hs := insertStoreAfterDef_defs x m
          (Instr.store (Operand.reg x) (Operand.reg c)) rfl
          (appendLoads c (demoteBlocks x c g.blocks (c+1)).2.1
            (demoteBlocks x c g.blocks (c+1)).1) j
        rcases hb1 : (appendLoads c (demoteBlocks x c g.blocks (c+1)).2.1
            (demoteBlocks x c g.blocks (c+1)).1)[j]? with _ | b1
        · rcases hb2 : (insertStoreAfterDef x (Instr.store (Operand.reg x) (Operand.reg c))
              (appendLoads c (demoteBlocks x c g.blocks (c+1)).2.1
                (demoteBlocks x c g.blocks (c+1)).1))[j]? with _ | b2
          · rw [hb2] at ha
            dsimp only [Option.elim] at ha
            exact absurd ha hdj
          · rw [hb2] at ha
            dsimp only [Option.elim] at ha
            rw [hb1, hb2] at hs
            dsimp only [Option.elim] at hs
            rw [hs] at ha
            exact absurd ha hdj
        · refine ⟨b1, rfl, ?_⟩
          rcases hb2 : (insertStoreAfterDef x (Instr.store (Operand.reg x) (Operand.reg c))
              (appendLoads c (demoteBlocks x c g.blocks (c+1)).2.1
                (demoteBlocks x c g.blocks (c+1)).1))[j]? with _ | b2
          · rw [insertStoreAfterDef_getQ, hb1] at hb2
            rw [Option.map_some'] at hb2
            cases hb2
          · rw [hb2] at ha
            dsimp only [Option.elim] at ha
            rw [hb1, hb2] at hs
            dsimp only [Option.elim] at hs
            rw [← hs, ← ha]
            exact hdj
      obtain ⟨b1, hb1, hd1⟩ := htrans i bi hbi hdi
      obtain ⟨b2, hb2, hd2⟩ := htrans k bk hbk hdk
      exact hudefL m i k b1 b2 hb1 hd1 hb2 hd2
  · rw [if_neg hguard]
    exact hudef

theorem demoteRegs_cons (n : Nat) (ns : List Nat) (f : Func) (c : Nat) :
    demoteRegs (n :: ns) f c =
      demoteRegs ns (demoteRegToStack n f c).1 (demoteRegToStack n f c).2 := by
  unfold demoteRegs
  rfl

theorem demoteRegs_pack (ns : List Nat) (h : Func) (c : Nat)
    (hids : Func.idsBelow h c = true) (hbids : (h.blocks.map Block.bid).Nodup)
    (hudef : ∀ (m i k : Nat) (bi bk : Block), h.blocks[i]? = some bi →
      defsOf m bi.insts ≠ [] → h.blocks[k]? = some bk → defsOf m bk.insts ≠ [] → i = k) :
    c ≤ (demoteRegs ns h c).2 ∧
    Func.idsBelow (demoteRegs ns h c).1 (demoteRegs ns h c).2 = true ∧
    (demoteRegs ns h c).1.blocks.map Block.bid = h.blocks.map Block.bid ∧
    (∀ (m i k : Nat) (bi bk : Block), (demoteRegs ns h c).1.blocks[i]? = some bi →
      defsOf m bi.insts ≠ [] → (demoteRegs ns h c).1.blocks[k]? = some bk →
      defsOf m bk.insts ≠ [] → i = k) ∧
    (∀ (n i : Nat),
      (((demoteRegs ns h c).1.blocks[i]?).elim 0
        (fun b => b.insts.countP (fun u => u.isPhi && decide (u.resId = some n)))) =
      ((h.blocks[i]?).elim 0
        (fun b => b.insts.countP (fun u => u.isPhi && decide (u.resId = some n))))) := by
  induction ns generalizing h c with
  | nil =>
    exact ⟨le_refl c, hids, rfl, hudef, fun n i => rfl⟩
  | cons x rest ih =>
    rw [demoteRegs_cons]
    have hle := demoteRegToStack_le x h c
    have hrec := ih (demoteRegToStack x h c).1 (demoteRegToStack x h c).2
      (demoteRegToStack_idsBelow x h c hids)
      (by rw [demoteRegToStack_map_bid]; exact hbids)
      (demoteRegToStack_udef x h c hids hbids hudef)
    refine ⟨le_trans hle hrec.1, hrec.2.1, ?_, hrec.2.2.2.1, ?_⟩
    · rw [hrec.2.2.1, demoteRegToStack_map_bid]
    · intro n i
      rw [hrec.2.2.2.2 n i, demoteRegToStack_phiCnt]

theorem phiCnt_eq_count (n : Nat) (l : List Instr) :
    l.countP (fun u => u.isPhi && decide (u.resId = some n)) =
      (l.filterMap fun j => if j.isPhi then j.resId else none).count n := by
  induction l with
  | nil => rfl
  | cons u rest ih =>
    rw [List.countP_cons]
    by_cases hphi : u.isPhi = true
    · obtain ⟨m0, inc, rfl⟩ := isPhi_exists u hphi
      have hfm : ((Instr.phi m0 inc) :: rest).filterMap
          (fun j => if j.isPhi then j.resId else none) =
          m0 :: rest.filterMap (fun j => if j.isPhi then j.resId else none) := by
        rw [List.filterMap_cons]
        simp [Instr.isPhi, Instr.resId]
      rw [hfm, List.count_cons, ih]
      by_cases hm : m0 = n
      · subst hm
        simp [Instr.isPhi, Instr.resId]
      · have h2 : (m0 == n) = false := by simpa using hm
        have h3 : ((Instr.phi m0 inc).isPhi &&
            decide ((Instr.phi m0 inc).resId = some n)) = false := by
          simp only [Instr.isPhi, Instr.resId, Bool.true_and]
          simpa using hm
        rw [h2, h3]
    · rw [Bool.not_eq_true] at hphi
      have hfm : (u :: rest).filterMap (fun j => if j.isPhi then j.resId else none) =
          rest.filterMap (fun j => if j.isPhi then j.resId else none) := by
        rw [List.filterMap_cons]
        simp [hphi]
      rw [hfm, ih]
      have h1 : (u.isPhi && decide (u.resId = some n)) = false := by
        rw [hphi]
        simp
      rw [h1]
      simp

theorem count_flatten_ge (n : Nat) (L : List (List Nat)) (i : Nat) (part : List Nat)
    (h : L[i]? = some part) : part.count n ≤ L.flatten.count n := by
  induction L generalizing i with
  | nil => cases h
  | cons hd tl ih =>
    rw [List.flatten_cons, List.count_append]
    cases i with
    | zero =>
      have : part = hd := by simpa using h.symm
      rw [this]
      omega
    | succ j =>
      have h2 : tl[j]? = some part := by simpa using h
      have := ih j h2
      omega

theorem phiCnt_le_collect (f : Func) (n i : Nat) :
    ((f.blocks[i]?).elim 0
      (fun b => b.insts.countP (fun u => u.isPhi && decide (u.resId = some n)))) ≤
    (collectPhis f).count n := by
  rcases hb : f.blocks[i]? with _ | b
  · simp
  · dsimp only [Option.elim]
    rw [phiCnt_eq_count]
    unfold collectPhis
    apply count_flatten_ge n _ i
    rw [List.getElem?_map, hb, Option.map_some']

theorem collectPhis_lt (f : Func) (c : Nat) (hids : Func.idsBelow f c = true) :
    ∀ n ∈ collectPhis f, n < c := by
  intro n hn
  obtain ⟨b, hb, j, hj, hphi, hres⟩ := collectPhis_sound f n hn
  have h4 := (idsBelow_elim f c hids b hb).1 j hj
  unfold Instr.idsBelow at h4
  rw [Bool.and_eq_true] at h4
  have h5 := h4.1
  rw [hres] at h5
  simpa using h5

theorem collectRegs_lt (f : Func) (c : Nat) (hids : Func.idsBelow f c = true) :
    ∀ n ∈ collectRegs f, n < c := by
  intro n hn
  obtain ⟨b, hb, j, hj, hres, hrest⟩ := collectRegs_sound f n hn
  have h4 := (idsBelow_elim f c hids b hb).1 j hj
  unfold Instr.idsBelow at h4
  rw [Bool.and_eq_true] at h4
  have h5 := h4.1
  rw [hres] at h5
  simpa using h5

theorem fixPass_pack (f : Func) (c : Nat)
    (hids : Func.idsBelow f c = true) (hbids : (f.blocks.map Block.bid).Nodup)
    (hudef : ∀ (m i k : Nat) (bi bk : Block), f.blocks[i]? = some bi →
      defsOf m bi.insts ≠ [] → f.blocks[k]? = some bk → defsOf m bk.insts ≠ [] → i = k) :
    c ≤ (fixPass f c).2 ∧
    Func.idsBelow (fixPass f c).1 (fixPass f c).2 = true ∧
    (fixPass f c).1.blocks.map Block.bid = f.blocks.map Block.bid ∧
    (∀ (m i k : Nat) (bi bk : Block), (fixPass f c).1.blocks[i]? = some bi →
      defsOf m bi.insts ≠ [] → (fixPass f c).1.blocks[k]? = some bk →
      defsOf m bk.insts ≠ [] → i = k) ∧
    noPhis (fixPass f c).1 = true := by
  unfold fixPass
  dsimp only
  have hR := demoteRegs_pack (collectRegs f) f c hids hbids hudef
  have hphis : ∀ n ∈ collectPhis f, n < (demoteRegs (collectRegs f) f c).2 :=
    fun n hn => lt_of_lt_of_le (collectPhis_lt f c hids n hn) hR.1
  have hP := demotePhis_pack (collectPhis f) (demoteRegs (collectRegs f) f c).1
    (demoteRegs (collectRegs f) f c).2 hphis hR.2.1 hR.2.2.2.1
  refine ⟨le_trans hR.1 hP.1, hP.2.1, ?_, hP.2.2.2.2, ?_⟩
  · rw [hP.2.2.1, hR.2.2.1]
  · apply demotePhis_nophi
    intro n i
    rw [hR.2.2.2.2 n i]
    exact phiCnt_le_collect f n i

theorem appendAllocaEntry_uses (a m : Nat) (bs : List Block) (i : Nat) :
    ((appendAllocaEntry a bs)[i]?).elim false (blockUses m) =
      (bs[i]?).elim false (blockUses m) := by
  cases i with
  | zero =>
    rw [appendAllocaEntry_getQ_zero]
    rcases hb0 : bs[0]? with _ | b0
    · rfl
    · rw [Option.map_some']
      dsimp only [Option.elim]
      unfold blockUses
      dsimp only
      rw [List.any_append]
      have : [Instr.alloca a].any (fun u => u.usesId m) = false := by
        simp [Instr.usesId, Instr.operands]
      rw [this]
      simp
  | succ j =>
    rw [appendAllocaEntry_getQ_succ]

theorem insertStoreAfterDef_uses_other (n m : Nat) (st : Instr)
    (hstu : st.usesId m = false) (bs : List Block) (i : Nat) :
    ((insertStoreAfterDef n st bs)[i]?).elim false (blockUses m) =
      (bs[i]?).elim false (blockUses m) := by
  rw [insertStoreAfterDef_getQ]
  rcases hb0 : bs[i]? with _ | b0
  · rfl
  · rw [Option.map_some']
    dsimp only [Option.elim]
    unfold blockUses
    dsimp only
    rw [insertAfterDef_uses, hstu]
    simp

theorem demoteRegToStack_nophi (x : Nat) (g : Func) (c : Nat) (hnp : noPhis g = true) :
    noPhis (demoteRegToStack x g c).1 = true := by
  unfold demoteRegToStack
  by_cases hguard : (g.blocks.any fun b => b.insts.any fun u => u.resId = some x) = true
  · rw [if_pos hguard]
    dsimp only
    have hnp2 := noPhis_elim g hnp
    unfold noPhis
    rw [List.all_eq_true]
    intro b2 hb2
    rw [List.all_eq_true]
    have hmain : ∀ u ∈ b2.insts, u.isPhi = false := by
      rcases hbs : (appendAllocaEntry c (insertStoreAfterDef x
          (Instr.store (Operand.reg x) (Operand.reg c))
          (appendLoads c (demoteBlocks x c g.blocks (c+1)).2.1
            (demoteBlocks x c g.blocks (c+1)).1))) with _ | ⟨bh, brest⟩
      · rw [hbs] at hb2
        cases hb2
      · rw [hbs] at hb2
        rw [demoteBlocks_pend_nophi x c g.blocks (c+1) hnp2, appendLoads_nil] at hbs
        have hins : ∀ b3 ∈ insertStoreAfterDef x
            (Instr.store (Operand.reg x) (Operand.reg c))
            (demoteBlocks x c g.blocks (c+1)).1, ∀ u ∈ b3.insts, u.isPhi = false := by
          intro b3 hb3
          unfold insertStoreAfterDef at hb3
          obtain ⟨b0, hb0, rfl⟩ := List.mem_map.mp hb3
          apply insertAfterDef_nophi x _ (by simp [Instr.isPhi])
          exact demoteBlocks_nophi x c g.blocks (c+1) hnp2 b0 hb0
        rcases hins2 : insertStoreAfterDef x
            (Instr.store (Operand.reg x) (Operand.reg c))
            (demoteBlocks x c g.blocks (c+1)).1 with _ | ⟨ih0, irest⟩
        · rw [hins2] at hbs
          cases hbs
        · rw [hins2] at hbs
          unfold appendAllocaEntry at hbs
          have hbs2 := hbs
          injection hbs2 with hhead htail
          rcases List.mem_cons.mp hb2 with rfl | h3
          · rw [← hhead]
            dsimp only
            intro u hu
            rcases List.mem_append.mp hu with h4 | h4
            · exact hins ih0 (by rw [hins2]; exact List.mem_cons_self _ _) u h4
            · have : u = Instr.alloca c := by simpa using h4
              rw [this]
              simp [Instr.isPhi]
          · rw [← htail] at h3
            exact hins b2 (by rw [hins2]; exact List.mem_cons_of_mem _ h3)
    intro u hu
    rw [hmain u hu]
    rfl
  · rw [if_neg hguard]
    exact hnp

theorem demoteRegToStack_uses_eq (x m : Nat) (g : Func) (c : Nat)
    (hnp : noPhis g = true) (hids : Func.idsBelow g c = true)
    (hm : m < c) (hmx : m ≠ x) (i : Nat) :
    (((demoteRegToStack x g c).1.blocks[i]?).elim false (blockUses m)) =
      ((g.blocks[i]?).elim false (blockUses m)) := by
  unfold demoteRegToStack
  by_cases hguard : (g.blocks.any fun b => b.insts.any fun u => u.resId = some x) = true
  · rw [if_pos hguard]
    dsimp only
    rw [demoteBlocks_pend_nophi x c g.blocks (c+1) (noPhis_elim g hnp), appendLoads_nil]
    rw [appendAllocaEntry_uses, insertStoreAfterDef_uses_other x m _
      (by
        simp only [Instr.usesId, Instr.operands, List.any_cons, List.any_nil]
        rw [Bool.or_false, Bool.or_eq_false_iff]
        constructor
        · rw [decide_eq_false_iff_not]
          intro hcon
          apply hmx
          have h9 := congrArg (fun o => match o with | Operand.reg z => z | _ => 0) hcon
          have h10 : x = m := by simpa using h9
          exact h10.symm
        · rw [decide_eq_false_iff_not]
          intro hcon
          have h9 := congrArg (fun o => match o with | Operand.reg z => z | _ => 0) hcon
          have h10 : c = m := by simpa using h9
          omega)]
    exact demoteBlocks_uses_eq x c m g.blocks (c+1) (noPhis_elim g hnp) (by omega) hmx
      (by omega) i
  · rw [if_neg hguard]

theorem demoteRegToStack_defs_eq (x m : Nat) (g : Func) (c : Nat)
    (hnp : noPhis g = true) (hm : m < c) (i : Nat) :
    (((demoteRegToStack x g c).1.blocks[i]?).elim [] (fun b => defsOf m b.insts)) =
      ((g.blocks[i]?).elim [] (fun b => defsOf m b.insts)) := by
  unfold demoteRegToStack
  by_cases hguard : (g.blocks.any fun b => b.insts.any fun u => u.resId = some x) = true
  · rw [if_pos hguard]
    dsimp only
    rw [demoteBlocks_pend_nophi x c g.blocks (c+1) (noPhis_elim g hnp), appendLoads_nil]
    rw [appendAllocaEntry_defs_other c m (by omega), insertStoreAfterDef_defs x m
      (Instr.store (Operand.reg x) (Operand.reg c)) rfl]
    exact demoteBlocks_defs_eq x c m g.blocks (c+1) (by omega) i
  · rw [if_neg hguard]

theorem stack_defs_transfer (x m : Nat) (g : Func) (c : Nat)
    (hnp : noPhis g = true) (hmc : m ≠ c)
    (hguard : (g.blocks.any fun b => b.insts.any fun u => u.resId = some x) = true)
    (i : Nat) :
    (((demoteRegToStack x g c).1.blocks[i]?).elim [] (fun b => defsOf m b.insts)) =
      (((demoteBlocks x c g.blocks (c+1)).1[i]?).elim [] (fun b => defsOf m b.insts)) := by
  unfold demoteRegToStack
  rw [if_pos hguard]
  dsimp only
  rw [demoteBlocks_pend_nophi x c g.blocks (c+1) (noPhis_elim g hnp), appendLoads_nil]
  rw [appendAllocaEntry_defs_other c m hmc, insertStoreAfterDef_defs x m
    (Instr.store (Operand.reg x) (Operand.reg c)) rfl]

theorem stack_uses_transfer (x m : Nat) (g : Func) (c : Nat)
    (hnp : noPhis g = true) (hmc : m ≠ c) (hmx : m ≠ x)
    (hguard : (g.blocks.any fun b => b.insts.any fun u => u.resId = some x) = true)
    (i : Nat) :
    (((demoteRegToStack x g c).1.blocks[i]?).elim false (blockUses m)) =
      (((demoteBlocks x c g.blocks (c+1)).1[i]?).elim false (blockUses m)) := by
  unfold demoteRegToStack
  rw [if_pos hguard]
  dsimp only
  rw [demoteBlocks_pend_nophi x c g.blocks (c+1) (noPhis_elim g hnp), appendLoads_nil]
  rw [appendAllocaEntry_uses, insertStoreAfterDef_uses_other x m
    (Instr.store (Operand.reg x) (Operand.reg c))
    (by
      simp only [Instr.usesId, Instr.operands, List.any_cons, List.any_nil]
      rw [Bool.or_false, Bool.or_eq_false_iff]
      constructor
      · rw [decide_eq_false_iff_not]
        intro hcon
        apply hmx
        have h9 := congrArg (fun o => match o with | Operand.reg z => z | _ => 0) hcon
        have h10 : x = m := by simpa using h9
        exact h10.symm
      · rw [decide_eq_false_iff_not]
        intro hcon
        apply hmc
        have h9 := congrArg (fun o => match o with | Operand.reg z => z | _ => 0) hcon
        have h10 : c = m := by simpa using h9
        exact h10.symm)]

theorem guard_of_defs (x : Nat) (g : Func) (i : Nat) (bi : Block)
    (hbi : g.blocks[i]? = some bi) (hd : defsOf x bi.insts ≠ []) :
    (g.blocks.any fun b => b.insts.any fun u => u.resId = some x) = true := by
  rw [List.any_eq_true]
  refine ⟨bi, mem_of_getElemQ _ _ _ hbi, ?_⟩
  rw [List.any_eq_true]
  rw [defsOf_ne_nil_iff] at hd
  obtain ⟨u, hu, hres⟩ := List.mem_filterMap.mp hd
  exact ⟨u, hu, by rw [decide_eq_true_iff]; exact hres⟩

theorem demoteRegToStack_uses_x (x : Nat) (g : Func) (c : Nat)
    (hnp : noPhis g = true) (hids : Func.idsBelow g c = true) (hx : x < c)
    (hguard : (g.blocks.any fun b => b.insts.any fun u => u.resId = some x) = true)
    (k : Nat)
    (h : (((demoteRegToStack x g c).1.blocks[k]?).elim false (blockUses x)) = true) :
    ((g.blocks[k]?).elim [] (fun b => defsOf x b.insts)) ≠ [] := by
  unfold demoteRegToStack at h
  rw [if_pos hguard] at h
  dsimp only at h
  rw [demoteBlocks_pend_nophi x c g.blocks (c+1) (noPhis_elim g hnp),
    appendLoads_nil] at h
  rw [appendAllocaEntry_uses] at h
  rw [insertStoreAfterDef_getQ] at h
  rcases hb1 : (demoteBlocks x c g.blocks (c+1)).1[k]? with _ | b1
  · rw [hb1] at h
    cases h
  · rw [hb1, Option.map_some'] at h
    dsimp only [Option.elim] at h
    unfold blockUses at h
    dsimp only at h
    have hb1u : blockUses x b1 = false :=
      demoteBlocks_uses_x x c g.blocks (c+1) (noPhis_elim g hnp)
        (by omega) (by omega) b1 (mem_of_getElemQ _ _ _ hb1)
    unfold blockUses at hb1u
    rw [Bool.or_eq_false_iff] at hb1u
    rw [insertAfterDef_uses, hb1u.1, hb1u.2] at h
    simp only [Bool.false_or, Bool.or_false] at h
    rw [Bool.and_eq_true] at h
    have hdef : defsOf x b1.insts ≠ [] := by
      rw [defsOf_ne_nil_iff]
      have h2 := h.1
      rw [List.any_eq_true] at h2
      obtain ⟨u, hu, hres⟩ := h2
      rw [decide_eq_true_iff] at hres
      exact List.mem_filterMap.mpr ⟨u, hu, hres⟩
    have h3 := demoteBlocks_defs_eq x c x g.blocks (c+1) (by omega) k
    rw [hb1] at h3
    rw [← h3]
    simpa using hdef

theorem demoteRegToStack_fresh (x : Nat) (g : Func) (c : Nat)
    (hnp : noPhis g = true) (hids : Func.idsBelow g c = true) (m : Nat) (hm : c ≤ m)
    (hm2 : m < (demoteRegToStack x g c).2) :
    (∀ (i : Nat) (bi : Block), (demoteRegToStack x g c).1.blocks[i]? = some bi →
      defsOf m bi.insts ≠ [] → i = 0 ∧ ∀ fl ∈ defsOf m bi.insts, fl = true) ∨
    ((∀ (i k : Nat) (bi bk : Block), (demoteRegToStack x g c).1.blocks[i]? = some bi →
        defsOf m bi.insts ≠ [] → (demoteRegToStack x g c).1.blocks[k]? = some bk →
        defsOf m bk.insts ≠ [] → i = k) ∧
      (∀ (k : Nat) (bk : Block), (demoteRegToStack x g c).1.blocks[k]? = some bk →
        blockUses m bk = true → defsOf m bk.insts ≠ []) ∧
      (∀ (i : Nat) (bi : Block), (demoteRegToStack x g c).1.blocks[i]? = some bi →
        ∀ fl ∈ defsOf m bi.insts, fl = false)) := by
  by_cases hguard : (g.blocks.any fun b => b.insts.any fun u => u.resId = some x) = true
  · have hx := guard_x_lt x g c hids hguard
    by_cases hmc : m = c
    · -- the fresh storage cell: a single alloca at the end of the entry block
      subst hmc
      left
      intro i bi hbi hd
      have hpipe : (demoteRegToStack x g m).1.blocks =
          appendAllocaEntry m (insertStoreAfterDef x
            (Instr.store (Operand.reg x) (Operand.reg m))
            (demoteBlocks x m g.blocks (m+1)).1) := by
        unfold demoteRegToStack
        rw [if_pos hguard]
        dsimp only
        rw [demoteBlocks_pend_nophi x m g.blocks (m+1) (noPhis_elim g hnp),
          appendLoads_nil]
      rw [hpipe] at hbi
      cases i with
      | zero =>
        refine ⟨rfl, ?_⟩
        rw [appendAllocaEntry_getQ_zero] at hbi
        rcases hb2 : (insertStoreAfterDef x (Instr.store (Operand.reg x) (Operand.reg m))
            (demoteBlocks x m g.blocks (m+1)).1)[0]? with _ | b2
        · rw [hb2] at hbi
          cases hbi
        · rw [hb2, Option.map_some'] at hbi
          have hbi2 := Option.some_inj.mp hbi
          rw [← hbi2]
          dsimp only
          rw [defsOf_append]
          have hz : defsOf m b2.insts = [] := by
            have h1 := insertStoreAfterDef_defs x m
              (Instr.store (Operand.reg x) (Operand.reg m)) rfl
              (demoteBlocks x m g.blocks (m+1)).1 0
            rw [hb2] at h1
            dsimp only [Option.elim] at h1
            have h2 := demoteBlocks_defs_eq x m m g.blocks (m+1) (by omega) 0
            rcases hb1 : (demoteBlocks x m g.blocks (m+1)).1[0]? with _ | b1
            · rw [hb1] at h1
              dsimp only [Option.elim] at h1
              exact h1
            · rw [hb1] at h1 h2
              dsimp only [Option.elim] at h1 h2
              rcases hbg : g.blocks[0]? with _ | bg
              · rw [hbg] at h2
                dsimp only [Option.elim] at h2
                rw [h1, h2]
              · rw [hbg] at h2
                dsimp only [Option.elim] at h2
                have h3 := (idsBelow_no_def_above g m m hids (le_refl m) 0).1
                rw [defsAt_eq g 0 m bg hbg] at h3
                rw [h1, h2, h3]
          rw [hz]
          intro fl hfl
          have hfl2 : fl ∈ defsOf m [Instr.alloca m] := by simpa using hfl
          unfold defsOf at hfl2
          simp only [List.filterMap_cons, List.filterMap_nil] at hfl2
          have hres : (Instr.alloca m).resId = some m := by simp [Instr.resId]
          rw [if_pos hres] at hfl2
          have : fl = (Instr.alloca m).isAlloca := by simpa using hfl2
          rw [this]
          simp [Instr.isAlloca]
      | succ j =>
        exfalso
        rw [appendAllocaEntry_getQ_succ] at hbi
        have h1 := insertStoreAfterDef_defs x m
          (Instr.store (Operand.reg x) (Operand.reg m)) rfl
          (demoteBlocks x m g.blocks (m+1)).1 (j+1)
        rw [hbi] at h1
        dsimp only [Option.elim] at h1
        have h2 := demoteBlocks_defs_eq x m m g.blocks (m+1) (by omega) (j+1)
        rcases hb1 : (demoteBlocks x m g.blocks (m+1)).1[j+1]? with _ | b1
        · rw [hb1] at h1
          dsimp only [Option.elim] at h1
          exact hd h1
        · rw [hb1] at h1 h2
          dsimp only [Option.elim] at h1 h2
          rcases hbg : g.blocks[j+1]? with _ | bg
          · rw [hbg] at h2
            dsimp only [Option.elim] at h2
            rw [h2] at h1
            exact hd h1
          · rw [hbg] at h2
            dsimp only [Option.elim] at h2
            have h3 := (idsBelow_no_def_above g m m hids (le_refl m) (j+1)).1
            rw [defsAt_eq g (j+1) m bg hbg] at h3
            rw [h3] at h2
            rw [h2] at h1
            exact hd h1
    · -- a fresh load: defined once, used only beside its definition
      right
      have hmx : m ≠ x := by omega
      have hub := fun b hb => idsBelow_elim g c hids b hb
      have hdown : ∀ (j : Nat) (bj : Block),
          (demoteRegToStack x g c).1.blocks[j]? = some bj →
          ∃ b1, (demoteBlocks x c g.blocks (c+1)).1[j]? = some b1 ∧
            defsOf m bj.insts = defsOf m b1.insts ∧
            blockUses m bj = blockUses m b1 := by
        intro j bj hbj
        have hD := stack_defs_transfer x m g c hnp hmc hguard j
        have hU := stack_uses_transfer x m g c hnp hmc hmx hguard j
        rw [hbj] at hD hU
        rcases hb1 : (demoteBlocks x c g.blocks (c+1)).1[j]? with _ | b1
        · exfalso
          -- the demoted list has the same length, so the index is in range
          have hlen := demoteBlocks_length x c g.blocks (c+1)
          have hlen2 : (demoteRegToStack x g c).1.blocks.length = g.blocks.length := by
            have := demoteRegToStack_map_bid x g c
            have h4 := congrArg List.length this
            simpa using h4
          rw [List.getElem?_eq_none_iff] at hb1
          rw [hlen] at hb1
          have h5 : (demoteRegToStack x g c).1.blocks[j]? = none := by
            rw [List.getElem?_eq_none_iff]
            omega
          rw [h5] at hbj
          cases hbj
        · rw [hb1] at hD hU
          dsimp only [Option.elim] at hD hU
          exact ⟨b1, rfl, hD, hU⟩
      refine ⟨?_, ?_, ?_⟩
      · intro i k bi bk hbi hdi hbk hdk
        obtain ⟨b1, hb1, hd1, _⟩ := hdown i bi hbi
        obtain ⟨b2, hb2, hd2, _⟩ := hdown k bk hbk
        exact demoteBlocks_defs_confine x c c g.blocks (c+1) hub (by omega) m
          (by omega) i k b1 b2 hb1 (by rw [← hd1]; exact hdi) hb2
          (by rw [← hd2]; exact hdk)
      · intro k bk hbk huse
        obtain ⟨b1, hb1, hd1, hu1⟩ := hdown k bk hbk
        rw [hd1]
        apply demoteBlocks_fresh_use_def x c c g.blocks (c+1) (noPhis_elim g hnp) hub
          (by omega) hx (by omega) m (by omega) k b1 hb1
        rw [← hu1]
        exact huse
      · intro i bi hbi fl hfl
        obtain ⟨b1, hb1, hd1, _⟩ := hdown i bi hbi
        rw [hd1] at hfl
        exact demoteBlocks_defs_fresh x c c g.blocks (c+1) hub (by omega) m hm b1
          (mem_of_getElemQ _ _ _ hb1) fl hfl
  · exfalso
    unfold demoteRegToStack at hm2
    rw [if_neg hguard] at hm2
    omega

theorem elim_ne_nil {A : Type} (o : Option A) (f : A → List Bool)
    (h : o.elim [] f ≠ []) : ∃ b, o = some b ∧ f b ≠ [] := by
  rcases o with _ | b
  · exact absurd rfl h
  · exact ⟨b, rfl, h⟩

theorem elim_true {A : Type} (o : Option A) (f : A → Bool)
    (h : o.elim false f = true) : ∃ b, o = some b ∧ f b = true := by
  rcases o with _ | b
  · cases h
  · exact ⟨b, rfl, h⟩

theorem demoteRegs_K (g : Func) (cS : Nat) (R : List Nat)
    (hgbids : (g.blocks.map Block.bid).Nodup)
    (hRlt : ∀ n ∈ R, n < cS)
    (hRdef : ∀ n ∈ R, ∃ i : Nat, ((g.blocks[i]?).elim [] (fun b => defsOf n b.insts)) ≠ [])
    (todo : List Nat) (htodo : ∀ n ∈ todo, n ∈ R) (h : Func) (c : Nat)
    (a1 : cS ≤ c) (a2 : noPhis h = true) (a3 : Func.idsBelow h c = true)
    (a4 : h.blocks.map Block.bid = g.blocks.map Block.bid)
    (a5 : ∀ m, m < cS → ∀ (i : Nat),
      ((h.blocks[i]?).elim [] (fun b => defsOf m b.insts)) =
        ((g.blocks[i]?).elim [] (fun b => defsOf m b.insts)))
    (a6 : ∀ m, m < cS →
      (∀ (i : Nat), ((h.blocks[i]?).elim false (blockUses m)) =
        ((g.blocks[i]?).elim false (blockUses m))) ∨
      (∀ (k : Nat) (bk : Block), h.blocks[k]? = some bk → blockUses m bk = true →
        ((g.blocks[k]?).elim [] (fun b => defsOf m b.insts)) ≠ []))
    (a7 : ∀ m ∈ R, m ∉ todo →
      ∀ (k : Nat) (bk : Block), h.blocks[k]? = some bk → blockUses m bk = true →
        ((g.blocks[k]?).elim [] (fun b => defsOf m b.insts)) ≠ [])
    (a8 : ∀ m, cS ≤ m → m < c →
      (∀ (i : Nat) (bi : Block), h.blocks[i]? = some bi →
        defsOf m bi.insts ≠ [] → i = 0 ∧ ∀ fl ∈ defsOf m bi.insts, fl = true) ∨
      ((∀ (i k : Nat) (bi bk : Block), h.blocks[i]? = some bi →
          defsOf m bi.insts ≠ [] → h.blocks[k]? = some bk →
          defsOf m bk.insts ≠ [] → i = k) ∧
        (∀ (k : Nat) (bk : Block), h.blocks[k]? = some bk →
          blockUses m bk = true → defsOf m bk.insts ≠ []) ∧
        (∀ (i : Nat) (bi : Block), h.blocks[i]? = some bi →
          ∀ fl ∈ defsOf m bi.insts, fl = false)))
    (a9 : ∀ (m i k : Nat) (bi bk : Block), h.blocks[i]? = some bi →
      defsOf m bi.insts ≠ [] → h.blocks[k]? = some bk → defsOf m bk.insts ≠ [] → i = k) :
    cS ≤ (demoteRegs todo h c).2 ∧ noPhis (demoteRegs todo h c).1 = true ∧
    Func.idsBelow (demoteRegs todo h c).1 (demoteRegs todo h c).2 = true ∧
    (demoteRegs todo h c).1.blocks.map Block.bid = g.blocks.map Block.bid ∧
    (∀ m, m < cS → ∀ (i : Nat),
      (((demoteRegs todo h c).1.blocks[i]?).elim [] (fun b => defsOf m b.insts)) =
        ((g.blocks[i]?).elim [] (fun b => defsOf m b.insts))) ∧
    (∀ m, m < cS →
      (∀ (i : Nat), (((demoteRegs todo h c).1.blocks[i]?).elim false (blockUses m)) =
        ((g.blocks[i]?).elim false (blockUses m))) ∨
      (∀ (k : Nat) (bk : Block), (demoteRegs todo h c).1.blocks[k]? = some bk →
        blockUses m bk = true →
        ((g.blocks[k]?).elim [] (fun b => defsOf m b.insts)) ≠ [])) ∧
    (∀ m ∈ R, m ∉ ([] : List Nat) →
      ∀ (k : Nat) (bk : Block), (demoteRegs todo h c).1.blocks[k]? = some bk →
        blockUses m bk = true →
        ((g.blocks[k]?).elim [] (fun b => defsOf m b.insts)) ≠ []) ∧
    (∀ m, cS ≤ m → m < (demoteRegs todo h c).2 →
      (∀ (i : Nat) (bi : Block), (demoteRegs todo h c).1.blocks[i]? = some bi →
        defsOf m bi.insts ≠ [] → i = 0 ∧ ∀ fl ∈ defsOf m bi.insts, fl = true) ∨
      ((∀ (i k : Nat) (bi bk : Block), (demoteRegs todo h c).1.blocks[i]? = some bi →
          defsOf m bi.insts ≠ [] → (demoteRegs todo h c).1.blocks[k]? = some bk →
          defsOf m bk.insts ≠ [] → i = k) ∧
        (∀ (k : Nat) (bk : Block), (demoteRegs todo h c).1.blocks[k]? = some bk →
          blockUses m bk = true → defsOf m bk.insts ≠ []) ∧
        (∀ (i : Nat) (bi : Block), (demoteRegs todo h c).1.blocks[i]? = some bi →
          ∀ fl ∈ defsOf m bi.insts, fl = false))) ∧
    (∀ (m i k : Nat) (bi bk : Block), (demoteRegs todo h c).1.blocks[i]? = some bi →
      defsOf m bi.insts ≠ [] → (demoteRegs todo h c).1.blocks[k]? = some bk →
      defsOf m bk.insts ≠ [] → i = k) := by
  induction todo generalizing h c with
  | nil =>
    refine ⟨a1, a2, a3, a4, a5, a6, ?_, a8, a9⟩
    intro m hmR hne
    exact a7 m hmR (fun hcon => by cases hcon)
  | cons x rest ih =>
    rw [demoteRegs_cons]
    have hxR : x ∈ R := htodo x (List.mem_cons_self _ _)
    have hxlt : x < cS := hRlt x hxR
    have hle := demoteRegToStack_le x h c
    -- x is defined in h where it is defined in g, so the demotion guard holds
    have hguard : (h.blocks.any fun b => b.insts.any fun u => u.resId = some x) = true := by
      obtain ⟨i0, hi0⟩ := hRdef x hxR
      rw [← a5 x hxlt i0] at hi0
      obtain ⟨bh, hbh, hdh⟩ := elim_ne_nil _ _ hi0
      exact guard_of_defs x h i0 bh hbh hdh
    -- the fresh right-branch fact established by demoting x
    have hxright : ∀ (k : Nat) (bk : Block),
        (demoteRegToStack x h c).1.blocks[k]? = some bk → blockUses x bk = true →
        ((g.blocks[k]?).elim [] (fun b => defsOf x b.insts)) ≠ [] := by
      intro k bk hbk huse
      have h2 := demoteRegToStack_uses_x x h c a2 a3 (by omega) hguard k
        (by rw [hbk]; exact huse)
      rw [a5 x hxlt k] at h2
      exact h2
    -- uses of other old ids are untouched per index
    have hother : ∀ m, m < c → m ≠ x → ∀ (i : Nat),
        (((demoteRegToStack x h c).1.blocks[i]?).elim false (blockUses m)) =
          ((h.blocks[i]?).elim false (blockUses m)) :=
      fun m hm hmx i => demoteRegToStack_uses_eq x m h c a2 a3 hm hmx i
    have hdefs : ∀ m, m < c → ∀ (i : Nat),
        (((demoteRegToStack x h c).1.blocks[i]?).elim [] (fun b => defsOf m b.insts)) =
          ((h.blocks[i]?).elim [] (fun b => defsOf m b.insts)) :=
      fun m hm i => demoteRegToStack_defs_eq x m h c a2 hm i
    -- a right-branch fact for any old id survives the demotion of x
    have hkeepright : ∀ m, m < cS → m ≠ x →
        (∀ (k : Nat) (bk : Block), h.blocks[k]? = some bk → blockUses m bk = true →
          ((g.blocks[k]?).elim [] (fun b => defsOf m b.insts)) ≠ []) →
        (∀ (k : Nat) (bk : Block), (demoteRegToStack x h c).1.blocks[k]? = some bk →
          blockUses m bk = true →
          ((g.blocks[k]?).elim [] (fun b => defsOf m b.insts)) ≠ []) := by
      intro m hm hmx hold k bk hbk huse
      have h2 := hother m (by omega) hmx k
      rw [hbk] at h2
      dsimp only [Option.elim] at h2
      rw [huse] at h2
      obtain ⟨bh, hbh, hbu⟩ := elim_true _ _ h2.symm
      exact hold k bh hbh hbu
    apply ih (fun q hq => htodo q (List.mem_cons_of_mem _ hq))
      (demoteRegToStack x h c).1 (demoteRegToStack x h c).2
    · omega
    · exact demoteRegToStack_nophi x h c a2
    · exact demoteRegToStack_idsBelow x h c a3
    · rw [demoteRegToStack_map_bid]
      exact a4
    · intro m hm i
      rw [hdefs m (by omega) i]
      exact a5 m hm i
    · intro m hm
      by_cases hmx : m = x
      · subst hmx
        exact Or.inr hxright
      · rcases a6 m hm with hl | hr
        · left
          intro i
          rw [hother m (by omega) hmx i]
          exact hl i
        · right
          exact hkeepright m hm hmx hr
    · intro m hmR hmrest
      by_cases hmx : m = x
      · subst hmx
        exact hxright
      · have hmold : m ∉ (x :: rest) := by
          intro hcon
          rcases List.mem_cons.mp hcon with h4 | h4
          · exact hmx h4
          · exact hmrest h4
        exact hkeepright m (hRlt m hmR) hmx (a7 m hmR hmold)
    · intro m hm hm2
      by_cases hnew : c ≤ m
      · exact demoteRegToStack_fresh x h c a2 a3 m hnew hm2
      · -- an old fresh id: both its definitions and its uses are untouched
        have hmx : m ≠ x := by omega
        have htr : ∀ (j : Nat) (bj : Block),
            (demoteRegToStack x h c).1.blocks[j]? = some bj →
            ∃ bh, h.blocks[j]? = some bh ∧ defsOf m bj.insts = defsOf m bh.insts ∧
              blockUses m bj = blockUses m bh := by
          intro j bj hbj
          have hD := hdefs m (by omega) j
          have hU := hother m (by omega) hmx j
          rw [hbj] at hD hU
          dsimp only [Option.elim] at hD hU
          rcases hbh : h.blocks[j]? with _ | bh
          · exfalso
            have hlen : (demoteRegToStack x h c).1.blocks.length = h.blocks.length := by
              have h4 := congrArg List.length (demoteRegToStack_map_bid x h c)
              simpa using h4
            rw [List.getElem?_eq_none_iff] at hbh
            have h5 : (demoteRegToStack x h c).1.blocks[j]? = none := by
              rw [List.getElem?_eq_none_iff]
              omega
            rw [h5] at hbj
            cases hbj
          · rw [hbh] at hD hU
            dsimp only [Option.elim] at hD hU
            exact ⟨bh, rfl, hD, hU⟩
        rcases a8 m hm (by omega) with hcell | hload
        · left
          intro i bi hbi hd
          obtain ⟨bh, hbh, hD, _⟩ := htr i bi hbi
          rw [hD] at hd ⊢
          exact hcell i bh hbh hd
        · right
          refine ⟨?_, ?_, ?_⟩
          · intro i k bi bk hbi hdi hbk hdk
            obtain ⟨b1, hb1, hD1, _⟩ := htr i bi hbi
            obtain ⟨b2, hb2, hD2, _⟩ := htr k bk hbk
            exact hload.1 i k b1 b2 hb1 (by rw [← hD1]; exact hdi) hb2
              (by rw [← hD2]; exact hdk)
          · intro k bk hbk huse
            obtain ⟨b1, hb1, hD1, hU1⟩ := htr k bk hbk
            rw [hD1]
            exact hload.2.1 k b1 hb1 (by rw [← hU1]; exact huse)
          · intro i bi hbi fl hfl
            obtain ⟨b1, hb1, hD1, _⟩ := htr i bi hbi
            rw [hD1] at hfl
            exact hload.2.2 i b1 hb1 fl hfl
    · exact demoteRegToStack_udef x h c a3 (by rw [a4]; exact hgbids) a9

theorem valueEscapes_char (f : Func) (hnp : noPhis f = true) (d m : Nat) :
    valueEscapes f d m = true ↔
      ∃ (k : Nat) (bk : Block), f.blocks[k]? = some bk ∧ blockUses m bk = true ∧
        bk.bid ≠ d := by
  unfold valueEscapes
  rw [List.any_eq_true]
  constructor
  · rintro ⟨b, hb, hcond⟩
    rw [Bool.or_eq_true] at hcond
    obtain ⟨k, hk⟩ := getQ_of_mem _ b hb
    refine ⟨k, b, hk, ?_⟩
    rcases hcond with h2 | h2
    · rw [List.any_eq_true] at h2
      obtain ⟨u, hu, h3⟩ := h2
      rw [Bool.and_eq_true] at h3
      have huphi : u.isPhi = false := noPhis_elim f hnp b hb u hu
      rw [Bool.or_eq_true] at h3
      have hbid : b.bid ≠ d := by
        rcases h3.2 with h4 | h4
        · exact of_decide_eq_true h4
        · rw [huphi] at h4
          cases h4
      refine ⟨?_, hbid⟩
      unfold blockUses
      rw [Bool.or_eq_true]
      left
      rw [List.any_eq_true]
      exact ⟨u, hu, h3.1⟩
    · rw [Bool.and_eq_true] at h2
      refine ⟨?_, of_decide_eq_true h2.2⟩
      unfold blockUses
      rw [Bool.or_eq_true]
      right
      exact h2.1
  · rintro ⟨k, bk, hk, huse, hbid⟩
    refine ⟨bk, mem_of_getElemQ _ _ _ hk, ?_⟩
    rw [Bool.or_eq_true]
    unfold blockUses at huse
    rw [Bool.or_eq_true] at huse
    rcases huse with h2 | h2
    · left
      rw [List.any_eq_true] at h2 ⊢
      obtain ⟨u, hu, h3⟩ := h2
      refine ⟨u, hu, ?_⟩
      rw [Bool.and_eq_true]
      exact ⟨h3, by rw [Bool.or_eq_true]; left; exact decide_eq_true hbid⟩
    · right
      rw [Bool.and_eq_true]
      exact ⟨h2, decide_eq_true hbid⟩

theorem usedOOB_eq_escape (f : Func) (hnp : noPhis f = true) (d m : Nat) :
    usedOutsideOfBlock f d m = valueEscapes f d m := by
  unfold usedOutsideOfBlock valueEscapes
  apply list_any_congr
  intro b hb
  have h1 : (b.insts.any fun u =>
      match u with
      | Instr.phi _ inc => inc.any fun pv => pv.2 = Operand.reg m && decide (pv.1 ≠ d)
      | _ => u.usesId m && decide (b.bid ≠ d)) =
      (b.insts.any fun u => u.usesId m && (decide (b.bid ≠ d) || u.isPhi)) := by
    apply list_any_congr
    intro u hu
    have huphi : u.isPhi = false := noPhis_elim f hnp b hb u hu
    rw [huphi]
    rw [Bool.or_false]
    cases u with
    | phi m0 inc => simp [Instr.isPhi] at huphi
    | alloca m0 => rfl
    | load m0 p => rfl
    | store v p => rfl
    | select m0 c2 o1 o2 => rfl
    | op m0 as => rfl
  rw [h1]

theorem defsOf_mem_of_inst (m : Nat) (l : List Instr) (j : Instr) (hj : j ∈ l)
    (hres : j.resId = some m) : j.isAlloca ∈ defsOf m l := by
  unfold defsOf
  exact List.mem_filterMap.mpr ⟨j, hj, by rw [if_pos hres]⟩

theorem inst_of_defsOf_mem (m : Nat) (l : List Instr) (fl : Bool)
    (h : fl ∈ defsOf m l) : ∃ j ∈ l, j.resId = some m ∧ j.isAlloca = fl := by
  unfold defsOf at h
  obtain ⟨j, hj, hje⟩ := List.mem_filterMap.mp h
  by_cases hres : j.resId = some m
  · rw [if_pos hres] at hje
    exact ⟨j, hj, hres, by simpa using hje⟩
  · rw [if_neg hres] at hje
    cases hje

theorem entryBid_of_getQ (f : Func) (b : Block) (h : f.blocks[0]? = some b) :
    entryBid f = b.bid := by
  unfold entryBid
  rcases hbs : f.blocks with _ | ⟨b0, rest⟩
  · rw [hbs] at h
    cases h
  · rw [hbs] at h
    have : b0 = b := by simpa using h
    rw [this]
    rfl

theorem entryBid_eq_of_map_bid (h g : Func)
    (he : h.blocks.map Block.bid = g.blocks.map Block.bid) : entryBid h = entryBid g := by
  unfold entryBid
  rcases hbs : h.blocks with _ | ⟨b0, rest⟩
  · rcases hgs : g.blocks with _ | ⟨c0, rest2⟩
    · rfl
    · rw [hbs, hgs] at he
      cases he
  · rcases hgs : g.blocks with _ | ⟨c0, rest2⟩
    · rw [hbs, hgs] at he
      cases he
    · rw [hbs, hgs] at he
      rw [List.map_cons, List.map_cons] at he
      have : b0.bid = c0.bid := by
        have h4 := congrArg (fun l => l.headD 0) he
        simpa using h4
      dsimp only [List.headD]
      exact this

theorem bid_at_of_map_bid (h g : Func)
    (he : h.blocks.map Block.bid = g.blocks.map Block.bid) (i : Nat) (bh bg : Block)
    (hh : h.blocks[i]? = some bh) (hg : g.blocks[i]? = some bg) : bh.bid = bg.bid := by
  have h1 : (h.blocks.map Block.bid)[i]? = some bh.bid := by
    rw [List.getElem?_map, hh, Option.map_some']
  have h2 : (g.blocks.map Block.bid)[i]? = some bg.bid := by
    rw [List.getElem?_map, hg, Option.map_some']
  rw [he] at h1
  rw [h1] at h2
  exact Option.some_inj.mp h2

theorem collectPhis_nil_of_noPhis (f : Func) (hnp : noPhis f = true) :
    collectPhis f = [] := by
  unfold collectPhis
  rw [List.flatten_eq_nil_iff]
  intro l hl
  obtain ⟨b, hb, rfl⟩ := List.mem_map.mp hl
  rw [List.filterMap_eq_nil_iff]
  intro j hj
  rw [noPhis_elim f hnp b hb j hj]
  rfl

theorem collectRegs_nil_intro (h : Func)
    (hmain : ∀ (i : Nat) (b : Block), h.blocks[i]? = some b → ∀ j ∈ b.insts,
      ∀ (nn : Nat), j.resId = some nn → j.isPhi = false →
      ¬(j.isAlloca = true ∧ b.bid = entryBid h) →
      (valueEscapes h b.bid nn || usedOutsideOfBlock h b.bid nn) = false) :
    collectRegs h = [] := by
  unfold collectRegs
  rw [List.flatten_eq_nil_iff]
  intro l hl
  obtain ⟨b, hb, rfl⟩ := List.mem_map.mp hl
  rw [List.filterMap_eq_nil_iff]
  intro j hj
  obtain ⟨i, hi⟩ := getQ_of_mem _ b hb
  rcases hres : j.resId with _ | nn
  · rfl
  · show (if j.isPhi then none else _) = none
    by_cases hphi : j.isPhi = true
    · rw [if_pos hphi]
    · rw [Bool.not_eq_true] at hphi
      rw [if_neg (by rw [hphi]; exact fun hcon => nomatch hcon)]
      by_cases hex : (j.isAlloca && decide (b.bid = entryBid h)) = true
      · rw [if_pos hex]
      · rw [if_neg hex]
        have hesc := hmain i b hi j hj nn hres hphi
          (by
            intro hcon
            apply hex
            rw [Bool.and_eq_true]
            exact ⟨hcon.1, decide_eq_true hcon.2⟩)
        rw [hesc]
        rfl

theorem nodup_flat_defs_index (bs : List Block)
    (h : ((bs.map fun b => b.insts.filterMap Instr.resId).flatten).Nodup) :
    ∀ (m i k : Nat) (bi bk : Block), bs[i]? = some bi → defsOf m bi.insts ≠ [] →
      bs[k]? = some bk → defsOf m bk.insts ≠ [] → i = k := by
  induction bs with
  | nil => intro m i k bi bk hbi; cases hbi
  | cons b rest ih =>
    rw [List.map_cons, List.flatten_cons] at h
    have hdisj := List.disjoint_of_nodup_append h
    intro m i k bi bk hbi hdi hbk hdk
    have hmem : ∀ (j : Nat) (bj : Block), rest[j]? = some bj → defsOf m bj.insts ≠ [] →
        m ∈ (rest.map fun b => b.insts.filterMap Instr.resId).flatten := by
      intro j bj hbj hdj
      rw [List.mem_flatten]
      refine ⟨bj.insts.filterMap Instr.resId,
        List.mem_map.mpr ⟨bj, mem_of_getElemQ _ _ _ hbj, rfl⟩, ?_⟩
      rw [← defsOf_ne_nil_iff]
      exact hdj
    cases i with
    | zero =>
      cases k with
      | zero => rfl
      | succ j =>
        exfalso
        have hbi2 : bi = b := by simpa using hbi.symm
        rw [hbi2] at hdi
        have h1 : m ∈ b.insts.filterMap Instr.resId := by
          rw [← defsOf_ne_nil_iff]
          exact hdi
        have h2 := hmem j bk (by simpa using hbk) hdk
        exact hdisj h1 h2
    | succ j =>
      cases k with
      | zero =>
        exfalso
        have hbk2 : bk = b := by simpa using hbk.symm
        rw [hbk2] at hdk
        have h1 : m ∈ b.insts.filterMap Instr.resId := by
          rw [← defsOf_ne_nil_iff]
          exact hdk
        have h2 := hmem j bi (by simpa using hbi) hdi
        exact hdisj h1 h2
      | succ j2 =>
        have := ih (List.Nodup.of_append_right h) m j j2 bi bk (by simpa using hbi) hdi
          (by simpa using hbk) hdk
        omega

theorem nodup_resIds_index (f : Func) (h : (resIds f).Nodup) :
    ∀ (m i k : Nat) (bi bk : Block), f.blocks[i]? = some bi → defsOf m bi.insts ≠ [] →
      f.blocks[k]? = some bk → defsOf m bk.insts ≠ [] → i = k := by
  apply nodup_flat_defs_index
  exact h

theorem fixPass_phiFree (g : Func) (cS : Nat) (hnp : noPhis g = true) :
    fixPass g cS = demoteRegs (collectRegs g) g cS := by
  unfold fixPass
  dsimp only
  rw [collectPhis_nil_of_noPhis g hnp]
  unfold demotePhis
  rw [List.foldl_nil]

theorem fixPass_phiFree_empty (g : Func) (cS : Nat)
    (hnp : noPhis g = true) (hids : Func.idsBelow g cS = true)
    (hbids : (g.blocks.map Block.bid).Nodup)
    (hudef : ∀ (m i k : Nat) (bi bk : Block), g.blocks[i]? = some bi →
      defsOf m bi.insts ≠ [] → g.blocks[k]? = some bk → defsOf m bk.insts ≠ [] →
      i = k) :
    collectEmpty (fixPass g cS).1 = true := by
  rw [fixPass_phiFree g cS hnp]
  have hRdef : ∀ n ∈ collectRegs g, ∃ i : Nat,
      ((g.blocks[i]?).elim [] (fun b => defsOf n b.insts)) ≠ [] := by
    intro n hn
    obtain ⟨b, hb, j, hj, hres, hrest⟩ := collectRegs_sound g n hn
    obtain ⟨i, hi⟩ := getQ_of_mem _ b hb
    refine ⟨i, ?_⟩
    rw [hi]
    show defsOf n b.insts ≠ []
    rw [defsOf_ne_nil_iff]
    exact List.mem_filterMap.mpr ⟨j, hj, hres⟩
  have K := demoteRegs_K g cS (collectRegs g) hbids (collectRegs_lt g cS hids) hRdef
    (collectRegs g) (fun n hn => hn) g cS (le_refl cS) hnp hids rfl
    (fun m hm i => rfl) (fun m hm => Or.inl (fun i => rfl))
    (fun m hmR hnot => absurd hmR hnot)
    (fun m hm1 hm2 => absurd hm2 (by omega)) hudef
  obtain ⟨K1, K2, K3, K4, K5, K6, K7, K8, K9⟩ := K
  unfold collectEmpty
  rw [collectPhis_nil_of_noPhis _ K2]
  have hregs : collectRegs (demoteRegs (collectRegs g) g cS).1 = [] := by
    apply collectRegs_nil_intro
    intro i b hbi j hj nn hres hphi hexneg
    have hd_i : defsOf nn b.insts ≠ [] := by
      rw [defsOf_ne_nil_iff]
      exact List.mem_filterMap.mpr ⟨j, hj, hres⟩
    rw [usedOOB_eq_escape _ K2, Bool.or_self]
    -- a refutation route shared by all cases with uses confined to
    -- definition sites
    have rroute : (∀ (k : Nat) (bk : Block),
        (demoteRegs (collectRegs g) g cS).1.blocks[k]? = some bk →
        blockUses nn bk = true →
        ((g.blocks[k]?).elim [] (fun b2 => defsOf nn b2.insts)) ≠ []) →
        valueEscapes (demoteRegs (collectRegs g) g cS).1 b.bid nn = false := by
      intro hypo
      by_contra hcon
      rw [Bool.not_eq_false] at hcon
      rw [valueEscapes_char _ K2] at hcon
      obtain ⟨k, bk, hbk, huse, hbidne⟩ := hcon
      have hgd := hypo k bk hbk huse
      have hlt : nn < cS ∨ cS ≤ nn := by omega
      -- transfer the g definition at k back into the demoted function
      have hhd : ((demoteRegs (collectRegs g) g cS).1.blocks[k]?).elim []
          (fun b2 => defsOf nn b2.insts) ≠ [] := by
        rcases hlt with hlt2 | hlt2
        · rw [K5 nn hlt2 k]
          exact hgd
        · -- a fresh id is never defined in g at all
          exfalso
          obtain ⟨bg, hbg, hdg⟩ := elim_ne_nil _ _ hgd
          have := defsOf_lt_of_idsBelow cS nn bg.insts
            ((idsBelow_elim g cS hids bg (mem_of_getElemQ _ _ _ hbg)).1) hdg
          omega
      obtain ⟨bk2, hbk2, hdk2⟩ := elim_ne_nil _ _ hhd
      rw [hbk] at hbk2
      have hbke : bk2 = bk := Option.some_inj.mp hbk2.symm
      rw [hbke] at hdk2
      have := K9 nn k i bk b hbk hdk2 hbi hd_i
      rw [this] at hbk
      rw [hbi] at hbk
      exact hbidne (by rw [Option.some_inj.mp hbk])
    by_cases hscope : nn < cS
    · by_cases hmem : nn ∈ collectRegs g
      · exact rroute (K7 nn hmem (List.not_mem_nil nn))
      · rcases K6 nn hscope with hleft | hright
        · -- untouched uses: any escape after demotion is an escape the
          -- original scan saw, so nn would have been collected
          by_contra hcon
          rw [Bool.not_eq_false] at hcon
          rw [valueEscapes_char _ K2] at hcon
          obtain ⟨k, bk, hbk, huse, hbidne⟩ := hcon
          -- locate the definition of nn in g at index i
          have hK5i := K5 nn hscope i
          rw [hbi] at hK5i
          have hgde : ((g.blocks[i]?).elim [] (fun b2 => defsOf nn b2.insts)) ≠ [] := by
            rw [← hK5i]
            show defsOf nn b.insts ≠ []
            exact hd_i
          obtain ⟨bgi, hbgi, hdgi⟩ := elim_ne_nil _ _ hgde
          have hbidg : b.bid = bgi.bid :=
            bid_at_of_map_bid (demoteRegs (collectRegs g) g cS).1 g K4 i b bgi hbi hbgi
          have hflag : j.isAlloca ∈ defsOf nn bgi.insts := by
            have h1 : j.isAlloca ∈ defsOf nn b.insts :=
              defsOf_mem_of_inst nn b.insts j hj hres
            have h2 : defsOf nn b.insts = defsOf nn bgi.insts := by
              have h3 := hK5i
              rw [hbgi] at h3
              exact h3
            rw [← h2]
            exact h1
          obtain ⟨j0, hj0, hres0, hfl0⟩ := inst_of_defsOf_mem nn bgi.insts j.isAlloca hflag
          -- find the corresponding use of nn in g at index k
          have hKleft := hleft k
          rw [hbk] at hKleft
          have hguse : ((g.blocks[k]?).elim false (blockUses nn)) = true := by
            rw [← hKleft]
            exact huse
          obtain ⟨bg, hbg, busesg⟩ := elim_true _ _ hguse
          have hbidk : bk.bid = bg.bid :=
            bid_at_of_map_bid (demoteRegs (collectRegs g) g cS).1 g K4 k bk bg hbk hbg
          apply hmem
          apply collectRegs_complete g bgi j0 nn (mem_of_getElemQ _ _ _ hbgi) hj0 hres0
            (noPhis_elim g hnp bgi (mem_of_getElemQ _ _ _ hbgi) j0 hj0)
          · by_cases hja : j.isAlloca = true
            · right
              intro hcon2
              apply hexneg
              refine ⟨hja, ?_⟩
              rw [hbidg, hcon2]
              exact (entryBid_eq_of_map_bid (demoteRegs (collectRegs g) g cS).1 g K4).symm
            · left
              rw [hfl0]
              rw [Bool.not_eq_true] at hja
              exact hja
          · left
            rw [valueEscapes_char g hnp]
            refine ⟨k, bg, hbg, busesg, ?_⟩
            intro hcon2
            apply hbidne
            rw [hbidk, hcon2, ← hbidg]
        · exact rroute hright
    · -- a fresh id created by the demotion round
      have hnnlt : nn < (demoteRegs (collectRegs g) g cS).2 := by
        have hbmem := mem_of_getElemQ _ _ _ hbi
        have h1 := (idsBelow_elim (demoteRegs (collectRegs g) g cS).1
          (demoteRegs (collectRegs g) g cS).2 K3 b hbmem).1
        exact defsOf_lt_of_idsBelow _ nn b.insts h1 hd_i
      rcases K8 nn (by omega) hnnlt with hcell | hload
      · exfalso
        obtain ⟨hi0, hflags⟩ := hcell i b hbi hd_i
        apply hexneg
        constructor
        · exact hflags j.isAlloca (defsOf_mem_of_inst nn b.insts j hj hres)
        · subst hi0
          exact (entryBid_of_getQ _ b hbi).symm
      · by_contra hcon
        rw [Bool.not_eq_false] at hcon
        rw [valueEscapes_char _ K2] at hcon
        obtain ⟨k, bk, hbk, huse, hbidne⟩ := hcon
        have hdk := hload.2.1 k bk hbk huse
        have := hload.1 k i bk b hbk hdk hbi hd_i
        rw [this] at hbk
        rw [hbi] at hbk
        exact hbidne (by rw [Option.some_inj.mp hbk])
  rw [hregs]
  rfl

theorem fixIter_succ (n : Nat) (f : Func) (c : Nat) :
    fixIter (n+1) f c =
      if collectEmpty (fixPass f c).1 then fixPass f c
      else fixIter n (fixPass f c).1 (fixPass f c).2 := rfl

theorem fixIter_succ_of_empty (g : Func) (c : Nat)
    (h : collectEmpty (fixPass g c).1 = true) (k : Nat) :
    fixIter (k+1) g c = fixPass g c := by
  rw [fixIter_succ, if_pos h]

/-- C9: the liveness-repair fixed-point loop (fixStack, Flattening.cpp:74)
terminates on every function satisfying the LLVM IR invariants: distinct
result ids (SSA pointer identity), distinct block ids (pointer identity)
and all ids below the fresh counter.  After at most two scan-and-demote
rounds the scan collects nothing (the quantity of escaping values is zero),
the do-while exits, and every further iterate equals the two-round result,
so `fixStack := fixIter 2` computes the loop's fixed point. -/
theorem fixstack_terminates (f : Func) (c : Nat) (k : Nat)
    (hids : Func.idsBelow f c = true)
    (hbids : (f.blocks.map Block.bid).Nodup)
    (hnodup : (resIds f).Nodup) :
    collectEmpty (fixStack f c).1 = true ∧ fixIter (2 + k) f c = fixStack f c := by
  have hudef := nodup_resIds_index f hnodup
  obtain ⟨P1, P2, P3, P4, P5⟩ := fixPass_pack f c hids hbids hudef
  have hE2 : collectEmpty (fixPass (fixPass f c).1 (fixPass f c).2).1 = true := by
    apply fixPass_phiFree_empty (fixPass f c).1 (fixPass f c).2 P5 P2
    · rw [P3]
      exact hbids
    · exact P4
  unfold fixStack
  have h2k : 2 + k = (k + 1) + 1 := by omega
  by_cases hce1 : collectEmpty (fixPass f c).1 = true
  · have hfix2 : fixIter 2 f c = fixPass f c := by
      rw [show (2 : Nat) = 1 + 1 from rfl, fixIter_succ, if_pos hce1]
    constructor
    · rw [hfix2]
      exact hce1
    · rw [h2k, fixIter_succ_of_empty f c hce1 (k+1), hfix2]
  · have hfix2 : fixIter 2 f c = fixPass (fixPass f c).1 (fixPass f c).2 := by
      rw [show (2 : Nat) = 1 + 1 from rfl, fixIter_succ, if_neg hce1]
      exact fixIter_succ_of_empty (fixPass f c).1 (fixPass f c).2 hE2 0
    constructor
    · rw [hfix2]
      exact hE2
    · rw [h2k, fixIter_succ, if_neg hce1, hfix2]
      exact fixIter_succ_of_empty (fixPass f c).1 (fixPass f c).2 hE2 k

/-- C9 witness: on `exC9` (entry-computed value returned from the second
block) with fresh counter 6, the hypotheses hold and the loop reaches its
fixed point: the third iterate equals `fixStack`. -/
theorem fixstack_terminates_witness :
    Func.idsBelow exC9 6 = true ∧ (exC9.blocks.map Block.bid).Nodup ∧
      (resIds exC9).Nodup ∧
      (collectEmpty (fixStack exC9 6).1 = true ∧ fixIter (2 + 1) exC9 6 = fixStack exC9 6) :=
  ⟨by decide, by decide, by decide,
    fixstack_terminates exC9 6 1 (by decide) (by decide) (by decide)⟩

end Flattening
